import Mathlib

/-!
# Power profiles of a static schedule

A shallow embedding of the package `power` (files `main.go`, `dynamic.go`):
the breakpoint merger `traverse`, the variable-step profile `Partition`, the
fixed-step profile `Sample`, the instantaneous query `Progress` and the managers
that collect the power vector; and of the package `leakage`.

Conventions of the embedding.

* `float64` values are exact rationals (`ℚ`); `uint` values are natural numbers
  (every `uint` of these functions is a slice length or a slice index).
* In `Sample` a quotient of two times is converted to a row number, so the rounding
  of `float64` decides the result: there the division and the addition are the exact
  operation followed by `round64`, the rounding to the nearest `float64`, and the
  conversion `uint(x)` is `toUint`.  The other functions are embedded with exact
  arithmetic.
* A Go slice is a `List`.  Reading or writing a slice outside of its bounds
  panics in Go; here every such access is checked and the function returns
  `none`.  `some r` therefore means: the Go function returns `r` without a panic.
* A counted `for` loop is `forRange body n i st`: `n` iterations of `body`,
  the loop variable starting at `i`.
-/

namespace Power

/-! ## Data model -/

/-- The structure `time.Schedule`, restricted to the fields read by this package. -/
structure Schedule where
  Cores : ℕ
  Tasks : ℕ
  Mapping : List ℕ
  Start : List ℚ
  Finish : List ℚ
  Span : ℚ

/-- The slices of a schedule have `Tasks` entries and every task is mapped to an
existing core. -/
def Schedule.WellFormed (sch : Schedule) : Prop :=
  sch.Mapping.length = sch.Tasks ∧ sch.Start.length = sch.Tasks ∧
    sch.Finish.length = sch.Tasks ∧ ∀ j ∈ sch.Mapping, j < sch.Cores

/-- Two distinct tasks mapped to the same core never overlap in time. -/
def Schedule.NonOverlapping (sch : Schedule) : Prop :=
  ∀ a b : ℕ, a < sch.Tasks → b < sch.Tasks → a ≠ b →
    sch.Mapping.getD a 0 = sch.Mapping.getD b 0 →
    sch.Finish.getD a 0 ≤ sch.Start.getD b 0 ∨ sch.Finish.getD b 0 ≤ sch.Start.getD a 0

/-! ## Slices and loops -/

/-- The assignment `xs[i] = v`; `none` is the out-of-range panic. -/
def setAt {α : Type} (xs : List α) (i : ℕ) (v : α) : Option (List α) :=
  if i < xs.length then some (xs.set i v) else none

/-- The call `copy(dst[lo:], src)`: it copies `min (len dst - lo) (len src)` elements. -/
def copyAt {α : Type} (dst : List α) (lo : ℕ) (src : List α) : List α :=
  dst.take lo ++ src.take (dst.length - lo) ++ dst.drop (lo + src.length)

/-- The loop `for i := i0; i < i0 + n; i++ { st = body i st }`; a panic of the body
ends the loop. -/
def forRange {σ : Type} (body : ℕ → σ → Option σ) : ℕ → ℕ → σ → Option σ
  | 0, _, st => some st
  | n + 1, i, st =>
    match body i st with
    | some st' => forRange body n (i + 1) st'
    | none => none

/-! ## Arithmetic of `float64` and the conversion to `uint` -/

/-- The integer nearest to `q`; when `q` lies half-way between two integers, the even
one. -/
def roundEven (q : ℚ) : ℤ :=
  if q - ⌊q⌋ < 1 / 2 then ⌊q⌋
  else if 1 / 2 < q - ⌊q⌋ then ⌊q⌋ + 1
  else if ⌊q⌋ % 2 = 0 then ⌊q⌋ else ⌊q⌋ + 1

/-- The rounding of `float64` arithmetic (binary64, round to nearest, ties to even):
the `float64` nearest to the exact value `x`.  A value with `2^e ≤ |x| < 2^(e+1)` is
rounded to a multiple of `2^(e-52)` (53 significant bits), and a value below `2^-1022`
to a multiple of `2^-1074` (gradual underflow).  The exponent is not bounded above: a
value that overflows to `+Inf` in Go is here a finite value of at least `2^1023`,
which, like `+Inf`, is outside of the range of `uint`. -/
def round64 (x : ℚ) : ℚ :=
  if x = 0 then 0
  else
    let e := max (Int.log 2 |x|) (-1022)
    roundEven (x / 2 ^ (e - 52)) * 2 ^ (e - 52)

/-- The quotient `x / y` of two `float64` values, `y ≠ 0`: the exact quotient,
rounded. -/
def div64 (x y : ℚ) : ℚ := round64 (x / y)

/-- The sum `x + y` of two `float64` values: the exact sum, rounded. -/
def add64 (x y : ℚ) : ℚ := round64 (x + y)

/-- What the language leaves to the implementation in the conversion `uint(x)`: the
size of `uint` in bits (32 or 64) and the value of the conversion when the truncated
`x` is not a `uint`. -/
structure Machine where
  bits : ℕ
  outOfRange : ℚ → ℕ

/-- The conversion `uint(x)` of a `float64`: the fraction is discarded (truncation
towards zero); when the truncated value is not a `uint`, the conversion succeeds with
a value that depends on the implementation. -/
def toUint (m : Machine) (x : ℚ) : ℕ :=
  if -1 < x ∧ x < 2 ^ m.bits then ⌊x⌋.toNat else m.outOfRange x

/-! ## The sort -/

/-- Modelled from the spec: `sort.Quick` of the package `ready-steady/sort`, which is
not part of this repository.  It sorts the slice ascending in place and returns the
permutation from sorted position back to original index; the model is a stable
insertion sort and returns the permutation together with the sorted slice. -/
def Quick (data : List ℚ) : List ℕ × List ℚ :=
  let sorted := data.enum.insertionSort (fun a b => a.2 ≤ b.2)
  (sorted.map Prod.fst, sorted.map Prod.snd)

/-! ## `traverse` -/

/-- The state of the loop of `traverse`: the representative `x` of the current cell,
the cell index `j`, the slice `Δ` and the slice `steps`. -/
structure Walk where
  x : ℚ
  j : ℕ
  Δ : List ℚ
  steps : List ℕ

/-- The body of the loop of `traverse`, at loop index `i`; `points` is the sorted
slice. -/
def traverseBody (order : List ℕ) (points : List ℚ) (ε : ℚ) (i : ℕ) (w : Walk) :
    Option Walk :=
  match points[i]? with
  | none => none
  | some v =>
    if v - w.x > ε then
      match setAt w.Δ w.j (v - w.x), order[i]? with
      | some Δ', some o =>
        match setAt w.steps o (w.j + 1) with
        | some steps' => some ⟨v, w.j + 1, Δ', steps'⟩
        | none => none
      | _, _ => none
    else
      match order[i]? with
      | some o =>
        match setAt w.steps o w.j with
        | some steps' => some ⟨w.x, w.j, w.Δ, steps'⟩
        | none => none
      | none => none

/-- The part of `traverse` after the sort: `order` is the permutation and `points`
the sorted slice.  With no point at all the allocation of `np-1` elements panics. -/
def traverseSorted (order : List ℕ) (points : List ℚ) (ε : ℚ) :
    Option (List ℚ × List ℕ) :=
  let np := points.length
  if np = 0 then none
  else
    match points[0]? with
    | none => none
    | some x0 =>
      match forRange (traverseBody order points ε) (np - 1) 1
          ⟨x0, 0, List.replicate (np - 1) 0, List.replicate np 0⟩ with
      | none => none
      | some w => if w.j ≤ w.Δ.length then some (w.Δ.take w.j, w.steps) else none

/-- The function `traverse`: it returns the gaps between the merged instants and,
for every input value, the index of its cell. -/
def traverse (points : List ℚ) (ε : ℚ) : Option (List ℚ × List ℕ) :=
  traverseSorted (Quick points).1 (Quick points).2 ε

/-! ## `Partition` and `Sample` -/

/-- The loop `for ; s < f; s++ { P[s*nc+j] = p }`. -/
def fillRows (nc j : ℕ) (p : ℚ) (s f : ℕ) (P : List ℚ) : Option (List ℚ) :=
  forRange (fun r Q => setAt Q (r * nc + j) p) (f - s) s P

/-- The body of the loop over the tasks in `Partition`. -/
def partitionBody (nc : ℕ) (power : List ℚ) (mapping ssteps fsteps : List ℕ) (i : ℕ)
    (P : List ℚ) : Option (List ℚ) :=
  match mapping[i]?, power[i]?, ssteps[i]?, fsteps[i]? with
  | some j, some p, some s, some f => fillRows nc j p s f P
  | _, _, _, _ => none

/-- The slice `time` that `Partition` builds: `make` followed by the three calls of
`copy`, for the start times, the finish times and the extra points. -/
def timeOf (schedule : Schedule) (points : List ℚ) : List ℚ :=
  let nt := schedule.Tasks
  let np := points.length
  let time0 : List ℚ := List.replicate (2 * nt + np) 0
  let time1 := copyAt (time0.take nt) 0 schedule.Start ++ time0.drop nt
  let time2 := copyAt time1 nt schedule.Finish
  copyAt time2 (2 * nt) points

/-- The function `Partition` of `main.go`: the power matrix, the durations of the
steps and the cell indices of the extra points. -/
def Partition (power : List ℚ) (schedule : Schedule) (points : List ℚ) (ε : ℚ) :
    Option (List ℚ × List ℚ × List ℕ) :=
  let nc := schedule.Cores
  let nt := schedule.Tasks
  let time := timeOf schedule points
  match traverse time ε with
  | none => none
  | some (ΔT, steps) =>
    let ssteps := steps.take nt
    let fsteps := (steps.drop nt).take nt
    let psteps := steps.drop (2 * nt)
    let ns := ΔT.length
    match forRange (partitionBody nc power schedule.Mapping ssteps fsteps) nt 0
        (List.replicate (nc * ns) 0) with
    | none => none
    | some P => some (P, ΔT, psteps)

/-- The body of the loop over the tasks in `Sample`; `ns` is the effective number of
samples. -/
def sampleBody (m : Machine) (nc : ℕ) (power : List ℚ) (schedule : Schedule) (Δt : ℚ)
    (ns : ℕ) (i : ℕ) (P : List ℚ) : Option (List ℚ) :=
  match schedule.Mapping[i]?, power[i]?, schedule.Start[i]?, schedule.Finish[i]? with
  | some j, some p, some start, some finish =>
    let s := toUint m (add64 (div64 start Δt) (1 / 2))
    let f := toUint m (add64 (div64 finish Δt) (1 / 2))
    let f := if f > ns then ns else f
    fillRows nc j p s f P
  | _, _, _, _ => none

/-- The function `Sample` (the same text in `main.go` and in `dynamic.go`), for finite
times and `Δt ≠ 0`. -/
def Sample (m : Machine) (power : List ℚ) (schedule : Schedule) (Δt : ℚ) (ns : ℕ) :
    Option (List ℚ) :=
  let nc := schedule.Cores
  let nt := schedule.Tasks
  let P : List ℚ := List.replicate (nc * ns) 0
  let count := toUint m (div64 schedule.Span Δt)
  let ns := if count < ns then count else ns
  forRange (sampleBody m nc power schedule Δt ns) nt 0 P

/-! ## `Progress` -/

/-- The body of the inner loop that builds `mapping[i]` in `Progress`: task `j` is
appended when it is mapped to core `i`. -/
def mappingBody (mapping : List ℕ) (i j : ℕ) (acc : List ℕ) : Option (List ℕ) :=
  match mapping[j]? with
  | none => none
  | some m => if i = m then some (acc ++ [j]) else some acc

/-- The construction of `mapping` in `Progress`: for every core, the tasks mapped to it
in increasing order. -/
def buildMapping (nc nt : ℕ) (mapping : List ℕ) : Option (List (List ℕ)) :=
  forRange (fun i (acc : List (List ℕ)) =>
      match forRange (mappingBody mapping i) nt 0 [] with
      | none => none
      | some tasks => setAt acc i tasks)
    nc 0 (List.replicate nc [])

/-- The loop `for _, j := range mapping[i]` of the closure of `Progress`: the first task
`j` with `start[j] <= time && time <= finish[j]` writes its power `look j` to `result[i]`
and ends the loop.  The power is `power[j]` in `dynamic.go` and
`cores[i].Power[tasks[j].Type]` in `main.go`. -/
def scanTasks (look : ℕ → Option ℚ) (start finish : List ℚ) (time : ℚ) (i : ℕ) :
    List ℕ → List ℚ → Option (List ℚ)
  | [], result => some result
  | j :: js, result =>
    match start[j]? with
    | none => none
    | some s =>
      if s ≤ time then
        match finish[j]? with
        | none => none
        | some f =>
          if time ≤ f then
            match look j with
            | none => none
            | some p => setAt result i p
          else scanTasks look start finish time i js result
      else scanTasks look start finish time i js result

/-- The body of the loop over the cores in the closure of `Progress`. -/
def progressBody (mapping : List (List ℕ)) (look : ℕ → ℕ → Option ℚ) (start finish : List ℚ)
    (time : ℚ) (i : ℕ) (result : List ℚ) : Option (List ℚ) :=
  match setAt result i 0, mapping[i]? with
  | some result', some tasks => scanTasks (look i) start finish time i tasks result'
  | _, _ => none

/-- The function `Progress` of `dynamic.go`: it builds `mapping` and returns the closure
that writes the power of every core at a time moment into `result`. -/
def Progress (power : List ℚ) (schedule : Schedule) :
    Option (ℚ → List ℚ → Option (List ℚ)) :=
  let nc := schedule.Cores
  let nt := schedule.Tasks
  match buildMapping nc nt schedule.Mapping with
  | none => none
  | some mapping =>
    some fun time result =>
      forRange (progressBody mapping (fun _ j => power[j]?) schedule.Start schedule.Finish time)
        nc 0 result

/-! ## The managers -/

/-- Modelled from the spec: the type `system.Core` of the package
`turing-complete/system`, which is not part of this repository; `Power` is the power
draw of the core for every task type. -/
structure Core where
  Power : List ℚ

/-- Modelled from the spec: the type `system.Task` of the package
`turing-complete/system`; `Type_` is the field `Type`, the task type. -/
structure Task where
  Type_ : ℕ

/-- Modelled from the spec: the type `system.Platform`, the cores. -/
structure Platform where
  Cores : List Core

/-- Modelled from the spec: the type `system.Application`, the tasks. -/
structure Application where
  Tasks : List Task

/-- The expression `cores[i].Power[tasks[j].Type]`. -/
def lookup (cores : List Core) (tasks : List Task) (i j : ℕ) : Option ℚ :=
  match cores[i]?, tasks[j]? with
  | some core, some task => core.Power[task.Type_]?
  | _, _ => none

set_option linter.dupNamespace false

/-- The type `Power` of `main.go`. -/
structure Power where
  platform : Platform
  application : Application

/-- The method `collect` of `main.go`: the power of every task on the core it is mapped
to. -/
def Power.collect (p : Power) (schedule : Schedule) : Option (List ℚ) :=
  let cores := p.platform.Cores
  let tasks := p.application.Tasks
  let nt := tasks.length
  forRange (fun i (power : List ℚ) =>
      match schedule.Mapping[i]? with
      | none => none
      | some j =>
        match lookup cores tasks j i with
        | none => none
        | some v => setAt power i v)
    nt 0 (List.replicate nt 0)

/-- The method `Progress` of `main.go`. -/
def Power.Progress (p : Power) (schedule : Schedule) :
    Option (ℚ → List ℚ → Option (List ℚ)) :=
  let cores := p.platform.Cores
  let tasks := p.application.Tasks
  let nc := cores.length
  let nt := tasks.length
  match buildMapping nc nt schedule.Mapping with
  | none => none
  | some mapping =>
    some fun time power =>
      forRange (progressBody mapping (fun i j => lookup cores tasks i j) schedule.Start
        schedule.Finish time) nc 0 power

/-- The type `Dynamic` of `dynamic.go`. -/
structure Dynamic where
  platform : Platform
  application : Application

/-- The body of the loop `for i, j := range schedule.Mapping` of `Distribute`, on the
rest of the slice. -/
def distributeLoop (cores : List Core) (tasks : List Task) :
    ℕ → List ℕ → List ℚ → Option (List ℚ)
  | _, [], power => some power
  | i, j :: js, power =>
    match lookup cores tasks j i with
    | none => none
    | some v =>
      match setAt power i v with
      | none => none
      | some power' => distributeLoop cores tasks (i + 1) js power'

/-- The method `Distribute` of `dynamic.go`; `application.Len()` is the number of
tasks. -/
def Dynamic.Distribute (self : Dynamic) (schedule : Schedule) : Option (List ℚ) :=
  let cores := self.platform.Cores
  let tasks := self.application.Tasks
  distributeLoop cores tasks 0 schedule.Mapping (List.replicate tasks.length 0)

/-! ## `Partition` of `dynamic.go` -/

/-- The slice `time` that the `Partition` of `dynamic.go` builds: `make` followed by the
two calls of `copy`, for the start times and the finish times. -/
def timeOf2 (schedule : Schedule) : List ℚ :=
  let nt := schedule.Tasks
  let time0 : List ℚ := List.replicate (2 * nt) 0
  let time1 := copyAt (time0.take nt) 0 schedule.Start ++ time0.drop nt
  copyAt time1 nt schedule.Finish

/-- The function `Partition` of `dynamic.go`, with two results: the power matrix and the
durations of the steps. -/
def Partition2 (power : List ℚ) (schedule : Schedule) (ε : ℚ) : Option (List ℚ × List ℚ) :=
  let nc := schedule.Cores
  let nt := schedule.Tasks
  let time := timeOf2 schedule
  match traverse time ε with
  | none => none
  | some (ΔT, steps) =>
    let ssteps := steps.take nt
    let fsteps := (steps.drop nt).take nt
    let ns := ΔT.length
    match forRange (partitionBody nc power schedule.Mapping ssteps fsteps) nt 0
        (List.replicate (nc * ns) 0) with
    | none => none
    | some P => some (P, ΔT)

/-! ## The package `leakage` -/

/-- Modelled from the spec: the type `regression.SimpleLinear` of the package
`ready-steady/statistics/regression`, which is not part of this repository: a line with
intercept `α` and slope `β`. -/
structure SimpleLinear where
  α : ℚ
  β : ℚ

/-- The arithmetic mean of a slice. -/
def mean (xs : List ℚ) : ℚ := xs.sum / xs.length

/-- Modelled from the spec: the function `regression.NewSimpleLinear`, the linear
regression of `y` on `x`: the ordinary least-squares line, with slope
`Σ (x - mean x) (y - mean y) / Σ (x - mean x)²` and intercept `mean y - slope * mean x`. -/
def NewSimpleLinear (x y : List ℚ) : SimpleLinear :=
  let mx := mean x
  let my := mean y
  let sxy := ((x.zip y).map (fun p => (p.1 - mx) * (p.2 - my))).sum
  let sxx := (x.map (fun a => (a - mx) ^ 2)).sum
  ⟨my - sxy / sxx * mx, sxy / sxx⟩

/-- Modelled from the spec: the method `Compute` of `regression.SimpleLinear`, the value
of the line at `x`. -/
def SimpleLinear.Compute (m : SimpleLinear) (x : ℚ) : ℚ := m.α + m.β * x

namespace leakage

/-- The type `Power` of the package `leakage`. -/
structure Power where
  nominal : ℚ
  model : SimpleLinear

/-- The function `New` of the package `leakage`. -/
def New (nominal : ℚ) (temperature coefficient : List ℚ) : Power :=
  ⟨nominal, NewSimpleLinear temperature coefficient⟩

/-- The method `Compute` of the package `leakage`. -/
def Power.Compute (self : Power) (temperature : ℚ) : ℚ :=
  self.nominal * self.model.Compute temperature

end leakage

/-- The temperatures of the test `TestCompute`. -/
def testQ : List ℚ :=
  [318.15, 328.15, 338.15, 348.15, 358.15, 368.15, 378.15, 388.15, 398.15]

/-- The coefficients of the test `TestCompute`. -/
def testC : List ℚ :=
  [0.5460, 0.6304, 0.7326, 0.8550, 1.0000, 1.1711, 1.3734, 1.6067, 1.8737]

/-! ## Auxiliary functions of the proofs -/

/-- The slices `order` and `sorted` are a result of sorting `points` ascending: `order`
is a permutation of the indices of `points`, `sorted` is ascending, and position `k` of
`sorted` holds the value of `points` at index `order[k]`. -/
def IsSortOf (order : List ℕ) (sorted points : List ℚ) : Prop :=
  order.Perm (List.range points.length) ∧ sorted.length = points.length ∧
    sorted.Pairwise (· ≤ ·) ∧ ∀ k o : ℕ, order[k]? = some o → sorted[k]? = points[o]?

/-- The sort that gave `order` and `sorted` is stable: in sorted order the values increase
and, among equal values, the original indices increase. -/
def IsStable (order : List ℕ) (sorted : List ℚ) : Prop :=
  (order.zip sorted).Pairwise (fun a b => a.2 < b.2 ∨ (a.2 = b.2 ∧ a.1 < b.1))

/-- The cell indices that the loop of `traverse` gives to the sorted values `vs`, when
it is entered with representative `x` and cell index `j`. -/
def cellsFrom (ε : ℚ) : ℚ → ℕ → List ℚ → List ℕ
  | _, _, [] => []
  | x, j, v :: vs =>
    if v - x > ε then (j + 1) :: cellsFrom ε v (j + 1) vs else j :: cellsFrom ε x j vs

/-- The gaps that the loop of `traverse` records over the sorted values `vs`, when it
is entered with representative `x`. -/
def gapsFrom (ε : ℚ) : ℚ → List ℚ → List ℚ
  | _, [] => []
  | x, v :: vs => if v - x > ε then (v - x) :: gapsFrom ε v vs else gapsFrom ε x vs

/-- The smallest value of a slice (`0` for the empty slice). -/
def minOf (points : List ℚ) : ℚ := points.foldl min (points.headD 0)

/-- The largest value of a slice (`0` for the empty slice). -/
def maxOf (points : List ℚ) : ℚ := points.foldl max (points.headD 0)

/-- The tasks of `Progress` that are mapped to core `i`, in increasing order. -/
def tasksOf (mapping : List ℕ) (nt i : ℕ) : List ℕ :=
  (List.range' 0 nt).filter (fun j => decide (mapping.getD j 0 = i))

/-- The value that the loop `scanTasks` leaves in `result[i]` after `result[i] = 0`: the
power of the first task of the list whose closed interval contains `time`, and `0` when
there is none. -/
def activeValue (look : ℕ → Option ℚ) (start finish : List ℚ) (time : ℚ) : List ℕ → ℚ
  | [] => 0
  | j :: js =>
    if start.getD j 0 ≤ time ∧ time ≤ finish.getD j 0 then (look j).getD 0
    else activeValue look start finish time js

/-! ## Concrete schedules -/

/-- The scenario of the specification: one core, task 0 over `[0, 2]` and task 1 over
`[2, 4]`, span `4`. -/
def scenario : Schedule := ⟨1, 2, [0, 0], [0, 2], [2, 4], 4⟩

/-- One core and one task over `[1, 2]`. -/
def shortTask : Schedule := ⟨1, 1, [0], [1], [2], 2⟩

/-- One core, task 0 over `[0, 2]` and task 1 of zero duration at `2`. -/
def instantTask : Schedule := ⟨1, 2, [0, 0], [0, 2], [2, 2], 2⟩

/-- One core and one task over `[2, 5]`. -/
def oneTask : Schedule := ⟨1, 1, [0], [2], [5], 5⟩

/-- Two cores and three tasks: tasks 0 and 2 on core 1 over `[0, 1]` and `[1, 2]`, task 1
on core 0 over `[0, 1]`. -/
def twoCores : Schedule := ⟨2, 3, [1, 0, 1], [0, 0, 1], [1, 1, 2], 2⟩

/-- A manager for `twoCores`: two task types, with powers `1, 2` on core 0 and `3, 4` on
core 1; the tasks have the types `0, 1, 1`. -/
def twoCoresManager : Power := ⟨⟨[⟨[1, 2]⟩, ⟨[3, 4]⟩]⟩, ⟨[⟨0⟩, ⟨1⟩, ⟨1⟩]⟩⟩

/-- One core and one task whose start `2` lies after its finish `1`. -/
def reversedTask : Schedule := ⟨1, 1, [0], [2], [1], 2⟩

/-- A machine with a `uint` of 64 bits, on which a conversion out of range gives `0`. -/
def machine64 : Machine := ⟨64, fun _ => 0⟩

/-- The `float64` nearest to `0.1`: `3602879701896397 / 2^55`, a little above `1/10`. -/
def tenth : ℚ := 3602879701896397 / 36028797018963968

/-- One core and one task over `[0, 0.5]`, span `0.5`. -/
def halfSecond : Schedule := ⟨1, 1, [0], [0], [1 / 2], 1 / 2⟩

/-- The largest `float64` below `0.5`: `(2^53 - 1) / 2^54`, printed
`0.49999999999999994`. -/
def belowHalf : ℚ := 9007199254740991 / 18014398509481984

/-- One core and one task over `[0.49999999999999994, 2]`, span `2`. -/
def lateStart : Schedule := ⟨1, 1, [0], [belowHalf], [2], 2⟩

/-! ## Facts about the sort -/

theorem Quick_fst_perm (data : List ℚ) : (Quick data).1.Perm (List.range data.length) := by
  have h := (List.perm_insertionSort (fun a b : ℕ × ℚ => a.2 ≤ b.2) data.enum).map Prod.fst
  simpa [Quick] using h

theorem Quick_snd_perm (data : List ℚ) : (Quick data).2.Perm data := by
  have h := (List.perm_insertionSort (fun a b : ℕ × ℚ => a.2 ≤ b.2) data.enum).map Prod.snd
  simpa [Quick, List.enum_map_snd] using h

theorem Quick_snd_sorted (data : List ℚ) : (Quick data).2.Pairwise (· ≤ ·) := by
  haveI : IsTotal (ℕ × ℚ) (fun a b => a.2 ≤ b.2) := ⟨fun a b => le_total a.2 b.2⟩
  haveI : IsTrans (ℕ × ℚ) (fun a b => a.2 ≤ b.2) := ⟨fun a b c hab hbc => le_trans hab hbc⟩
  have h := List.sorted_insertionSort (fun a b : ℕ × ℚ => a.2 ≤ b.2) data.enum
  simp only [Quick]
  exact List.pairwise_map.mpr h

theorem Quick_snd_length (data : List ℚ) : (Quick data).2.length = data.length :=
  (Quick_snd_perm data).length_eq

/-- The sorted slice read through the permutation is the input. -/
theorem Quick_getElem? (data : List ℚ) {k o : ℕ} (h : (Quick data).1[k]? = some o) :
    (Quick data).2[k]? = data[o]? := by
  simp only [Quick, List.getElem?_map] at h ⊢
  cases hk : (data.enum.insertionSort (fun a b => a.2 ≤ b.2))[k]? with
  | none => simp [hk] at h
  | some pr =>
    obtain ⟨o', v⟩ := pr
    simp only [hk, Option.map_some', Option.some.injEq] at h ⊢
    subst h
    have hmem : (o', v) ∈ data.enum.insertionSort (fun a b => a.2 ≤ b.2) :=
      List.getElem?_mem hk
    rw [List.mem_insertionSort] at hmem
    exact (List.mk_mem_enum_iff_getElem?.mp hmem).symm

/-- The model of the sort returns a result of sorting. -/
theorem Quick_isSortOf (data : List ℚ) : IsSortOf (Quick data).1 (Quick data).2 data :=
  ⟨Quick_fst_perm data, Quick_snd_length data, Quick_snd_sorted data,
    fun _ _ h => Quick_getElem? data h⟩

/-! ## Facts about any result of sorting -/

theorem IsSortOf.order_length {order : List ℕ} {sorted points : List ℚ}
    (h : IsSortOf order sorted points) : order.length = points.length := by
  simpa using h.1.length_eq

theorem IsSortOf.nodup {order : List ℕ} {sorted points : List ℚ}
    (h : IsSortOf order sorted points) : order.Nodup :=
  h.1.nodup_iff.mpr (List.nodup_range _)

theorem IsSortOf.lt {order : List ℕ} {sorted points : List ℚ}
    (h : IsSortOf order sorted points) {o : ℕ} (ho : o ∈ order) : o < points.length := by
  simpa using h.1.mem_iff.mp ho

/-- Every original index is the image of a sorted position. -/
theorem IsSortOf.surj {order : List ℕ} {sorted points : List ℚ}
    (h : IsSortOf order sorted points) {a : ℕ} (ha : a < points.length) :
    ∃ k, k < points.length ∧ order[k]? = some a := by
  have hmem : a ∈ order := h.1.mem_iff.mpr (by simpa using ha)
  obtain ⟨k, hk, hka⟩ := List.getElem_of_mem hmem
  refine ⟨k, by simpa [h.order_length] using hk, ?_⟩
  rw [List.getElem?_eq_getElem hk, hka]

theorem IsSortOf.mem_iff {order : List ℕ} {sorted points : List ℚ}
    (h : IsSortOf order sorted points) (v : ℚ) : v ∈ sorted ↔ v ∈ points := by
  constructor
  · intro hv
    obtain ⟨k, hk⟩ := List.mem_iff_getElem?.mp hv
    have hkl : k < order.length := by
      rcases List.getElem?_eq_some.mp hk with ⟨h', _⟩
      rw [h.order_length, ← h.2.1]; exact h'
    have := h.2.2.2 k _ (List.getElem?_eq_getElem hkl)
    rw [hk] at this
    exact List.getElem?_mem this.symm
  · intro hv
    obtain ⟨a, ha⟩ := List.mem_iff_getElem?.mp hv
    have hal : a < points.length := by
      rcases List.getElem?_eq_some.mp ha with ⟨h', _⟩; exact h'
    obtain ⟨k, _, hk⟩ := h.surj hal
    have := h.2.2.2 k a hk
    rw [ha] at this
    exact List.getElem?_mem this

/-! ## The walk of `traverse` over the sorted values, as list functions -/

theorem cellsFrom_length (ε : ℚ) (vs : List ℚ) (x : ℚ) (j : ℕ) :
    (cellsFrom ε x j vs).length = vs.length := by
  induction vs generalizing x j with
  | nil => rfl
  | cons v vs ih =>
    simp only [cellsFrom]
    split <;> simp [ih]

theorem gapsFrom_gt (ε : ℚ) (vs : List ℚ) (x : ℚ) : ∀ g ∈ gapsFrom ε x vs, ε < g := by
  induction vs generalizing x with
  | nil => simp [gapsFrom]
  | cons v vs ih =>
    simp only [gapsFrom]
    split
    · intro g hg
      rcases List.mem_cons.mp hg with rfl | hg
      · assumption
      · exact ih _ g hg
    · exact ih _

theorem gapsFrom_length_le (ε : ℚ) (vs : List ℚ) (x : ℚ) :
    (gapsFrom ε x vs).length ≤ vs.length := by
  induction vs generalizing x with
  | nil => simp [gapsFrom]
  | cons v vs ih =>
    simp only [gapsFrom]
    split
    · simpa using ih v
    · exact Nat.le_succ_of_le (ih x)

/-- The cell indices of the walk lie between `j` and `j` plus the number of gaps. -/
theorem cellsFrom_bounds (ε : ℚ) (vs : List ℚ) (x : ℚ) (j : ℕ) :
    ∀ c ∈ cellsFrom ε x j vs, j ≤ c ∧ c ≤ j + (gapsFrom ε x vs).length := by
  induction vs generalizing x j with
  | nil => simp [cellsFrom]
  | cons u us ih =>
    simp only [cellsFrom, gapsFrom]
    split
    · intro c hc
      rcases List.mem_cons.mp hc with rfl | hc
      · simp
      · have := ih u (j + 1) c hc
        simp only [List.length_cons]; omega
    · intro c hc
      rcases List.mem_cons.mp hc with rfl | hc
      · simp
      · exact ih x j c hc

/-- Every sorted value lies within `ε` above the representative of its cell, and the
representative of cell `j + m` is `x` plus the first `m` gaps. -/
theorem cellsFrom_rep (ε : ℚ) (hε : 0 ≤ ε) (vs : List ℚ) (x : ℚ) (j : ℕ)
    (hx : ∀ v ∈ vs, x ≤ v)
    (hs : vs.Pairwise (· ≤ ·)) (k : ℕ) (v : ℚ) (c : ℕ) (hv : vs[k]? = some v)
    (hc : (cellsFrom ε x j vs)[k]? = some c) :
    j ≤ c ∧ x + ((gapsFrom ε x vs).take (c - j)).sum ≤ v ∧
      v ≤ x + ((gapsFrom ε x vs).take (c - j)).sum + ε := by
  induction vs generalizing x j k with
  | nil => simp at hv
  | cons u us ih =>
    have hus : us.Pairwise (· ≤ ·) := (List.pairwise_cons.mp hs).2
    have hu : ∀ v ∈ us, u ≤ v := (List.pairwise_cons.mp hs).1
    have hxu : x ≤ u := hx u (List.mem_cons_self _ _)
    simp only [cellsFrom, gapsFrom] at hc ⊢
    by_cases hgt : u - x > ε
    · simp only [hgt, if_true] at hc ⊢
      cases k with
      | zero =>
        simp only [List.getElem?_cons_zero, Option.some.injEq] at hv hc
        subst hv; subst hc
        simp
        linarith
      | succ k =>
        simp only [List.getElem?_cons_succ] at hv hc
        obtain ⟨h1, h3, h4⟩ := ih u (j + 1) hu hus k hv hc
        have hcj : c - j = (c - (j + 1)) + 1 := by omega
        refine ⟨by omega, ?_, ?_⟩
        · rw [hcj, List.take_succ_cons, List.sum_cons]; linarith
        · rw [hcj, List.take_succ_cons, List.sum_cons]; linarith
    · simp only [hgt, if_false] at hc ⊢
      cases k with
      | zero =>
        simp only [List.getElem?_cons_zero, Option.some.injEq] at hv hc
        subst hv; subst hc
        simp
        constructor <;> linarith
      | succ k =>
        simp only [List.getElem?_cons_succ] at hv hc
        exact ih x j (fun v hv => hx v (List.mem_cons_of_mem _ hv)) hus k hv hc

/-- Every cell opened by the walk holds its representative. -/
theorem cellsFrom_surj (ε : ℚ) (vs : List ℚ) (x : ℚ) (j : ℕ) (m : ℕ) (h1 : 1 ≤ m)
    (hm : m ≤ (gapsFrom ε x vs).length) :
    ∃ k : ℕ, vs[k]? = some (x + ((gapsFrom ε x vs).take m).sum) ∧
      (cellsFrom ε x j vs)[k]? = some (j + m) := by
  induction vs generalizing x j m with
  | nil => simp [gapsFrom] at hm; omega
  | cons u us ih =>
    simp only [cellsFrom, gapsFrom] at hm ⊢
    by_cases hgt : u - x > ε
    · simp only [hgt, if_true] at hm ⊢
      rcases Nat.eq_or_lt_of_le h1 with rfl | h2
      · refine ⟨0, ?_, ?_⟩ <;> simp
      · obtain ⟨m', rfl⟩ : ∃ m', m = m' + 1 := ⟨m - 1, by omega⟩
        obtain ⟨k, hk1, hk2⟩ := ih u (j + 1) m' (by omega) (by simpa using hm)
        refine ⟨k + 1, ?_, ?_⟩
        · simp only [List.getElem?_cons_succ, hk1, List.take_succ_cons, List.sum_cons]
          congr 1; ring
        · simp only [List.getElem?_cons_succ, hk2]
          congr 1; omega
    · simp only [hgt, if_false] at hm ⊢
      obtain ⟨k, hk1, hk2⟩ := ih x j m h1 hm
      exact ⟨k + 1, by simpa using hk1, by simpa using hk2⟩

/-! ## The loop of `traverse` -/

theorem setAt_eq_some {α : Type} (xs : List α) (i : ℕ) (v : α) (h : i < xs.length) :
    setAt xs i v = some (xs.set i v) := by
  simp [setAt, h]

theorem take_set_succ (xs : List ℚ) (j : ℕ) (d : ℚ) (h : j < xs.length) :
    (xs.set j d).take (j + 1) = xs.take j ++ [d] := by
  induction xs generalizing j with
  | nil => simp at h
  | cons y ys ih =>
    cases j with
    | zero => simp
    | succ j =>
      have hj : j < ys.length := by simpa using h
      simp [ih j hj]

/-- The loop of `traverse` never panics and computes `gapsFrom` and `cellsFrom`. -/
theorem traverse_loop (order : List ℕ) (pts : List ℚ) (ε : ℚ)
    (ho : order.length = pts.length) (hnd : order.Nodup) (n : ℕ) :
    ∀ (i : ℕ) (w : Walk), i + n = pts.length → (∀ o ∈ order, o < w.steps.length) →
      w.j + n ≤ w.Δ.length →
      ∃ w', forRange (traverseBody order pts ε) n i w = some w' ∧
        w'.j = w.j + (gapsFrom ε w.x (pts.drop i)).length ∧
        w'.Δ.length = w.Δ.length ∧ w'.steps.length = w.steps.length ∧
        w'.Δ.take w'.j = w.Δ.take w.j ++ gapsFrom ε w.x (pts.drop i) ∧
        (∀ k o : ℕ, order[i + k]? = some o →
          w'.steps[o]? = (cellsFrom ε w.x w.j (pts.drop i))[k]?) ∧
        (∀ a : ℕ, a ∉ order.drop i → w'.steps[a]? = w.steps[a]?) := by
  induction n with
  | zero =>
    intro i w hi _ _
    have hd : pts.drop i = [] := List.drop_eq_nil_of_le (by omega)
    refine ⟨w, rfl, by simp [hd, gapsFrom], rfl, rfl, by simp [hd, gapsFrom], ?_, fun _ _ => rfl⟩
    intro k o hk
    have : order[i + k]? = none := List.getElem?_eq_none (by omega)
    rw [this] at hk
    exact absurd hk (by simp)
  | succ n ih =>
    intro i w hi hlt hΔ
    have hip : i < pts.length := by omega
    have hio : i < order.length := by omega
    have hdrop : pts.drop i = pts[i] :: pts.drop (i + 1) := List.drop_eq_getElem_cons hip
    have hodrop : order.drop i = order[i] :: order.drop (i + 1) := List.drop_eq_getElem_cons hio
    have hpi : pts[i]? = some pts[i] := List.getElem?_eq_getElem hip
    have hoi : order[i]? = some order[i] := List.getElem?_eq_getElem hio
    have hol : order[i] < w.steps.length := hlt _ (List.getElem_mem hio)
    have hnotin : order[i] ∉ order.drop (i + 1) := by
      have hsub : (order.drop i).Nodup := hnd.sublist (List.drop_sublist _ _)
      rw [hodrop] at hsub
      exact (List.nodup_cons.mp hsub).1
    generalize pts[i] = v at hdrop hpi
    generalize order[i] = o at hodrop hoi hol hnotin
    by_cases hgt : v - w.x > ε
    · have hj : w.j < w.Δ.length := by omega
      obtain ⟨w', hw', h1, h2, h3, h4, h5, h6⟩ :=
        ih (i + 1) ⟨v, w.j + 1, w.Δ.set w.j (v - w.x), w.steps.set o (w.j + 1)⟩ (by omega)
          (by simpa using hlt) (by simp; omega)
      refine ⟨w', ?_, ?_, ?_, ?_, ?_, ?_, ?_⟩
      · simp only [forRange, traverseBody, hpi, hoi, hgt, if_true, setAt_eq_some _ _ _ hj,
          setAt_eq_some _ _ _ hol]
        exact hw'
      · rw [h1, hdrop]; simp only [gapsFrom, hgt, if_true, List.length_cons]; omega
      · simpa using h2
      · simpa using h3
      · rw [h4, hdrop]
        simp only [gapsFrom, hgt, if_true, take_set_succ _ _ _ hj, List.append_assoc,
          List.singleton_append]
      · intro k o' hk
        rw [hdrop]
        simp only [cellsFrom, hgt, if_true]
        cases k with
        | zero =>
          simp only [Nat.add_zero, hoi, Option.some.injEq] at hk
          subst hk
          rw [h6 o hnotin]
          simp [List.getElem?_set, hol]
        | succ k =>
          have hk' : order[i + 1 + k]? = some o' := by
            rw [← hk]; congr 1; omega
          simpa using h5 k o' hk'
      · intro a ha
        rw [hodrop, List.mem_cons, not_or] at ha
        rw [h6 a ha.2]
        simp [List.getElem?_set, Ne.symm ha.1]
    · obtain ⟨w', hw', h1, h2, h3, h4, h5, h6⟩ :=
        ih (i + 1) ⟨w.x, w.j, w.Δ, w.steps.set o w.j⟩ (by omega)
          (by simpa using hlt) (by simp; omega)
      refine ⟨w', ?_, ?_, ?_, ?_, ?_, ?_, ?_⟩
      · simp only [forRange, traverseBody, hpi, hoi, hgt, if_false, setAt_eq_some _ _ _ hol]
        exact hw'
      · rw [h1, hdrop]; simp only [gapsFrom, hgt, if_false]
      · simpa using h2
      · simpa using h3
      · rw [h4, hdrop]
        simp only [gapsFrom, hgt, if_false]
      · intro k o' hk
        rw [hdrop]
        simp only [cellsFrom, hgt, if_false]
        cases k with
        | zero =>
          simp only [Nat.add_zero, hoi, Option.some.injEq] at hk
          subst hk
          rw [h6 o hnotin]
          simp [List.getElem?_set, hol]
        | succ k =>
          have hk' : order[i + 1 + k]? = some o' := by
            rw [← hk]; congr 1; omega
          simpa using h5 k o' hk'
      · intro a ha
        rw [hodrop, List.mem_cons, not_or] at ha
        rw [h6 a ha.2]
        simp [List.getElem?_set, Ne.symm ha.1]

/-! ## `traverse` in terms of the walk -/

/-- With a point at all, the part of `traverse` after the sort returns: the gaps are
those of the walk over the sorted values, and the value at sorted position `k` gets the
cell index of the walk. -/
theorem traverseSorted_walk (order : List ℕ) (sorted points : List ℚ) (ε : ℚ) (x0 : ℚ)
    (tail : List ℚ) (hsort : IsSortOf order sorted points) (hs : sorted = x0 :: tail) :
    ∃ steps, traverseSorted order sorted ε = some (gapsFrom ε x0 tail, steps) ∧
      steps.length = points.length ∧
      ∀ k o : ℕ, order[k]? = some o → steps[o]? = (0 :: cellsFrom ε x0 0 tail)[k]? := by
  have hlen : points.length = tail.length + 1 := by
    rw [← hsort.2.1, hs]; rfl
  have ho : order.length = sorted.length := by
    rw [hsort.order_length, hsort.2.1]
  obtain ⟨w', hw', h1, h2, h3, h4, h5, h6⟩ :=
    traverse_loop order sorted ε ho hsort.nodup tail.length 1
      ⟨x0, 0, List.replicate tail.length 0, List.replicate (tail.length + 1) 0⟩
      (by rw [hs]; simp; omega)
      (by
        intro o hmem
        have := hsort.lt hmem
        simp only [List.length_replicate]; omega)
      (by simp)
  have hd : List.drop 1 sorted = tail := by rw [hs]; rfl
  simp only [hd, Nat.zero_add, List.take_zero, List.nil_append, List.length_replicate]
    at h1 h2 h3 h4 h5 h6
  refine ⟨w'.steps, ?_, by omega, ?_⟩
  · have hj : w'.j ≤ w'.Δ.length := by
      rw [h1, h2]; exact gapsFrom_length_le _ _ _
    simp only [traverseSorted]
    rw [hs] at hw' ⊢
    simp only [List.length_cons, Nat.add_one_ne_zero, if_false, List.getElem?_cons_zero,
      Nat.add_sub_cancel]
    rw [hw']
    simp only [hj, if_true, h4]
  · intro k o hk
    cases k with
    | zero =>
      have hk0 : 0 < order.length := by
        rw [hsort.order_length]; omega
      have hdrop : order.drop 0 = order[0] :: order.drop 1 := List.drop_eq_getElem_cons hk0
      have hnd := hsort.nodup
      rw [← List.drop_zero order, hdrop] at hnd
      have ho0 : order[0] = o := by
        rw [List.getElem?_eq_getElem hk0] at hk
        exact Option.some.inj hk
      rw [ho0] at hnd
      rw [h6 o (List.nodup_cons.mp hnd).1]
      have hlt : o < tail.length + 1 := by
        have := hsort.lt (List.getElem?_mem hk)
        omega
      simp [List.getElem?_replicate, hlt]
    | succ k =>
      have hk' : order[1 + k]? = some o := by
        rw [← hk]; congr 1; omega
      simpa using h5 k o hk'

/-! ## Smallest and largest value -/

theorem foldl_min_le (l : List ℚ) (a : ℚ) :
    l.foldl min a ≤ a ∧ ∀ p ∈ l, l.foldl min a ≤ p := by
  induction l generalizing a with
  | nil => simp
  | cons y ys ih =>
    simp only [List.foldl_cons]
    obtain ⟨h1, h2⟩ := ih (min a y)
    refine ⟨le_trans h1 (min_le_left _ _), ?_⟩
    intro p hp
    rcases List.mem_cons.mp hp with rfl | hp
    · exact le_trans h1 (min_le_right _ _)
    · exact h2 p hp

theorem foldl_min_mem (l : List ℚ) (a : ℚ) : l.foldl min a = a ∨ l.foldl min a ∈ l := by
  induction l generalizing a with
  | nil => simp
  | cons y ys ih =>
    simp only [List.foldl_cons]
    rcases ih (min a y) with h | h
    · rcases min_choice a y with h' | h'
      · left; rw [h, h']
      · right; rw [h, h']; exact List.mem_cons_self _ _
    · right; exact List.mem_cons_of_mem _ h

theorem foldl_max_ge (l : List ℚ) (a : ℚ) :
    a ≤ l.foldl max a ∧ ∀ p ∈ l, p ≤ l.foldl max a := by
  induction l generalizing a with
  | nil => simp
  | cons y ys ih =>
    simp only [List.foldl_cons]
    obtain ⟨h1, h2⟩ := ih (max a y)
    refine ⟨le_trans (le_max_left _ _) h1, ?_⟩
    intro p hp
    rcases List.mem_cons.mp hp with rfl | hp
    · exact le_trans (le_max_right _ _) h1
    · exact h2 p hp

theorem foldl_max_mem (l : List ℚ) (a : ℚ) : l.foldl max a = a ∨ l.foldl max a ∈ l := by
  induction l generalizing a with
  | nil => simp
  | cons y ys ih =>
    simp only [List.foldl_cons]
    rcases ih (max a y) with h | h
    · rcases max_choice a y with h' | h'
      · left; rw [h, h']
      · right; rw [h, h']; exact List.mem_cons_self _ _
    · right; exact List.mem_cons_of_mem _ h

theorem minOf_le (points : List ℚ) : ∀ p ∈ points, minOf points ≤ p :=
  (foldl_min_le points _).2

theorem le_maxOf (points : List ℚ) : ∀ p ∈ points, p ≤ maxOf points :=
  (foldl_max_ge points _).2

theorem minOf_mem (points : List ℚ) (h : points ≠ []) : minOf points ∈ points := by
  rcases foldl_min_mem points (points.headD 0) with h' | h'
  · cases points with
    | nil => exact absurd rfl h
    | cons y ys =>
      simp only [minOf, h']
      exact List.mem_cons_self _ _
  · exact h'

theorem maxOf_mem (points : List ℚ) (h : points ≠ []) : maxOf points ∈ points := by
  rcases foldl_max_mem points (points.headD 0) with h' | h'
  · cases points with
    | nil => exact absurd rfl h
    | cons y ys =>
      simp only [maxOf, h']
      exact List.mem_cons_self _ _
  · exact h'

/-- The first sorted value is the smallest input value. -/
theorem IsSortOf.head {order : List ℕ} {sorted points : List ℚ}
    (hsort : IsSortOf order sorted points) (x0 : ℚ) (tail : List ℚ)
    (hs : sorted = x0 :: tail) : x0 = minOf points ∧ ∀ v ∈ tail, x0 ≤ v := by
  have hsorted := hsort.2.2.1
  rw [hs] at hsorted
  have hne : points ≠ [] := by
    intro h
    have := hsort.2.1
    rw [hs, h] at this
    simp at this
  have htail : ∀ v ∈ tail, x0 ≤ v := (List.pairwise_cons.mp hsorted).1
  refine ⟨le_antisymm ?_ ?_, htail⟩
  · have hm : minOf points ∈ x0 :: tail := by
      rw [← hs]; exact (hsort.mem_iff _).mpr (minOf_mem points hne)
    rcases List.mem_cons.mp hm with h | h
    · exact le_of_eq h.symm
    · exact htail _ h
  · exact minOf_le points x0 ((hsort.mem_iff _).mp (by rw [hs]; exact List.mem_cons_self _ _))

/-! ## Sums of the first gaps -/

theorem take_sum_nonneg (gaps : List ℚ) (hg : ∀ g ∈ gaps, 0 ≤ g) (c : ℕ) :
    0 ≤ (gaps.take c).sum :=
  List.sum_nonneg fun g hg' => hg g (List.mem_of_mem_take hg')

theorem take_sum_lt (gaps : List ℚ) (ε : ℚ) (hε : 0 ≤ ε) (hg : ∀ g ∈ gaps, ε < g)
    (c c' : ℕ) (h : c < c') (h' : c' ≤ gaps.length) :
    (gaps.take c).sum + ε < (gaps.take c').sum := by
  induction gaps generalizing c c' with
  | nil => simp at h'; omega
  | cons g gs ih =>
    have hgs : ∀ g ∈ gs, ε < g := fun g' hg' => hg g' (List.mem_cons_of_mem _ hg')
    have hg0 : ε < g := hg g (List.mem_cons_self _ _)
    obtain ⟨d', rfl⟩ : ∃ d', c' = d' + 1 := ⟨c' - 1, by omega⟩
    cases c with
    | zero =>
      have := take_sum_nonneg gs (fun g' hg' => le_trans hε (le_of_lt (hgs g' hg'))) d'
      simp only [List.take_zero, List.sum_nil, List.take_succ_cons, List.sum_cons]
      linarith
    | succ d =>
      have := ih hgs d d' (by omega) (by simpa using h')
      simp only [List.take_succ_cons, List.sum_cons]
      linarith

theorem take_sum_mono (gaps : List ℚ) (hg : ∀ g ∈ gaps, 0 ≤ g) (c c' : ℕ) (h : c ≤ c') :
    (gaps.take c).sum ≤ (gaps.take c').sum := by
  induction gaps generalizing c c' with
  | nil => simp
  | cons g gs ih =>
    have hgs : ∀ g ∈ gs, 0 ≤ g := fun g' hg' => hg g' (List.mem_cons_of_mem _ hg')
    cases c with
    | zero =>
      simp only [List.take_zero, List.sum_nil]
      exact take_sum_nonneg _ hg _
    | succ d =>
      obtain ⟨d', rfl⟩ : ∃ d', c' = d' + 1 := ⟨c' - 1, by omega⟩
      have := ih hgs d d' (by omega)
      simp only [List.take_succ_cons, List.sum_cons]
      linarith

/-! ## The result of `traverse` -/

/-- The result of the part of `traverse` after the sort, for any result of sorting a
non-empty slice.  The function returns; there is one cell index for every input value;
every gap is above `ε`; every cell index is at most the number of gaps; cell `c` holds
its representative, the smallest value plus the first `c` gaps; and, for `0 ≤ ε`, every
value lies within `ε` above the representative of its cell. -/
theorem traverseSorted_spec (order : List ℕ) (sorted points : List ℚ) (ε : ℚ)
    (hsort : IsSortOf order sorted points) (hne : points ≠ []) :
    ∃ gaps steps, traverseSorted order sorted ε = some (gaps, steps) ∧
      steps.length = points.length ∧
      (∀ g ∈ gaps, ε < g) ∧
      (∀ c ∈ steps, c ≤ gaps.length) ∧
      (∀ c : ℕ, c ≤ gaps.length →
        ∃ a : ℕ, points[a]? = some (minOf points + (gaps.take c).sum) ∧ steps[a]? = some c) ∧
      (0 ≤ ε → ∀ (a : ℕ) (v : ℚ) (c : ℕ), points[a]? = some v → steps[a]? = some c →
        minOf points + (gaps.take c).sum ≤ v ∧ v ≤ minOf points + (gaps.take c).sum + ε) := by
  obtain ⟨x0, tail, hs⟩ : ∃ x0 tail, sorted = x0 :: tail := by
    cases h : sorted with
    | nil =>
      have := hsort.2.1
      rw [h] at this
      exact absurd (List.length_eq_zero.mp this.symm) hne
    | cons x0 tail => exact ⟨x0, tail, rfl⟩
  obtain ⟨steps, hret, hlen, hsteps⟩ := traverseSorted_walk order sorted points ε x0 tail hsort hs
  obtain ⟨hx0, htail⟩ := hsort.head x0 tail hs
  have hsorted : tail.Pairwise (· ≤ ·) := by
    have := hsort.2.2.1
    rw [hs] at this
    exact (List.pairwise_cons.mp this).2
  have hn : points.length = tail.length + 1 := by
    rw [← hsort.2.1, hs]; rfl
  -- every original index comes from a sorted position
  have hback : ∀ (a : ℕ) (v : ℚ) (c : ℕ), points[a]? = some v → steps[a]? = some c →
      ∃ k : ℕ, (x0 :: tail)[k]? = some v ∧ (0 :: cellsFrom ε x0 0 tail)[k]? = some c := by
    intro a v c hv hc
    have ha : a < points.length := by
      rcases List.getElem?_eq_some.mp hv with ⟨h, _⟩; exact h
    obtain ⟨k, _, hk⟩ := hsort.surj ha
    refine ⟨k, ?_, ?_⟩
    · rw [← hs, hsort.2.2.2 k a hk, hv]
    · rw [← hsteps k a hk, hc]
  -- every sorted position goes to an original index
  have hforth : ∀ (k : ℕ) (v : ℚ) (c : ℕ), (x0 :: tail)[k]? = some v →
      (0 :: cellsFrom ε x0 0 tail)[k]? = some c →
      ∃ a : ℕ, points[a]? = some v ∧ steps[a]? = some c := by
    intro k v c hv hc
    have hk : k < order.length := by
      rcases List.getElem?_eq_some.mp hv with ⟨h, _⟩
      rw [hsort.order_length, hn]; simpa using h
    have hko : order[k]? = some order[k] := List.getElem?_eq_getElem hk
    refine ⟨order[k], ?_, ?_⟩
    · rw [← hsort.2.2.2 k _ hko, hs, hv]
    · rw [hsteps k _ hko, hc]
  refine ⟨gapsFrom ε x0 tail, steps, hret, hlen, gapsFrom_gt ε tail x0, ?_, ?_, ?_⟩
  · intro c hc
    obtain ⟨a, hac⟩ := List.mem_iff_getElem?.mp hc
    have ha : a < points.length := by
      rcases List.getElem?_eq_some.mp hac with ⟨h, _⟩; omega
    obtain ⟨k, hk1, hk2⟩ := hback a points[a] c (List.getElem?_eq_getElem ha) hac
    cases k with
    | zero =>
      simp only [List.getElem?_cons_zero, Option.some.injEq] at hk2
      omega
    | succ k =>
      simp only [List.getElem?_cons_succ] at hk2
      have := (cellsFrom_bounds ε tail x0 0 c (List.getElem?_mem hk2)).2
      omega
  · intro c hc
    rcases Nat.eq_zero_or_pos c with rfl | hpos
    · obtain ⟨a, h1, h2⟩ := hforth 0 x0 0 (by simp) (by simp)
      exact ⟨a, by simpa [← hx0] using h1, h2⟩
    · obtain ⟨k, hk1, hk2⟩ := cellsFrom_surj ε tail x0 0 c hpos hc
      obtain ⟨a, h1, h2⟩ := hforth (k + 1) _ c (by simpa using hk1) (by simpa using hk2)
      exact ⟨a, by rw [← hx0]; exact h1, h2⟩
  · intro hε a v c hv hc
    obtain ⟨k, hk1, hk2⟩ := hback a v c hv hc
    rw [← hx0]
    cases k with
    | zero =>
      simp only [List.getElem?_cons_zero, Option.some.injEq] at hk1 hk2
      subst hk1; subst hk2
      simp [hε]
    | succ k =>
      simp only [List.getElem?_cons_succ] at hk1 hk2
      have := cellsFrom_rep ε hε tail x0 0 htail hsorted k v c hk1 hk2
      simpa using this.2

/-- The result of `traverse` on a non-empty slice: `traverseSorted_spec` for the sort of
the model. -/
theorem traverse_spec (points : List ℚ) (ε : ℚ) (hne : points ≠ []) :
    ∃ gaps steps, traverse points ε = some (gaps, steps) ∧
      steps.length = points.length ∧
      (∀ g ∈ gaps, ε < g) ∧
      (∀ c ∈ steps, c ≤ gaps.length) ∧
      (∀ c : ℕ, c ≤ gaps.length →
        ∃ a : ℕ, points[a]? = some (minOf points + (gaps.take c).sum) ∧ steps[a]? = some c) ∧
      (0 ≤ ε → ∀ (a : ℕ) (v : ℚ) (c : ℕ), points[a]? = some v → steps[a]? = some c →
        minOf points + (gaps.take c).sum ≤ v ∧ v ≤ minOf points + (gaps.take c).sum + ε) :=
  traverseSorted_spec (Quick points).1 (Quick points).2 points ε (Quick_isSortOf points) hne

/-! ## The loops that fill the matrix -/

theorem cell_index_inj (nc r c r' c' : ℕ) (hc : c < nc) (hc' : c' < nc)
    (h : r * nc + c = r' * nc + c') : r = r' ∧ c = c' := by
  have hpos : 0 < nc := by omega
  have h1 : (r * nc + c) / nc = r := by
    rw [Nat.add_comm, Nat.add_mul_div_right _ _ hpos, Nat.div_eq_of_lt hc, Nat.zero_add]
  have h2 : (r' * nc + c') / nc = r' := by
    rw [Nat.add_comm, Nat.add_mul_div_right _ _ hpos, Nat.div_eq_of_lt hc', Nat.zero_add]
  have hr : r = r' := by rw [← h1, ← h2, h]
  subst hr
  exact ⟨rfl, by omega⟩

/-- The loop of `fillRows` writes `p` to column `j` of the rows `s, ..., s + n - 1` and
nothing else. -/
theorem fill_loop (nc j : ℕ) (p : ℚ) (n : ℕ) :
    ∀ (s : ℕ) (P : List ℚ), (∀ r : ℕ, s ≤ r → r < s + n → r * nc + j < P.length) →
      ∃ P', forRange (fun r Q => setAt Q (r * nc + j) p) n s P = some P' ∧
        P'.length = P.length ∧
        (∀ r : ℕ, s ≤ r → r < s + n → P'[r * nc + j]? = some p) ∧
        (∀ q : ℕ, (∀ r : ℕ, s ≤ r → r < s + n → q ≠ r * nc + j) → P'[q]? = P[q]?) := by
  induction n with
  | zero =>
    intro s P _
    exact ⟨P, rfl, rfl, fun r h1 h2 => by omega, fun _ _ => rfl⟩
  | succ n ih =>
    intro s P hb
    have hs : s * nc + j < P.length := hb s le_rfl (by omega)
    obtain ⟨P', hP', hlen, hin, hout⟩ := ih (s + 1) (P.set (s * nc + j) p) (by
      intro r h1 h2
      rw [List.length_set]
      exact hb r (by omega) (by omega))
    refine ⟨P', ?_, ?_, ?_, ?_⟩
    · simp only [forRange, setAt_eq_some _ _ _ hs]
      exact hP'
    · rw [hlen, List.length_set]
    · intro r h1 h2
      by_cases hr : ∃ r' : ℕ, s + 1 ≤ r' ∧ r' < s + 1 + n ∧ r * nc + j = r' * nc + j
      · obtain ⟨r', h3, h4, h5⟩ := hr
        rw [h5]
        exact hin r' h3 h4
      · have hrs : r = s := by
          by_contra hne
          exact hr ⟨r, by omega, by omega, rfl⟩
        subst hrs
        rw [hout (r * nc + j) (fun r' h3 h4 h5 => hr ⟨r', h3, h4, h5⟩)]
        simp [List.getElem?_set, hs]
    · intro q hq
      rw [hout q (fun r h1 h2 => hq r (by omega) (by omega))]
      have hne : s * nc + j ≠ q := fun h => hq s le_rfl (by omega) h.symm
      simp [List.getElem?_set, hne]

/-- The statement `fillRows`, for a column `j < nc` and rows that exist. -/
theorem fillRows_spec (nc j : ℕ) (p : ℚ) (s f rows : ℕ) (P : List ℚ) (hj : j < nc)
    (hf : f ≤ rows) (hP : P.length = nc * rows) :
    ∃ P', fillRows nc j p s f P = some P' ∧ P'.length = P.length ∧
      ∀ r c : ℕ, c < nc → r < rows →
        P'[r * nc + c]? = if c = j ∧ s ≤ r ∧ r < f then some p else P[r * nc + c]? := by
  obtain ⟨P', hP', hlen, hin, hout⟩ := fill_loop nc j p (f - s) s P (by
    intro r h1 h2
    have h3 : r + 1 ≤ rows := by omega
    calc r * nc + j < r * nc + nc := by omega
      _ = nc * (r + 1) := by ring
      _ ≤ nc * rows := Nat.mul_le_mul_left _ h3
      _ = P.length := hP.symm)
  refine ⟨P', hP', hlen, ?_⟩
  intro r c hc hr
  by_cases hcov : c = j ∧ s ≤ r ∧ r < f
  · rw [if_pos hcov]
    obtain ⟨rfl, h1, h2⟩ := hcov
    exact hin r h1 (by omega)
  · rw [if_neg hcov]
    apply hout
    intro r' h1 h2 heq
    obtain ⟨rfl, rfl⟩ := cell_index_inj nc r c r' j hc hj heq
    exact hcov ⟨rfl, h1, by omega⟩

/-- A loop over the tasks `i0, ..., i0 + n - 1` whose body is `fillRows` on column `J i`
and rows `S i, ..., F i - 1` with value `pw i`: a cell holds the value of the last task
that covers it, and its initial value when no task covers it. -/
theorem task_loop (nc rows : ℕ) (J S F : ℕ → ℕ) (pw : ℕ → ℚ)
    (body : ℕ → List ℚ → Option (List ℚ)) (n : ℕ) :
    ∀ (i0 : ℕ) (P : List ℚ), P.length = nc * rows →
      (∀ i : ℕ, i0 ≤ i → i < i0 + n → ∀ Q, body i Q = fillRows nc (J i) (pw i) (S i) (F i) Q) →
      (∀ i : ℕ, i0 ≤ i → i < i0 + n → J i < nc ∧ F i ≤ rows) →
      ∃ P', forRange body n i0 P = some P' ∧ P'.length = P.length ∧
        ∀ r c : ℕ, c < nc → r < rows →
          (∀ i : ℕ, i0 ≤ i → i < i0 + n → (J i = c ∧ S i ≤ r ∧ r < F i) →
            (∀ i' : ℕ, i < i' → i' < i0 + n → ¬ (J i' = c ∧ S i' ≤ r ∧ r < F i')) →
            P'[r * nc + c]? = some (pw i)) ∧
          ((∀ i : ℕ, i0 ≤ i → i < i0 + n → ¬ (J i = c ∧ S i ≤ r ∧ r < F i)) →
            P'[r * nc + c]? = P[r * nc + c]?) := by
  induction n with
  | zero =>
    intro i0 P _ _ _
    refine ⟨P, rfl, rfl, fun r c _ _ => ⟨fun i h1 h2 => by omega, fun _ => rfl⟩⟩
  | succ n ih =>
    intro i0 P hP hbody hb
    obtain ⟨hJ, hF⟩ := hb i0 le_rfl (by omega)
    obtain ⟨P1, hP1, hlen1, hval1⟩ := fillRows_spec nc (J i0) (pw i0) (S i0) (F i0) rows P hJ hF hP
    obtain ⟨P', hP', hlen, hval⟩ := ih (i0 + 1) P1 (by rw [hlen1, hP])
      (fun i h1 h2 => hbody i (by omega) (by omega)) (fun i h1 h2 => hb i (by omega) (by omega))
    refine ⟨P', ?_, by rw [hlen, hlen1], ?_⟩
    · simp only [forRange, hbody i0 le_rfl (by omega), hP1]
      exact hP'
    · intro r c hc hr
      obtain ⟨hlast, hnone⟩ := hval r c hc hr
      constructor
      · intro i h1 h2 hcov hlater
        rcases Nat.eq_or_lt_of_le h1 with heq | hlt
        · subst heq
          rw [hnone (fun i' h3 h4 => hlater i' (by omega) (by omega)), hval1 r c hc hr]
          rw [if_pos ⟨hcov.1.symm, hcov.2⟩]
        · exact hlast i (by omega) (by omega) hcov (fun i' h3 h4 => hlater i' h3 (by omega))
      · intro hno
        rw [hnone (fun i h1 h2 => hno i (by omega) (by omega)), hval1 r c hc hr]
        rw [if_neg]
        intro hcov
        exact hno i0 le_rfl (by omega) ⟨hcov.1.symm, hcov.2⟩

/-! ## `Partition` -/

theorem getElem?_getD {α : Type} (l : List α) (i : ℕ) (d : α) (h : i < l.length) :
    l[i]? = some (l.getD i d) := by
  simp [List.getD, List.getElem?_eq_getElem h]

theorem getD_mem {α : Type} (l : List α) (i : ℕ) (d : α) (h : i < l.length) :
    l.getD i d ∈ l :=
  List.getElem?_mem (getElem?_getD l i d h)

/-- For a well-formed schedule the slice `time` is the start times, then the finish
times, then the extra points. -/
theorem timeOf_eq (sch : Schedule) (points : List ℚ) (hwf : sch.WellFormed) :
    timeOf sch points = sch.Start ++ sch.Finish ++ points := by
  obtain ⟨_, hs, hf, _⟩ := hwf
  simp only [timeOf, copyAt]
  have e1 : List.take sch.Tasks (List.replicate (2 * sch.Tasks + points.length) (0 : ℚ))
      = List.replicate sch.Tasks 0 := by
    rw [List.take_replicate]; congr 1; omega
  have e2 : List.drop sch.Tasks (List.replicate (2 * sch.Tasks + points.length) (0 : ℚ))
      = List.replicate (sch.Tasks + points.length) 0 := by
    rw [List.drop_replicate]; congr 1; omega
  rw [e1, e2]
  simp only [List.take_zero, List.nil_append, List.length_replicate, Nat.sub_zero, Nat.zero_add,
    hs]
  have e3 : List.take sch.Tasks sch.Start = sch.Start := List.take_of_length_le (by omega)
  rw [e3, List.drop_replicate, Nat.sub_self]
  simp only [List.replicate_zero, List.append_nil]
  have e4 : List.take sch.Tasks (sch.Start ++ List.replicate (sch.Tasks + points.length) (0 : ℚ))
      = sch.Start := by
    rw [List.take_append_of_le_length (by omega)]; exact e3
  have e5 : (sch.Start ++ List.replicate (sch.Tasks + points.length) (0 : ℚ)).length
      = sch.Tasks + (sch.Tasks + points.length) := by
    simp [hs]
  rw [e4, e5]
  have e6 : List.take (sch.Tasks + (sch.Tasks + points.length) - sch.Tasks) sch.Finish
      = sch.Finish := List.take_of_length_le (by omega)
  have e7 : List.drop (sch.Tasks + sch.Finish.length)
      (sch.Start ++ List.replicate (sch.Tasks + points.length) (0 : ℚ))
      = List.replicate points.length 0 := by
    rw [List.drop_append_eq_append_drop, List.drop_of_length_le (by omega), hs, hf,
      List.drop_replicate, List.nil_append]
    congr 1; omega
  rw [e6, e7]
  have e8 : List.take (2 * sch.Tasks) (sch.Start ++ sch.Finish ++ List.replicate points.length (0 : ℚ))
      = sch.Start ++ sch.Finish := by
    rw [List.take_append_of_le_length (by simp [hs, hf]; omega)]
    exact List.take_of_length_le (by simp [hs, hf]; omega)
  rw [e8]
  have e9 : (sch.Start ++ sch.Finish ++ List.replicate points.length (0 : ℚ)).length
      - 2 * sch.Tasks = points.length := by
    simp [hs, hf]; omega
  rw [e9, List.take_of_length_le le_rfl]
  have e10 : List.drop (2 * sch.Tasks + points.length)
      (sch.Start ++ sch.Finish ++ List.replicate points.length (0 : ℚ)) = [] :=
    List.drop_of_length_le (by simp [hs, hf]; omega)
  rw [e10, List.append_nil]

/-- The result of `Partition` for a well-formed schedule with at least one time value:
the function returns; the gaps and cell indices are those of `traverse` on the start
times, finish times and extra points; the matrix has one row of `Cores` entries per gap;
a cell holds the power of the last task that covers it, and `0` when no task covers
it.  Task `i` covers row `r` of column `c` when it is mapped to `c` and `r` lies
between the cell index of its start (included) and of its finish (excluded). -/
theorem Partition_spec (power : List ℚ) (sch : Schedule) (points : List ℚ) (ε : ℚ)
    (hwf : sch.WellFormed) (hpw : power.length = sch.Tasks)
    (hne : 0 < 2 * sch.Tasks + points.length) :
    ∃ gaps steps P, traverse (sch.Start ++ sch.Finish ++ points) ε = some (gaps, steps) ∧
      Partition power sch points ε = some (P, gaps, steps.drop (2 * sch.Tasks)) ∧
      steps.length = 2 * sch.Tasks + points.length ∧
      P.length = sch.Cores * gaps.length ∧
      ∀ r c : ℕ, c < sch.Cores → r < gaps.length →
        (∀ i : ℕ, i < sch.Tasks →
          (sch.Mapping.getD i 0 = c ∧ steps.getD i 0 ≤ r ∧ r < steps.getD (sch.Tasks + i) 0) →
          (∀ i' : ℕ, i < i' → i' < sch.Tasks →
            ¬ (sch.Mapping.getD i' 0 = c ∧ steps.getD i' 0 ≤ r ∧
              r < steps.getD (sch.Tasks + i') 0)) →
          P[r * sch.Cores + c]? = some (power.getD i 0)) ∧
        ((∀ i : ℕ, i < sch.Tasks →
          ¬ (sch.Mapping.getD i 0 = c ∧ steps.getD i 0 ≤ r ∧
            r < steps.getD (sch.Tasks + i) 0)) →
          P[r * sch.Cores + c]? = some 0) := by
  have htime := timeOf_eq sch points hwf
  obtain ⟨hm, hs, hf, hcore⟩ := hwf
  have hne' : sch.Start ++ sch.Finish ++ points ≠ [] := by
    intro h
    have := congrArg List.length h
    simp only [List.length_append, List.length_nil, hs, hf] at this
    omega
  obtain ⟨gaps, steps, hret, hlen, _, hc, _, _⟩ :=
    traverse_spec (sch.Start ++ sch.Finish ++ points) ε hne'
  have hlen' : steps.length = 2 * sch.Tasks + points.length := by
    rw [hlen]; simp only [List.length_append, hs, hf]; omega
  obtain ⟨P, hP, hPlen, hval⟩ := task_loop sch.Cores gaps.length
    (fun i => sch.Mapping.getD i 0) (fun i => steps.getD i 0)
    (fun i => steps.getD (sch.Tasks + i) 0) (fun i => power.getD i 0)
    (partitionBody sch.Cores power sch.Mapping (steps.take sch.Tasks)
      ((steps.drop sch.Tasks).take sch.Tasks)) sch.Tasks 0
    (List.replicate (sch.Cores * gaps.length) 0) (by simp)
    (by
      intro i _ hi Q
      have hi' : i < sch.Tasks := by omega
      have h1 : sch.Mapping[i]? = some (sch.Mapping.getD i 0) :=
        getElem?_getD _ _ _ (by omega)
      have h2 : power[i]? = some (power.getD i 0) := getElem?_getD _ _ _ (by omega)
      have h3 : (steps.take sch.Tasks)[i]? = some (steps.getD i 0) := by
        rw [List.getElem?_take_of_lt hi']
        exact getElem?_getD _ _ _ (by omega)
      have h4 : ((steps.drop sch.Tasks).take sch.Tasks)[i]? =
          some (steps.getD (sch.Tasks + i) 0) := by
        rw [List.getElem?_take_of_lt hi', List.getElem?_drop]
        exact getElem?_getD _ _ _ (by omega)
      simp only [partitionBody, h1, h2, h3, h4])
    (by
      intro i _ hi
      have hi' : i < sch.Tasks := by omega
      exact ⟨hcore _ (getD_mem _ _ _ (by omega)), hc _ (getD_mem _ _ _ (by omega))⟩)
  refine ⟨gaps, steps, P, hret, ?_, hlen', by simpa using hPlen, ?_⟩
  · simp only [Partition, htime, hret, hP]
  · intro r c hc' hr
    obtain ⟨hlast, hnone⟩ := hval r c hc' hr
    refine ⟨fun i hi hcov hlater => hlast i (Nat.zero_le _) (by omega) hcov
      (fun i' h1 h2 => hlater i' h1 (by omega)), ?_⟩
    intro hno
    rw [hnone (fun i _ hi => hno i (by omega))]
    have hlt : r * sch.Cores + c < sch.Cores * gaps.length := by
      have h3 : r + 1 ≤ gaps.length := by omega
      calc r * sch.Cores + c < r * sch.Cores + sch.Cores := by omega
        _ = sch.Cores * (r + 1) := by ring
        _ ≤ sch.Cores * gaps.length := Nat.mul_le_mul_left _ h3
    simp [List.getElem?_replicate, hlt]

/-! ## Consequences for a given result of `traverse` -/

theorem traverse_nil (ε : ℚ) : traverse [] ε = none := by
  simp [traverse, traverseSorted, Quick]

/-- The properties of `traverse_spec`, for a result that is given. -/
theorem traverse_of_eq (points : List ℚ) (ε : ℚ) (gaps : List ℚ) (steps : List ℕ)
    (h : traverse points ε = some (gaps, steps)) :
    points ≠ [] ∧ steps.length = points.length ∧ (∀ g ∈ gaps, ε < g) ∧
      (∀ c ∈ steps, c ≤ gaps.length) ∧
      (∀ c : ℕ, c ≤ gaps.length →
        ∃ a : ℕ, points[a]? = some (minOf points + (gaps.take c).sum) ∧ steps[a]? = some c) ∧
      (0 ≤ ε → ∀ (a : ℕ) (v : ℚ) (c : ℕ), points[a]? = some v → steps[a]? = some c →
        minOf points + (gaps.take c).sum ≤ v ∧ v ≤ minOf points + (gaps.take c).sum + ε) := by
  have hne : points ≠ [] := by
    intro hnil
    rw [hnil, traverse_nil] at h
    exact absurd h (by simp)
  obtain ⟨gaps', steps', hret, hrest⟩ := traverse_spec points ε hne
  rw [h] at hret
  simp only [Option.some.injEq, Prod.mk.injEq] at hret
  obtain ⟨rfl, rfl⟩ := hret
  exact ⟨hne, hrest⟩

/-- A value within `ε` above the representative of cell `ca` is in cell `ca`. -/
theorem traverse_near (points : List ℚ) (ε : ℚ) (hε : 0 ≤ ε) (gaps : List ℚ)
    (steps : List ℕ) (h : traverse points ε = some (gaps, steps)) (b : ℕ) (vb : ℚ)
    (ca cb : ℕ) (hca : ca ≤ gaps.length) (hvb : points[b]? = some vb)
    (hcb : steps[b]? = some cb) (h1 : minOf points + (gaps.take ca).sum ≤ vb)
    (h2 : vb ≤ minOf points + (gaps.take ca).sum + ε) : ca = cb := by
  obtain ⟨_, _, hg, hc, _, hrep⟩ := traverse_of_eq points ε gaps steps h
  have hb := hrep hε b vb cb hvb hcb
  have hcbl := hc cb (List.getElem?_mem hcb)
  rcases Nat.lt_trichotomy ca cb with hlt | heq | hgt
  · have := take_sum_lt gaps ε hε hg ca cb hlt hcbl
    linarith [hb.1]
  · exact heq
  · have := take_sum_lt gaps ε hε hg cb ca hgt hca
    linarith [hb.2]

/-- The cell index is monotone in the value. -/
theorem traverse_mono (points : List ℚ) (ε : ℚ) (hε : 0 ≤ ε) (gaps : List ℚ)
    (steps : List ℕ) (h : traverse points ε = some (gaps, steps)) (a b : ℕ) (va vb : ℚ)
    (hva : points[a]? = some va) (hvb : points[b]? = some vb) (hle : va ≤ vb) :
    steps.getD a 0 ≤ steps.getD b 0 := by
  obtain ⟨_, hlen, hg, hc, _, hrep⟩ := traverse_of_eq points ε gaps steps h
  have hal : a < steps.length := by
    rcases List.getElem?_eq_some.mp hva with ⟨h', _⟩; omega
  have hbl : b < steps.length := by
    rcases List.getElem?_eq_some.mp hvb with ⟨h', _⟩; omega
  have ha := hrep hε a va _ hva (getElem?_getD steps a 0 hal)
  have hb := hrep hε b vb _ hvb (getElem?_getD steps b 0 hbl)
  by_contra hlt
  have := take_sum_lt gaps ε hε hg (steps.getD b 0) (steps.getD a 0) (by omega)
    (hc _ (getD_mem steps a 0 hal))
  linarith [ha.1, hb.2]

/-! ## Rounding of `float64` -/

theorem roundEven_intCast (n : ℤ) : roundEven (n : ℚ) = n := by
  simp [roundEven]

theorem floor_le_roundEven (q : ℚ) : ⌊q⌋ ≤ roundEven q := by
  simp only [roundEven]
  split_ifs <;> omega

theorem roundEven_le (q : ℚ) : roundEven q ≤ ⌊q⌋ + 1 := by
  simp only [roundEven]
  split_ifs <;> omega

theorem roundEven_mono {p q : ℚ} (h : p ≤ q) : roundEven p ≤ roundEven q := by
  rcases lt_or_eq_of_le (Int.floor_mono h) with hlt | heq
  · have h1 := roundEven_le p
    have h2 := floor_le_roundEven q
    omega
  · simp only [roundEven, heq]
    split_ifs <;> first | omega | (exfalso; linarith)

theorem roundEven_nonneg {q : ℚ} (h : 0 ≤ q) : 0 ≤ roundEven q :=
  le_trans (Int.floor_nonneg.mpr h) (floor_le_roundEven q)

theorem two_zpow_pos (e : ℤ) : (0 : ℚ) < 2 ^ e := zpow_pos (by norm_num) e

theorem round64_of_binade (x : ℚ) (e : ℤ) (he : -1022 ≤ e) (h1 : 2 ^ e ≤ |x|)
    (h2 : |x| < 2 ^ (e + 1)) :
    round64 x = roundEven (x / 2 ^ (e - 52)) * 2 ^ (e - 52) := by
  have hpos : (0 : ℚ) < |x| := lt_of_lt_of_le (two_zpow_pos e) h1
  have hx : x ≠ 0 := abs_pos.mp hpos
  have hlog : Int.log 2 |x| = e := by
    have h3 : e ≤ Int.log 2 |x| := (Int.zpow_le_iff_le_log (by norm_num) hpos).mp (by exact_mod_cast h1)
    have h4 : Int.log 2 |x| < e + 1 := (Int.lt_zpow_iff_log_lt (by norm_num) hpos).mp (by exact_mod_cast h2)
    omega
  simp only [round64, hx, if_false, hlog, max_eq_left he]

theorem round64_nonneg {x : ℚ} (h : 0 ≤ x) : 0 ≤ round64 x := by
  simp only [round64]
  split
  · exact le_refl _
  · exact mul_nonneg (by exact_mod_cast roundEven_nonneg (div_nonneg h (le_of_lt (two_zpow_pos _))))
      (le_of_lt (two_zpow_pos _))

theorem two_zpow_split (e : ℤ) (k : ℕ) : (2 : ℚ) ^ (e - 52 + k) = (2 ^ k : ℤ) * 2 ^ (e - 52) := by
  rw [zpow_add₀ (by norm_num : (2 : ℚ) ≠ 0), zpow_natCast]
  push_cast
  ring

theorem round64_mono {x y : ℚ} (hx : 0 ≤ x) (h : x ≤ y) : round64 x ≤ round64 y := by
  rcases eq_or_lt_of_le hx with h0 | hpos
  · rw [← h0]
    simpa [round64] using round64_nonneg (le_trans hx h)
  have hypos : 0 < y := lt_of_lt_of_le hpos h
  have hx0 : x ≠ 0 := ne_of_gt hpos
  have hy0 : y ≠ 0 := ne_of_gt hypos
  have hlog : Int.log 2 x ≤ Int.log 2 y := Int.log_mono_right hpos h
  simp only [round64, hx0, hy0, if_false, abs_of_pos hpos, abs_of_pos hypos]
  generalize hex : max (Int.log 2 x) (-1022) = ex
  generalize hey : max (Int.log 2 y) (-1022) = ey
  have hle : ex ≤ ey := by omega
  rcases eq_or_lt_of_le hle with heq | hlt
  · subst heq
    have hu := two_zpow_pos (ex - 52)
    have : roundEven (x / 2 ^ (ex - 52)) ≤ roundEven (y / 2 ^ (ex - 52)) :=
      roundEven_mono (div_le_div_of_nonneg_right h (le_of_lt hu))
    exact mul_le_mul_of_nonneg_right (by exact_mod_cast this) (le_of_lt hu)
  · have hey' : Int.log 2 y = ey := by omega
    have hux := two_zpow_pos (ex - 52)
    have huy := two_zpow_pos (ey - 52)
    have hxu : x < 2 ^ (ex + 1) := by
      have h1 : x < (2 : ℚ) ^ (Int.log 2 x + 1) := by
        exact_mod_cast Int.lt_zpow_succ_log_self (by norm_num : 1 < 2) x
      have h2 : (2 : ℚ) ^ (Int.log 2 x + 1) ≤ 2 ^ (ex + 1) :=
        zpow_le_zpow_right₀ (by norm_num) (by omega)
      exact lt_of_lt_of_le h1 h2
    have hyl : (2 : ℚ) ^ ey ≤ y := by
      rw [← hey']
      exact_mod_cast Int.zpow_log_le_self (by norm_num : 1 < 2) hypos
    have e1 : (2 : ℚ) ^ (ex + 1) = (2 ^ 53 : ℤ) * 2 ^ (ex - 52) := by
      rw [← two_zpow_split ex 53]; congr 1; omega
    have e2 : (2 : ℚ) ^ ey = (2 ^ 52 : ℤ) * 2 ^ (ey - 52) := by
      rw [← two_zpow_split ey 52]; congr 1; omega
    have hX : roundEven (x / 2 ^ (ex - 52)) ≤ 2 ^ 53 := by
      have : x / 2 ^ (ex - 52) ≤ ((2 ^ 53 : ℤ) : ℚ) := by
        rw [div_le_iff₀ hux, ← e1]; exact le_of_lt hxu
      have := roundEven_mono this
      rwa [roundEven_intCast] at this
    have hY : 2 ^ 52 ≤ roundEven (y / 2 ^ (ey - 52)) := by
      have : ((2 ^ 52 : ℤ) : ℚ) ≤ y / 2 ^ (ey - 52) := by
        rw [le_div_iff₀ huy, ← e2]; exact hyl
      have := roundEven_mono this
      rwa [roundEven_intCast] at this
    calc (roundEven (x / 2 ^ (ex - 52)) : ℚ) * 2 ^ (ex - 52)
        ≤ (2 ^ 53 : ℤ) * 2 ^ (ex - 52) :=
          mul_le_mul_of_nonneg_right (by exact_mod_cast hX) (le_of_lt hux)
      _ = 2 ^ (ex + 1) := e1.symm
      _ ≤ 2 ^ ey := zpow_le_zpow_right₀ (by norm_num) (by omega)
      _ = (2 ^ 52 : ℤ) * 2 ^ (ey - 52) := e2
      _ ≤ roundEven (y / 2 ^ (ey - 52)) * 2 ^ (ey - 52) :=
          mul_le_mul_of_nonneg_right (by exact_mod_cast hY) (le_of_lt huy)

/-- Every value `n * 2^k` with `n < 2^53` and `k ≥ -1022` is a `float64`. -/
theorem round64_dyadic (n : ℕ) (k : ℤ) (h : n < 2 ^ 53) (hk : -1022 ≤ k) :
    round64 ((n : ℚ) * 2 ^ k) = (n : ℚ) * 2 ^ k := by
  rcases Nat.eq_zero_or_pos n with h0 | hpos
  · simp [h0, round64]
  have hlog : Nat.log 2 n < 53 := Nat.log_lt_of_lt_pow (by omega) h
  have hlo : 2 ^ Nat.log 2 n ≤ n := Nat.pow_log_le_self 2 (by omega)
  have hhi : n < 2 ^ (Nat.log 2 n + 1) := Nat.lt_pow_succ_log_self (by norm_num) n
  generalize Nat.log 2 n = a at hlog hlo hhi
  have hk0 := two_zpow_pos k
  have habs : |(n : ℚ) * 2 ^ k| = (n : ℚ) * 2 ^ k :=
    abs_of_nonneg (mul_nonneg (by positivity) (le_of_lt hk0))
  have h1 : (2 : ℚ) ^ ((a : ℤ) + k) ≤ |(n : ℚ) * 2 ^ k| := by
    rw [habs, zpow_add₀ (by norm_num : (2 : ℚ) ≠ 0), zpow_natCast]
    exact mul_le_mul_of_nonneg_right (by exact_mod_cast hlo) (le_of_lt hk0)
  have h2 : |(n : ℚ) * 2 ^ k| < (2 : ℚ) ^ ((a : ℤ) + k + 1) := by
    have : (a : ℤ) + k + 1 = ((a + 1 : ℕ) : ℤ) + k := by push_cast; ring
    rw [habs, this, zpow_add₀ (by norm_num : (2 : ℚ) ≠ 0), zpow_natCast]
    exact mul_lt_mul_of_pos_right (by exact_mod_cast hhi) hk0
  rw [round64_of_binade _ ((a : ℤ) + k) (by omega) h1 h2]
  have hu := two_zpow_pos ((a : ℤ) + k - 52)
  have hq : (n : ℚ) * 2 ^ k / 2 ^ ((a : ℤ) + k - 52) = ((n * 2 ^ (52 - a) : ℕ) : ℤ) := by
    rw [div_eq_iff (ne_of_gt hu)]
    push_cast
    rw [mul_assoc, ← zpow_natCast, ← zpow_add₀ (by norm_num : (2 : ℚ) ≠ 0)]
    have : ((52 - a : ℕ) : ℤ) + ((a : ℤ) + k - 52) = k := by omega
    rw [this]
  rw [hq, roundEven_intCast, ← hq, div_mul_cancel₀ _ (ne_of_gt hu)]

/-- Every natural number below `2^53` is a `float64`. -/
theorem round64_natCast (n : ℕ) (h : n < 2 ^ 53) : round64 (n : ℚ) = n := by
  have := round64_dyadic n 0 h (by norm_num)
  simpa using this

/-- A value given as `n * 2^k` with `n < 2^53` and `k ≥ -1022` is not changed by the
rounding. -/
theorem round64_of_dyadic (x : ℚ) (n : ℕ) (k : ℤ) (h : n < 2 ^ 53) (hk : -1022 ≤ k)
    (hx : x = (n : ℚ) * 2 ^ k) : round64 x = x := by
  rw [hx]
  exact round64_dyadic n k h hk

theorem round64_zero : round64 0 = 0 := by simp [round64]

theorem toUint_of_lt (m : Machine) {x : ℚ} (h0 : 0 ≤ x) (h1 : x < 2 ^ m.bits) :
    toUint m x = ⌊x⌋₊ := by
  have : -1 < x := by linarith
  simp only [toUint, this, h1, and_self, if_true]
  exact Int.floor_toNat x

/-- The row `uint(x/Δt + 0.5)` of `Sample` does not decrease with the time `x`, as long
as the conversion is in the range of `uint`. -/
theorem sampleRow_mono (m : Machine) {Δt x y : ℚ} (hΔt : 0 < Δt) (hx : 0 ≤ x) (hxy : x ≤ y)
    (hy : add64 (div64 y Δt) (1 / 2) < 2 ^ m.bits) :
    toUint m (add64 (div64 x Δt) (1 / 2)) ≤ toUint m (add64 (div64 y Δt) (1 / 2)) := by
  have h1 : 0 ≤ div64 x Δt := round64_nonneg (div_nonneg hx (le_of_lt hΔt))
  have h2 : div64 x Δt ≤ div64 y Δt :=
    round64_mono (div_nonneg hx (le_of_lt hΔt)) (div_le_div_of_nonneg_right hxy (le_of_lt hΔt))
  have h3 : (0 : ℚ) ≤ div64 x Δt + 1 / 2 := by linarith
  have h4 : add64 (div64 x Δt) (1 / 2) ≤ add64 (div64 y Δt) (1 / 2) :=
    round64_mono h3 (by linarith)
  have h5 : 0 ≤ add64 (div64 x Δt) (1 / 2) := round64_nonneg h3
  rw [toUint_of_lt m h5 (lt_of_le_of_lt h4 hy), toUint_of_lt m (le_trans h5 h4) hy]
  exact Nat.floor_mono h4

/-! ## `Sample` -/

/-- The result of `Sample` for a well-formed schedule: the function returns a matrix of
`ns` rows of `Cores` entries; a cell holds the power of the last task that covers it,
and `0` when no task covers it.  Task `i` covers row `r` of column `c` when it is mapped
to `c` and `r` lies between the row computed for its start (included) and the row
computed for its finish, cut at the effective number of samples (excluded). -/
theorem Sample_spec (m : Machine) (power : List ℚ) (sch : Schedule) (Δt : ℚ) (ns : ℕ)
    (hwf : sch.WellFormed) (hpw : power.length = sch.Tasks) :
    ∃ P, Sample m power sch Δt ns = some P ∧ P.length = sch.Cores * ns ∧
      ∀ r c : ℕ, c < sch.Cores → r < ns →
        (∀ i : ℕ, i < sch.Tasks →
          (sch.Mapping.getD i 0 = c ∧
            toUint m (add64 (div64 (sch.Start.getD i 0) Δt) (1 / 2)) ≤ r ∧
            r < min (toUint m (add64 (div64 (sch.Finish.getD i 0) Δt) (1 / 2)))
              (min ns (toUint m (div64 sch.Span Δt)))) →
          (∀ i' : ℕ, i < i' → i' < sch.Tasks →
            ¬ (sch.Mapping.getD i' 0 = c ∧
              toUint m (add64 (div64 (sch.Start.getD i' 0) Δt) (1 / 2)) ≤ r ∧
              r < min (toUint m (add64 (div64 (sch.Finish.getD i' 0) Δt) (1 / 2)))
                (min ns (toUint m (div64 sch.Span Δt))))) →
          P[r * sch.Cores + c]? = some (power.getD i 0)) ∧
        ((∀ i : ℕ, i < sch.Tasks →
          ¬ (sch.Mapping.getD i 0 = c ∧
            toUint m (add64 (div64 (sch.Start.getD i 0) Δt) (1 / 2)) ≤ r ∧
            r < min (toUint m (add64 (div64 (sch.Finish.getD i 0) Δt) (1 / 2)))
              (min ns (toUint m (div64 sch.Span Δt))))) →
          P[r * sch.Cores + c]? = some 0) := by
  obtain ⟨hm, hs, hf, hcore⟩ := hwf
  have hn : (if toUint m (div64 sch.Span Δt) < ns then toUint m (div64 sch.Span Δt) else ns)
      = min ns (toUint m (div64 sch.Span Δt)) := by
    split
    · rw [min_eq_right (by omega)]
    · rw [min_eq_left (by omega)]
  have hF : ∀ a n : ℕ, (if a > n then n else a) = min a n := by
    intro a n
    split
    · rw [min_eq_right (by omega)]
    · rw [min_eq_left (by omega)]
  obtain ⟨P, hP, hPlen, hval⟩ := task_loop sch.Cores ns
    (fun i => sch.Mapping.getD i 0)
    (fun i => toUint m (add64 (div64 (sch.Start.getD i 0) Δt) (1 / 2)))
    (fun i => min (toUint m (add64 (div64 (sch.Finish.getD i 0) Δt) (1 / 2)))
      (min ns (toUint m (div64 sch.Span Δt))))
    (fun i => power.getD i 0)
    (sampleBody m sch.Cores power sch Δt (min ns (toUint m (div64 sch.Span Δt)))) sch.Tasks 0
    (List.replicate (sch.Cores * ns) 0) (by simp)
    (by
      intro i _ hi Q
      have hi' : i < sch.Tasks := by omega
      have h1 : sch.Mapping[i]? = some (sch.Mapping.getD i 0) :=
        getElem?_getD _ _ _ (by omega)
      have h2 : power[i]? = some (power.getD i 0) := getElem?_getD _ _ _ (by omega)
      have h3 : sch.Start[i]? = some (sch.Start.getD i 0) := getElem?_getD _ _ _ (by omega)
      have h4 : sch.Finish[i]? = some (sch.Finish.getD i 0) := getElem?_getD _ _ _ (by omega)
      simp only [sampleBody, h1, h2, h3, h4, hF])
    (by
      intro i _ hi
      have hi' : i < sch.Tasks := by omega
      refine ⟨hcore _ (getD_mem _ _ _ (by omega)), ?_⟩
      exact le_trans (min_le_right _ _) (min_le_left _ _))
  refine ⟨P, ?_, by simpa using hPlen, ?_⟩
  · simp only [Sample, hn]
    exact hP
  · intro r c hc' hr
    obtain ⟨hlast, hnone⟩ := hval r c hc' hr
    refine ⟨fun i hi hcov hlater => hlast i (Nat.zero_le _) (by omega) hcov
      (fun i' h1 h2 => hlater i' h1 (by omega)), ?_⟩
    intro hno
    rw [hnone (fun i _ hi => hno i (by omega))]
    have hlt : r * sch.Cores + c < sch.Cores * ns := by
      have h3 : r + 1 ≤ ns := by omega
      calc r * sch.Cores + c < r * sch.Cores + sch.Cores := by omega
        _ = sch.Cores * (r + 1) := by ring
        _ ≤ sch.Cores * ns := Nat.mul_le_mul_left _ h3
    simp [List.getElem?_replicate, hlt]

/-- With `Δt = 1` the quotient of a whole number of time steps is that number. -/
theorem div64_natCast_one (n : ℕ) (h : n < 2 ^ 53) : div64 (n : ℚ) 1 = n := by
  rw [div64, div_one]
  exact round64_natCast n h

/-- The sum `n + 0.5` of a whole number below `2^52` and a half is a `float64`. -/
theorem add64_natCast_half (n : ℕ) (h : n < 2 ^ 52) : add64 (n : ℚ) (1 / 2) = n + 1 / 2 := by
  rw [add64]
  exact round64_of_dyadic _ (2 * n + 1) (-1) (by omega) (by norm_num)
    (by push_cast; rw [zpow_neg_one]; ring)

/-- The quotient `0.5 / 0.1` of `float64`: the exact quotient of the two `float64` values
is a little below `5`, and it is rounded to `5`. -/
theorem div64_half_tenth : div64 (1 / 2) tenth = 5 := by
  have hx : (1 / 2 : ℚ) / tenth = 18014398509481984 / 3602879701896397 := by
    norm_num [tenth]
  rw [div64, hx, round64_of_binade _ 2 (by norm_num) (by norm_num [abs_of_pos])
    (by norm_num [abs_of_pos])]
  norm_num [roundEven]

/-- The sum `0.49999999999999994 + 0.5` of `float64`: the exact sum lies half-way between
two `float64` values, and it is rounded to `1`. -/
theorem add64_belowHalf : add64 (div64 belowHalf 1) (1 / 2) = 1 := by
  have h1 : div64 belowHalf 1 = belowHalf := by
    rw [div64, div_one]
    exact round64_of_dyadic _ 9007199254740991 (-54) (by norm_num) (by norm_num)
      (by norm_num [belowHalf])
  have hx : belowHalf + 1 / 2 = 18014398509481983 / 18014398509481984 := by
    norm_num [belowHalf]
  rw [add64, h1, hx, round64_of_binade _ (-1) (by norm_num) (by norm_num [abs_of_pos])
    (by norm_num [abs_of_pos])]
  norm_num [roundEven]

/-- The sum `1.49 + 0.5` of `float64`, for the `float64` nearest to `1.49`. -/
theorem add64_149 :
    add64 (div64 (149 / 100) 1) (1 / 2) = 8962163258467287 / 4503599627370496 := by
  have h1 : div64 (149 / 100) 1 = 6710363444782039 / 4503599627370496 := by
    rw [div64, div_one, round64_of_binade _ 0 (by norm_num) (by norm_num [abs_of_pos])
      (by norm_num [abs_of_pos])]
    norm_num [roundEven]
  have hx : (6710363444782039 / 4503599627370496 + 1 / 2 : ℚ)
      = 8962163258467287 / 4503599627370496 := by norm_num
  rw [add64, h1, hx]
  exact round64_of_dyadic _ 8962163258467287 (-52) (by norm_num) (by norm_num) (by norm_num)

/-- The quotients and the sums of the scenario of the specification with `Δt = 1`, and
the sums `0 + 0.5` and `5 + 0.5`. -/
theorem scenario_rows :
    (div64 0 1 = 0 ∧ div64 2 1 = 2 ∧ div64 4 1 = 4) ∧
    (add64 0 (1 / 2) = 1 / 2 ∧ add64 2 (1 / 2) = 5 / 2 ∧ add64 4 (1 / 2) = 9 / 2 ∧
      add64 5 (1 / 2) = 11 / 2) := by
  have d0 := div64_natCast_one 0 (by norm_num)
  have d2 := div64_natCast_one 2 (by norm_num)
  have d4 := div64_natCast_one 4 (by norm_num)
  have a0 := add64_natCast_half 0 (by norm_num)
  have a2 := add64_natCast_half 2 (by norm_num)
  have a4 := add64_natCast_half 4 (by norm_num)
  have a5 := add64_natCast_half 5 (by norm_num)
  norm_num at d0 d2 d4 a0 a2 a4 a5
  exact ⟨⟨d0, d2, d4⟩, a0, a2, a4, a5⟩

/-! ## `Progress` -/

/-- The tasks mapped to core `i`, in increasing order. -/
theorem mapping_inner (mapping : List ℕ) (i : ℕ) (n : ℕ) :
    ∀ (j0 : ℕ) (acc : List ℕ), j0 + n ≤ mapping.length →
      forRange (mappingBody mapping i) n j0 acc =
        some (acc ++ (List.range' j0 n).filter (fun j => decide (mapping.getD j 0 = i))) := by
  induction n with
  | zero => intro j0 acc _; simp [forRange]
  | succ n ih =>
    intro j0 acc h
    have hj : mapping[j0]? = some (mapping.getD j0 0) := getElem?_getD _ _ _ (by omega)
    simp only [forRange, mappingBody, hj, List.range'_succ, List.filter_cons]
    by_cases hm : i = mapping.getD j0 0
    · simp only [hm, if_true, decide_True]
      rw [← hm, ih (j0 + 1) (acc ++ [j0]) (by omega)]
      simp
    · have hm' : ¬ mapping.getD j0 0 = i := fun h => hm h.symm
      simp only [hm, hm', if_false, decide_False]
      rw [ih (j0 + 1) acc (by omega)]
      simp

/-- A loop whose body at index `i` is the assignment `st[i] = g i`. -/
theorem set_loop {α : Type} (g : ℕ → α) (body : ℕ → List α → Option (List α)) (n : ℕ) :
    ∀ (i0 : ℕ) (st : List α), i0 + n ≤ st.length →
      (∀ i : ℕ, i0 ≤ i → i < i0 + n → ∀ st' : List α, i < st'.length →
        body i st' = some (st'.set i (g i))) →
      ∃ st', forRange body n i0 st = some st' ∧ st'.length = st.length ∧
        (∀ i : ℕ, i0 ≤ i → i < i0 + n → st'[i]? = some (g i)) ∧
        (∀ q : ℕ, (q < i0 ∨ i0 + n ≤ q) → st'[q]? = st[q]?) := by
  induction n with
  | zero =>
    intro i0 st _ _
    exact ⟨st, rfl, rfl, fun i h1 h2 => by omega, fun _ _ => rfl⟩
  | succ n ih =>
    intro i0 st hlen hbody
    have hi0 : i0 < st.length := by omega
    obtain ⟨st', hst', hlen', hin, hout⟩ := ih (i0 + 1) (st.set i0 (g i0))
      (by rw [List.length_set]; omega)
      (fun i h1 h2 st'' h3 => hbody i (by omega) (by omega) st'' h3)
    refine ⟨st', ?_, by rw [hlen', List.length_set], ?_, ?_⟩
    · simp only [forRange, hbody i0 le_rfl (by omega) st hi0]
      exact hst'
    · intro i h1 h2
      rcases Nat.eq_or_lt_of_le h1 with heq | hlt
      · subst heq
        rw [hout i0 (Or.inl (by omega))]
        simp [List.getElem?_set, hi0]
      · exact hin i (by omega) (by omega)
    · intro q hq
      rw [hout q (by omega)]
      have hne : i0 ≠ q := by omega
      simp [List.getElem?_set, hne]

/-- The construction of `mapping` returns, for every core, the tasks mapped to it. -/
theorem buildMapping_spec (nc nt : ℕ) (mapping : List ℕ) (h : nt ≤ mapping.length) :
    ∃ mp, buildMapping nc nt mapping = some mp ∧ mp.length = nc ∧
      ∀ i : ℕ, i < nc → mp[i]? = some (tasksOf mapping nt i) := by
  obtain ⟨mp, hmp, hlen, hin, _⟩ := set_loop (fun i => tasksOf mapping nt i)
    (fun i (acc : List (List ℕ)) =>
      match forRange (mappingBody mapping i) nt 0 [] with
      | none => none
      | some tasks => setAt acc i tasks)
    nc 0 (List.replicate nc []) (by simp)
    (by
      intro i _ _ st' hi
      simp only [mapping_inner mapping i nt 0 [] (by omega), List.nil_append,
        setAt_eq_some _ _ _ hi, tasksOf])
  refine ⟨mp, hmp, by simpa using hlen, fun i hi => hin i (Nat.zero_le _) (by omega)⟩

theorem mem_tasksOf (mapping : List ℕ) (nt i j : ℕ) :
    j ∈ tasksOf mapping nt i ↔ j < nt ∧ mapping.getD j 0 = i := by
  simp [tasksOf]

theorem tasksOf_sorted (mapping : List ℕ) (nt i : ℕ) :
    (tasksOf mapping nt i).Pairwise (· < ·) :=
  (List.pairwise_lt_range' 0 nt).sublist (List.filter_sublist _)

/-- The loop over the tasks of a core, after `result[i] = 0`, leaves `activeValue` in
`result[i]`. -/
theorem scanTasks_spec (look : ℕ → Option ℚ) (start finish : List ℚ) (time : ℚ) (i : ℕ)
    (js : List ℕ) (result : List ℚ) (hi : i < result.length)
    (hjs : ∀ j ∈ js, j < start.length ∧ j < finish.length ∧ ∃ v, look j = some v) :
    scanTasks look start finish time i js (result.set i 0) =
      some (result.set i (activeValue look start finish time js)) := by
  induction js with
  | nil => simp [scanTasks, activeValue]
  | cons j js ih =>
    obtain ⟨h1, h2, v, hv⟩ := hjs j (List.mem_cons_self _ _)
    have ih' := ih (fun j' hj' => hjs j' (List.mem_cons_of_mem _ hj'))
    have hs : start[j]? = some (start.getD j 0) := getElem?_getD _ _ _ h1
    have hf : finish[j]? = some (finish.getD j 0) := getElem?_getD _ _ _ h2
    simp only [scanTasks, activeValue, hs, hf]
    by_cases hstart : start.getD j 0 ≤ time
    · by_cases hfin : time ≤ finish.getD j 0
      · have hi' : i < (result.set i 0).length := by simpa using hi
        simp only [hstart, hfin, if_true, and_self, hv, setAt_eq_some _ _ _ hi', List.set_set,
          Option.getD_some]
      · simp only [hstart, hfin, if_true, if_false, and_false]
        exact ih'
    · simp only [hstart, if_false, false_and]
      exact ih'

/-- The value `activeValue` on an increasing list of tasks: the power of the smallest
task whose interval contains `time`, and `0` when there is none. -/
theorem activeValue_spec (look : ℕ → Option ℚ) (start finish : List ℚ) (time : ℚ)
    (js : List ℕ) (hsorted : js.Pairwise (· < ·)) :
    (∀ k ∈ js, start.getD k 0 ≤ time → time ≤ finish.getD k 0 →
      (∀ k' ∈ js, k' < k → ¬ (start.getD k' 0 ≤ time ∧ time ≤ finish.getD k' 0)) →
      activeValue look start finish time js = (look k).getD 0) ∧
    ((∀ k ∈ js, ¬ (start.getD k 0 ≤ time ∧ time ≤ finish.getD k 0)) →
      activeValue look start finish time js = 0) := by
  induction js with
  | nil => simp [activeValue]
  | cons j js ih =>
    obtain ⟨hlt, hs'⟩ := List.pairwise_cons.mp hsorted
    obtain ⟨ih1, ih2⟩ := ih hs'
    simp only [activeValue]
    by_cases hact : start.getD j 0 ≤ time ∧ time ≤ finish.getD j 0
    · rw [if_pos hact]
      constructor
      · intro k hk h1 h2 hfirst
        rcases List.mem_cons.mp hk with rfl | hk'
        · rfl
        · exact absurd hact (hfirst j (List.mem_cons_self _ _) (hlt k hk'))
      · intro hnone
        exact absurd hact (hnone j (List.mem_cons_self _ _))
    · rw [if_neg hact]
      constructor
      · intro k hk h1 h2 hfirst
        rcases List.mem_cons.mp hk with rfl | hk'
        · exact absurd ⟨h1, h2⟩ hact
        · exact ih1 k hk' h1 h2 (fun k' hk'' => hfirst k' (List.mem_cons_of_mem _ hk''))
      · intro hnone
        exact ih2 (fun k hk => hnone k (List.mem_cons_of_mem _ hk))

/-- The loop over the cores of the closure of `Progress`: it writes `activeValue` of the
tasks of core `i` into `out[i]` and leaves the rest of `out` unchanged. -/
theorem progress_loop (mp : List (List ℕ)) (mapping : List ℕ) (nt nc : ℕ)
    (look : ℕ → ℕ → Option ℚ) (start finish : List ℚ) (time : ℚ) (out : List ℚ)
    (hmp : ∀ i : ℕ, i < nc → mp[i]? = some (tasksOf mapping nt i))
    (hs : nt ≤ start.length) (hf : nt ≤ finish.length)
    (hlook : ∀ i j : ℕ, i < nc → j ∈ tasksOf mapping nt i → ∃ v, look i j = some v)
    (hout : nc ≤ out.length) :
    ∃ out', forRange (progressBody mp look start finish time) nc 0 out = some out' ∧
      out'.length = out.length ∧
      (∀ i : ℕ, i < nc →
        out'[i]? = some (activeValue (look i) start finish time (tasksOf mapping nt i))) ∧
      (∀ q : ℕ, nc ≤ q → out'[q]? = out[q]?) := by
  obtain ⟨out', h1, h2, h3, h4⟩ := set_loop
    (fun i => activeValue (look i) start finish time (tasksOf mapping nt i))
    (progressBody mp look start finish time) nc 0 out (by omega)
    (by
      intro i _ hi st' hst'
      have hi' : i < nc := by omega
      simp only [progressBody, setAt_eq_some _ _ _ hst', hmp i hi']
      apply scanTasks_spec _ _ _ _ _ _ _ hst'
      intro j hj
      have := (mem_tasksOf mapping nt i j).mp hj
      exact ⟨by omega, by omega, hlook i j hi' hj⟩)
  exact ⟨out', h1, h2, fun i hi => h3 i (Nat.zero_le _) (by omega),
    fun q hq => h4 q (Or.inr (by omega))⟩

/-- The result of `Progress` for a well-formed schedule: the construction returns a
closure; on a buffer of at least `Cores` entries the closure returns; `out[c]` becomes
the power of the smallest task mapped to `c` whose closed interval contains `t`, and `0`
when there is none; the entries from `Cores` on are unchanged. -/
theorem Progress_spec (power : List ℚ) (sch : Schedule) (hwf : sch.WellFormed)
    (hpw : power.length = sch.Tasks) :
    ∃ q, Progress power sch = some q ∧
      ∀ (t : ℚ) (out : List ℚ), sch.Cores ≤ out.length →
        ∃ out', q t out = some out' ∧ out'.length = out.length ∧
          (∀ c : ℕ, c < sch.Cores →
            (∀ k : ℕ, k < sch.Tasks → sch.Mapping.getD k 0 = c → sch.Start.getD k 0 ≤ t →
              t ≤ sch.Finish.getD k 0 →
              (∀ k' : ℕ, k' < k → ¬ (sch.Mapping.getD k' 0 = c ∧ sch.Start.getD k' 0 ≤ t ∧
                t ≤ sch.Finish.getD k' 0)) →
              out'[c]? = some (power.getD k 0)) ∧
            ((∀ k : ℕ, k < sch.Tasks → ¬ (sch.Mapping.getD k 0 = c ∧
                sch.Start.getD k 0 ≤ t ∧ t ≤ sch.Finish.getD k 0)) →
              out'[c]? = some 0)) ∧
          (∀ p : ℕ, sch.Cores ≤ p → out'[p]? = out[p]?) := by
  obtain ⟨hm, hs, hf, _⟩ := hwf
  obtain ⟨mp, hmp, _, hmpi⟩ := buildMapping_spec sch.Cores sch.Tasks sch.Mapping (by omega)
  refine ⟨fun time result => forRange
    (progressBody mp (fun _ j => power[j]?) sch.Start sch.Finish time) sch.Cores 0 result,
    by simp only [Progress, hmp], ?_⟩
  intro t out hout
  obtain ⟨out', h1, h2, h3, h4⟩ := progress_loop mp sch.Mapping sch.Tasks sch.Cores
    (fun _ j => power[j]?) sch.Start sch.Finish t out hmpi (by omega) (by omega)
    (by
      intro i j _ hj
      have := (mem_tasksOf sch.Mapping sch.Tasks i j).mp hj
      exact ⟨_, getElem?_getD power j 0 (by omega)⟩)
    hout
  refine ⟨out', h1, h2, ?_, h4⟩
  intro c hc
  obtain ⟨hfirst, hnone⟩ := activeValue_spec (fun j => power[j]?) sch.Start sch.Finish t
    (tasksOf sch.Mapping sch.Tasks c) (tasksOf_sorted _ _ _)
  rw [h3 c hc]
  constructor
  · intro k hk hmap hst hfi hsmall
    rw [hfirst k ((mem_tasksOf _ _ _ _).mpr ⟨hk, hmap⟩) hst hfi
      (fun k' hk' hlt hact => hsmall k' hlt ⟨((mem_tasksOf _ _ _ _).mp hk').2, hact⟩)]
    rw [getElem?_getD power k 0 (by omega)]
    rfl
  · intro hno
    rw [hnone (fun k hk hact => hno k ((mem_tasksOf _ _ _ _).mp hk).1
      ⟨((mem_tasksOf _ _ _ _).mp hk).2, hact⟩)]

/-! ## The managers -/

theorem forRange_congr {σ : Type} (body1 body2 : ℕ → σ → Option σ) (n : ℕ) :
    ∀ (i0 : ℕ) (st : σ), (∀ i : ℕ, i0 ≤ i → i < i0 + n → ∀ st', body1 i st' = body2 i st') →
      forRange body1 n i0 st = forRange body2 n i0 st := by
  induction n with
  | zero => intro i0 st _; rfl
  | succ n ih =>
    intro i0 st h
    simp only [forRange, h i0 le_rfl (by omega) st]
    cases body2 i0 st with
    | none => rfl
    | some st' => exact ih (i0 + 1) st' (fun i h1 h2 => h i (by omega) (by omega))

theorem scanTasks_congr (look1 look2 : ℕ → Option ℚ) (start finish : List ℚ) (time : ℚ)
    (i : ℕ) (js : List ℕ) (h : ∀ j ∈ js, look1 j = look2 j) (result : List ℚ) :
    scanTasks look1 start finish time i js result =
      scanTasks look2 start finish time i js result := by
  induction js with
  | nil => rfl
  | cons j js ih =>
    simp only [scanTasks, h j (List.mem_cons_self _ _),
      ih (fun j' hj' => h j' (List.mem_cons_of_mem _ hj'))]

/-- When the loop of `collect` returns, every entry that it has passed holds the power
of the task on its core, and the other entries are unchanged. -/
theorem collect_loop (cores : List Core) (tasks : List Task) (mapping : List ℕ) (n : ℕ) :
    ∀ (i0 : ℕ) (st st' : List ℚ),
      forRange (fun i (power : List ℚ) =>
        match mapping[i]? with
        | none => none
        | some j =>
          match lookup cores tasks j i with
          | none => none
          | some v => setAt power i v) n i0 st = some st' →
      st'.length = st.length ∧
      (∀ i : ℕ, i0 ≤ i → i < i0 + n →
        ∃ j, mapping[i]? = some j ∧ i < st'.length ∧ lookup cores tasks j i = st'[i]?) ∧
      (∀ q : ℕ, q < i0 → st'[q]? = st[q]?) := by
  induction n with
  | zero =>
    intro i0 st st' h
    simp only [forRange, Option.some.injEq] at h
    subst h
    exact ⟨rfl, fun i h1 h2 => by omega, fun _ _ => rfl⟩
  | succ n ih =>
    intro i0 st st' h
    simp only [forRange] at h
    cases hm : mapping[i0]? with
    | none => simp [hm] at h
    | some j =>
      cases hl : lookup cores tasks j i0 with
      | none => simp [hm, hl] at h
      | some v =>
        by_cases hi0 : i0 < st.length
        · simp only [hm, hl, setAt_eq_some _ _ _ hi0] at h
          obtain ⟨h1, h2, h3⟩ := ih (i0 + 1) _ st' h
          rw [List.length_set] at h1
          refine ⟨h1, ?_, ?_⟩
          · intro i hi1 hi2
            rcases Nat.eq_or_lt_of_le hi1 with heq | hlt
            · subst heq
              refine ⟨j, hm, by omega, ?_⟩
              rw [h3 i0 (by omega), hl]
              simp [List.getElem?_set, hi0]
            · exact h2 i (by omega) (by omega)
          · intro q hq
            rw [h3 q (by omega)]
            have hne : i0 ≠ q := by omega
            simp [List.getElem?_set, hne]
        · simp [hm, hl, setAt, hi0] at h

/-- The vector returned by `collect`: one entry per task, the power of the task on the
core it is mapped to. -/
theorem collect_spec (p : Power) (sch : Schedule) (power : List ℚ)
    (h : p.collect sch = some power) :
    power.length = p.application.Tasks.length ∧
      ∀ i : ℕ, i < p.application.Tasks.length →
        ∃ j, sch.Mapping[i]? = some j ∧
          lookup p.platform.Cores p.application.Tasks j i = power[i]? := by
  obtain ⟨h1, h2, _⟩ := collect_loop p.platform.Cores p.application.Tasks sch.Mapping
    p.application.Tasks.length 0 _ power h
  rw [List.length_replicate] at h1
  refine ⟨h1, fun i hi => ?_⟩
  obtain ⟨j, hj1, _, hj2⟩ := h2 i (Nat.zero_le _) (by omega)
  exact ⟨j, hj1, hj2⟩

/-- The method `collect` returns when every task type has an entry in the power table of
the core of the task. -/
theorem collect_returns (p : Power) (sch : Schedule)
    (hm : p.application.Tasks.length ≤ sch.Mapping.length)
    (hl : ∀ i : ℕ, i < p.application.Tasks.length →
      ∃ v, lookup p.platform.Cores p.application.Tasks (sch.Mapping.getD i 0) i = some v) :
    ∃ power, p.collect sch = some power := by
  obtain ⟨power, hp, _⟩ := set_loop
    (fun i => (lookup p.platform.Cores p.application.Tasks (sch.Mapping.getD i 0) i).getD 0)
    (fun i (power : List ℚ) =>
      match sch.Mapping[i]? with
      | none => none
      | some j =>
        match lookup p.platform.Cores p.application.Tasks j i with
        | none => none
        | some v => setAt power i v)
    p.application.Tasks.length 0 (List.replicate p.application.Tasks.length 0) (by simp)
    (by
      intro i _ hi st' hst'
      have hi' : i < p.application.Tasks.length := by omega
      obtain ⟨v, hv⟩ := hl i hi'
      simp only [getElem?_getD sch.Mapping i 0 (by omega), hv, setAt_eq_some _ _ _ hst',
        Option.getD_some])
  exact ⟨power, hp⟩

/-- The loop of `Distribute` is the loop of `collect` over the rest of the mapping. -/
theorem distributeLoop_eq (cores : List Core) (tasks : List Task) (mapping : List ℕ) (n : ℕ) :
    ∀ (i0 : ℕ) (st : List ℚ), i0 + n = mapping.length →
      distributeLoop cores tasks i0 (mapping.drop i0) st =
        forRange (fun i (power : List ℚ) =>
          match mapping[i]? with
          | none => none
          | some j =>
            match lookup cores tasks j i with
            | none => none
            | some v => setAt power i v) n i0 st := by
  induction n with
  | zero =>
    intro i0 st h
    rw [List.drop_eq_nil_of_le (by omega)]
    rfl
  | succ n ih =>
    intro i0 st h
    have hi : i0 < mapping.length := by omega
    rw [List.drop_eq_getElem_cons hi]
    cases hl : lookup cores tasks mapping[i0] i0 with
    | none => simp only [distributeLoop, forRange, List.getElem?_eq_getElem hi, hl]
    | some v =>
      cases hs : setAt st i0 v with
      | none => simp only [distributeLoop, forRange, List.getElem?_eq_getElem hi, hl, hs]
      | some st' =>
        simp only [distributeLoop, forRange, List.getElem?_eq_getElem hi, hl, hs]
        exact ih (i0 + 1) st' (by omega)

/-- With one mapping entry per task, `Distribute` is `collect`. -/
theorem Distribute_eq_collect (p : Power) (sch : Schedule)
    (hm : sch.Mapping.length = p.application.Tasks.length) :
    (Dynamic.mk p.platform p.application).Distribute sch = p.collect sch := by
  have := distributeLoop_eq p.platform.Cores p.application.Tasks sch.Mapping
    sch.Mapping.length 0 (List.replicate p.application.Tasks.length 0) (by omega)
  simp only [List.drop_zero] at this
  simp only [Dynamic.Distribute, Power.collect, this, hm]

/-- The method `collect` returns the vector whose entry `i` is
`cores[Mapping[i]].Power[tasks[i].Type]`, when there is such a vector. -/
theorem collect_eq (p : Power) (sch : Schedule) (power : List ℚ)
    (hm : p.application.Tasks.length ≤ sch.Mapping.length)
    (hlen : power.length = p.application.Tasks.length)
    (hl : ∀ i : ℕ, i < p.application.Tasks.length →
      power[i]? = lookup p.platform.Cores p.application.Tasks (sch.Mapping.getD i 0) i) :
    p.collect sch = some power := by
  obtain ⟨st', hst', hlen', hin, _⟩ := set_loop (fun i => power.getD i 0)
    (fun i (power : List ℚ) =>
      match sch.Mapping[i]? with
      | none => none
      | some j =>
        match lookup p.platform.Cores p.application.Tasks j i with
        | none => none
        | some v => setAt power i v)
    p.application.Tasks.length 0 (List.replicate p.application.Tasks.length 0) (by simp)
    (by
      intro i _ hi st'' hst''
      have hi' : i < p.application.Tasks.length := by omega
      have hv := hl i hi'
      rw [getElem?_getD power i 0 (by omega)] at hv
      simp only [getElem?_getD sch.Mapping i 0 (by omega), ← hv, setAt_eq_some _ _ _ hst''])
  have heq : st' = power := by
    apply List.ext_getElem?
    intro i
    by_cases hi : i < p.application.Tasks.length
    · rw [hin i (Nat.zero_le _) (by omega), getElem?_getD power i 0 (by omega)]
    · rw [List.length_replicate] at hlen'
      rw [List.getElem?_eq_none (by omega), List.getElem?_eq_none (by omega)]
  rw [← heq]
  exact hst'

/-! ## Independence of the sort -/

theorem map_getD_range (l : List ℚ) : (List.range l.length).map (fun i => l.getD i 0) = l := by
  apply List.ext_getElem?
  intro n
  by_cases hn : n < l.length
  · rw [List.getElem?_map, List.getElem?_range hn, Option.map_some', getElem?_getD l n 0 hn]
  · rw [List.getElem?_eq_none (by simpa using hn), List.getElem?_eq_none (by omega)]

/-- The sorted slice of a result of sorting is a permutation of the input. -/
theorem IsSortOf.perm {order : List ℕ} {sorted points : List ℚ}
    (h : IsSortOf order sorted points) : sorted.Perm points := by
  have hmap : sorted = order.map (fun o => points.getD o 0) := by
    apply List.ext_getElem?
    intro k
    by_cases hk : k < order.length
    · have hko : order[k]? = some order[k] := List.getElem?_eq_getElem hk
      rw [h.2.2.2 k _ hko, List.getElem?_map, hko, Option.map_some']
      exact getElem?_getD _ _ _ (h.lt (List.getElem_mem hk))
    · rw [List.getElem?_eq_none (by rw [h.2.1, ← h.order_length]; omega),
        List.getElem?_eq_none (by simpa using hk)]
  rw [hmap]
  have := h.1.map (fun o => points.getD o 0)
  rwa [map_getD_range] at this

/-- Two results of sorting the same slice have the same sorted slice. -/
theorem IsSortOf.sorted_eq {order order' : List ℕ} {sorted sorted' points : List ℚ}
    (h : IsSortOf order sorted points) (h' : IsSortOf order' sorted' points) :
    sorted = sorted' :=
  List.eq_of_perm_of_sorted (h.perm.trans h'.perm.symm) h.2.2.1 h'.2.2.1

/-- For `0 ≤ ε` the result of the walk does not depend on the sorting permutation. -/
theorem traverseSorted_unique (points : List ℚ) (ε : ℚ) (hε : 0 ≤ ε)
    (order order' : List ℕ) (sorted sorted' : List ℚ) (h : IsSortOf order sorted points)
    (h' : IsSortOf order' sorted' points) :
    traverseSorted order sorted ε = traverseSorted order' sorted' ε := by
  have hsorted := h.sorted_eq h'
  subst hsorted
  cases hs : sorted with
  | nil => simp [traverseSorted]
  | cons x0 tail =>
    have hne : points ≠ [] := by
      intro hnil
      have := h.2.1
      rw [hs, hnil] at this
      simp at this
    obtain ⟨steps, hret, _, _⟩ := traverseSorted_walk order sorted points ε x0 tail h hs
    obtain ⟨steps', hret', _, _⟩ := traverseSorted_walk order' sorted points ε x0 tail h' hs
    obtain ⟨g1, s1, e1, hl1, hg1, hc1, _, hrep1⟩ := traverseSorted_spec order sorted points ε h hne
    obtain ⟨g2, s2, e2, hl2, _, hc2, _, hrep2⟩ := traverseSorted_spec order' sorted points ε h' hne
    rw [hs] at hret hret' e1 e2
    rw [hret] at e1
    rw [hret'] at e2
    simp only [Option.some.injEq, Prod.mk.injEq] at e1 e2
    obtain ⟨rfl, rfl⟩ := e1
    obtain ⟨hg, rfl⟩ := e2
    subst hg
    rw [hret, hret']
    congr 2
    apply List.ext_getElem?
    intro a
    by_cases ha : a < points.length
    · have ha1 : steps[a]? = some (steps.getD a 0) := getElem?_getD _ _ _ (by omega)
      have ha2 : steps'[a]? = some (steps'.getD a 0) := getElem?_getD _ _ _ (by omega)
      have hv : points[a]? = some (points.getD a 0) := getElem?_getD _ _ _ ha
      have r1 := hrep1 hε a _ _ hv ha1
      have r2 := hrep2 hε a _ _ hv ha2
      have b1 := hc1 _ (List.getElem?_mem ha1)
      have b2 := hc2 _ (List.getElem?_mem ha2)
      rw [ha1, ha2]
      congr 1
      rcases Nat.lt_trichotomy (steps.getD a 0) (steps'.getD a 0) with hlt | heq | hgt
      · have := take_sum_lt _ ε hε hg1 _ _ hlt b2
        linarith [r1.2, r2.1]
      · exact heq
      · have := take_sum_lt _ ε hε hg1 _ _ hgt b1
        linarith [r1.1, r2.2]
    · rw [List.getElem?_eq_none (by omega), List.getElem?_eq_none (by omega)]

/-! ## Stability of the model of the sort -/

theorem enumFrom_fst_lt (l : List ℚ) :
    ∀ n : ℕ, (List.enumFrom n l).Pairwise (fun a b => a.1 < b.1) ∧
      ∀ a ∈ List.enumFrom n l, n ≤ a.1 := by
  induction l with
  | nil => intro n; simp [List.enumFrom]
  | cons x xs ih =>
    intro n
    obtain ⟨h1, h2⟩ := ih (n + 1)
    simp only [List.enumFrom, List.pairwise_cons, List.mem_cons]
    refine ⟨⟨fun a ha => ?_, h1⟩, ?_⟩
    · have := h2 a ha
      show n < a.1
      omega
    · rintro a (rfl | ha)
      · exact le_rfl
      · have := h2 a ha
        omega

theorem orderedInsert_stable (a : ℕ × ℚ) (l : List (ℕ × ℚ))
    (hl : l.Pairwise (fun a b => a.2 < b.2 ∨ (a.2 = b.2 ∧ a.1 < b.1)))
    (ha : ∀ b ∈ l, a.1 < b.1) :
    (l.orderedInsert (fun a b => a.2 ≤ b.2) a).Pairwise
      (fun a b => a.2 < b.2 ∨ (a.2 = b.2 ∧ a.1 < b.1)) := by
  induction l with
  | nil => simp
  | cons b l ih =>
    obtain ⟨hb, hl'⟩ := List.pairwise_cons.mp hl
    simp only [List.orderedInsert]
    by_cases hab : a.2 ≤ b.2
    · rw [if_pos hab]
      refine List.pairwise_cons.mpr ⟨?_, hl⟩
      intro c hc
      have hac := ha c hc
      rcases List.mem_cons.mp hc with rfl | hc'
      · rcases lt_or_eq_of_le hab with h | h
        · exact Or.inl h
        · exact Or.inr ⟨h, hac⟩
      · have hbc : b.2 ≤ c.2 := by
          rcases hb c hc' with h | h
          · exact le_of_lt h
          · exact le_of_eq h.1
        rcases lt_or_eq_of_le (le_trans hab hbc) with h | h
        · exact Or.inl h
        · exact Or.inr ⟨h, hac⟩
    · rw [if_neg hab]
      refine List.pairwise_cons.mpr ⟨?_, ih hl' (fun c hc => ha c (List.mem_cons_of_mem _ hc))⟩
      intro c hc
      rcases (List.mem_orderedInsert _).mp hc with rfl | hc'
      · exact Or.inl (lt_of_not_le hab)
      · exact hb c hc'

theorem insertionSort_stable (l : List (ℕ × ℚ)) (hl : l.Pairwise (fun a b => a.1 < b.1)) :
    (l.insertionSort (fun a b => a.2 ≤ b.2)).Pairwise
      (fun a b => a.2 < b.2 ∨ (a.2 = b.2 ∧ a.1 < b.1)) := by
  induction l with
  | nil => simp
  | cons a l ih =>
    obtain ⟨ha, hl'⟩ := List.pairwise_cons.mp hl
    simp only [List.insertionSort]
    exact orderedInsert_stable a _ (ih hl')
      (fun b hb => ha b ((List.mem_insertionSort _).mp hb))

/-- The model of the sort is stable. -/
theorem Quick_stable (data : List ℚ) : IsStable (Quick data).1 (Quick data).2 := by
  have h := insertionSort_stable data.enum (enumFrom_fst_lt data 0).1
  simp only [IsStable, Quick, List.zip_map']
  simpa using h

/-! ## The least-squares line -/

theorem sum_map_quad (ps : List (ℚ × ℚ)) (c0 c1 c2 c3 c4 c5 : ℚ) :
    (ps.map (fun p => c0 + c1 * p.1 + c2 * p.2 + c3 * p.1 ^ 2 + c4 * (p.1 * p.2)
      + c5 * p.2 ^ 2)).sum =
    ps.length * c0 + c1 * (ps.map Prod.fst).sum + c2 * (ps.map Prod.snd).sum
      + c3 * (ps.map (fun p => p.1 ^ 2)).sum + c4 * (ps.map (fun p => p.1 * p.2)).sum
      + c5 * (ps.map (fun p => p.2 ^ 2)).sum := by
  induction ps with
  | nil => simp
  | cons p ps ih =>
    simp only [List.map_cons, List.sum_cons, List.length_cons, ih]
    push_cast
    ring

/-- The line through the means with slope `b`, where `b` solves the normal equation of
the slope, has residuals of sum zero that are orthogonal to the abscissas, and it
minimises the sum of the squared residuals. -/
theorem ols_core (ps : List (ℚ × ℚ)) (mx my a b : ℚ)
    (hmx : ps.length * mx = (ps.map Prod.fst).sum)
    (hmy : ps.length * my = (ps.map Prod.snd).sum)
    (hb : b * (ps.map (fun p => (p.1 - mx) ^ 2)).sum
      = (ps.map (fun p => (p.1 - mx) * (p.2 - my))).sum)
    (ha : a = my - b * mx) :
    (ps.map (fun p => p.2 - (a + b * p.1))).sum = 0 ∧
    (ps.map (fun p => p.1 * (p.2 - (a + b * p.1)))).sum = 0 ∧
    ∀ a' b' : ℚ, (ps.map (fun p => (p.2 - (a + b * p.1)) ^ 2)).sum
      ≤ (ps.map (fun p => (p.2 - (a' + b' * p.1)) ^ 2)).sum := by
  have e1 : (ps.map (fun p => p.2 - (a + b * p.1))).sum
      = ps.length * (-a) + (-b) * (ps.map Prod.fst).sum + 1 * (ps.map Prod.snd).sum := by
    have := sum_map_quad ps (-a) (-b) 1 0 0 0
    simp only [zero_mul, add_zero] at this
    rw [← this]
    congr 1
    apply List.map_congr_left
    intro p _
    ring
  have e2 : (ps.map (fun p => p.1 * (p.2 - (a + b * p.1)))).sum
      = (-a) * (ps.map Prod.fst).sum + (-b) * (ps.map (fun p => p.1 ^ 2)).sum
        + 1 * (ps.map (fun p => p.1 * p.2)).sum := by
    have := sum_map_quad ps 0 (-a) 0 (-b) 1 0
    simp only [zero_mul, add_zero, mul_zero, zero_add] at this
    rw [← this]
    congr 1
    apply List.map_congr_left
    intro p _
    ring
  have e3 : (ps.map (fun p => (p.1 - mx) ^ 2)).sum
      = ps.length * mx ^ 2 + (-2 * mx) * (ps.map Prod.fst).sum
        + 1 * (ps.map (fun p => p.1 ^ 2)).sum := by
    have := sum_map_quad ps (mx ^ 2) (-2 * mx) 0 1 0 0
    simp only [zero_mul, add_zero] at this
    rw [← this]
    congr 1
    apply List.map_congr_left
    intro p _
    ring
  have e4 : (ps.map (fun p => (p.1 - mx) * (p.2 - my))).sum
      = ps.length * (mx * my) + (-my) * (ps.map Prod.fst).sum
        + (-mx) * (ps.map Prod.snd).sum + 1 * (ps.map (fun p => p.1 * p.2)).sum := by
    have := sum_map_quad ps (mx * my) (-my) (-mx) 0 1 0
    simp only [zero_mul, add_zero] at this
    rw [← this]
    congr 1
    apply List.map_congr_left
    intro p _
    ring
  rw [e3, e4] at hb
  have n1 : (ps.map (fun p => p.2 - (a + b * p.1))).sum = 0 := by
    rw [e1, ha]
    linear_combination (-1 : ℚ) * hmy + b * hmx
  have n2 : (ps.map (fun p => p.1 * (p.2 - (a + b * p.1)))).sum = 0 := by
    rw [e2, ha]
    linear_combination (-1 : ℚ) * hb + (b * mx) * hmx - mx * hmy
  refine ⟨n1, n2, ?_⟩
  intro a' b'
  have hsplit : (ps.map (fun p => (p.2 - (a' + b' * p.1)) ^ 2)).sum
      = (ps.map (fun p => (p.2 - (a + b * p.1)) ^ 2)).sum
        + ((ps.map (fun p => ((a - a') + (b - b') * p.1) ^ 2)).sum
          + (2 * (a - a') * (ps.map (fun p => p.2 - (a + b * p.1))).sum
            + 2 * (b - b') * (ps.map (fun p => p.1 * (p.2 - (a + b * p.1)))).sum)) := by
    rw [← List.sum_map_mul_left, ← List.sum_map_mul_left, ← List.sum_map_add,
      ← List.sum_map_add, ← List.sum_map_add]
    congr 1
    apply List.map_congr_left
    intro p _
    ring
  rw [hsplit, n1, n2]
  have hnn : 0 ≤ (ps.map (fun p => ((a - a') + (b - b') * p.1) ^ 2)).sum := by
    apply List.sum_nonneg
    intro v hv
    obtain ⟨p, _, rfl⟩ := List.mem_map.mp hv
    exact sq_nonneg _
  linarith

/-- With two distinct values the sum of the squared deviations is not zero. -/
theorem sum_sq_ne_zero (x : List ℚ) (m : ℚ) (u v : ℚ) (hu : u ∈ x) (hv : v ∈ x)
    (huv : u ≠ v) : (x.map (fun a => (a - m) ^ 2)).sum ≠ 0 := by
  intro h0
  have hnn : ∀ t ∈ x.map (fun a => (a - m) ^ 2), 0 ≤ t := by
    intro t ht
    obtain ⟨a, _, rfl⟩ := List.mem_map.mp ht
    exact sq_nonneg _
  have key : ∀ w ∈ x, w = m := by
    intro w hw
    have h1 := List.single_le_sum hnn _ (List.mem_map.mpr ⟨w, hw, rfl⟩)
    rw [h0] at h1
    have h2 : (w - m) ^ 2 = 0 := le_antisymm h1 (sq_nonneg _)
    have h3 : w - m = 0 := by simpa using h2
    linarith
  exact huv ((key u hu).trans (key v hv).symm)

/-! ## More on the results of `traverse` and `Partition` -/

/-- There is at least one input value more than there are gaps. -/
theorem traverse_gaps_length (points : List ℚ) (ε : ℚ) (gaps : List ℚ) (steps : List ℕ)
    (h : traverse points ε = some (gaps, steps)) : gaps.length + 1 ≤ points.length := by
  have hsort := Quick_isSortOf points
  cases hs : (Quick points).2 with
  | nil =>
    simp [traverse, traverseSorted, hs] at h
  | cons x0 tail =>
    obtain ⟨steps', hret, _, _⟩ :=
      traverseSorted_walk (Quick points).1 (Quick points).2 points ε x0 tail hsort hs
    simp only [traverse] at h
    rw [hret] at h
    simp only [Option.some.injEq, Prod.mk.injEq] at h
    obtain ⟨rfl, _⟩ := h
    have h1 := gapsFrom_length_le ε tail x0
    have h2 : points.length = tail.length + 1 := by
      rw [← hsort.2.1, hs]; rfl
    omega

/-- The entries of the slice `time` of a well-formed schedule. -/
theorem time_entries (sch : Schedule) (points : List ℚ) (hwf : sch.WellFormed) :
    (∀ i : ℕ, i < sch.Tasks →
      (sch.Start ++ sch.Finish ++ points)[i]? = some (sch.Start.getD i 0)) ∧
    (∀ i : ℕ, i < sch.Tasks →
      (sch.Start ++ sch.Finish ++ points)[sch.Tasks + i]? = some (sch.Finish.getD i 0)) ∧
    (∀ m : ℕ, (sch.Start ++ sch.Finish ++ points)[2 * sch.Tasks + m]? = points[m]?) := by
  obtain ⟨_, hs, hf, _⟩ := hwf
  refine ⟨?_, ?_, ?_⟩
  · intro i hi
    rw [List.append_assoc, List.getElem?_append_left (by omega)]
    exact getElem?_getD _ _ _ (by omega)
  · intro i hi
    rw [List.append_assoc, List.getElem?_append_right (by omega),
      List.getElem?_append_left (by omega)]
    have : sch.Tasks + i - sch.Start.length = i := by omega
    rw [this]
    exact getElem?_getD _ _ _ (by omega)
  · intro m
    rw [List.getElem?_append_right (by simp only [List.length_append]; omega)]
    congr 1
    simp only [List.length_append]
    omega

/-- A result of `Partition` for a well-formed schedule comes with the cell indices of
`traverse` on the start times, finish times and extra points, and has the properties of
`Partition_spec`. -/
theorem Partition_of_eq (power : List ℚ) (sch : Schedule) (points : List ℚ) (ε : ℚ)
    (hwf : sch.WellFormed) (hpw : power.length = sch.Tasks) (P gaps : List ℚ)
    (psteps : List ℕ) (h : Partition power sch points ε = some (P, gaps, psteps)) :
    ∃ steps, traverse (sch.Start ++ sch.Finish ++ points) ε = some (gaps, steps) ∧
      psteps = steps.drop (2 * sch.Tasks) ∧
      steps.length = 2 * sch.Tasks + points.length ∧
      P.length = sch.Cores * gaps.length ∧
      ∀ r c : ℕ, c < sch.Cores → r < gaps.length →
        (∀ i : ℕ, i < sch.Tasks →
          (sch.Mapping.getD i 0 = c ∧ steps.getD i 0 ≤ r ∧ r < steps.getD (sch.Tasks + i) 0) →
          (∀ i' : ℕ, i < i' → i' < sch.Tasks →
            ¬ (sch.Mapping.getD i' 0 = c ∧ steps.getD i' 0 ≤ r ∧
              r < steps.getD (sch.Tasks + i') 0)) →
          P[r * sch.Cores + c]? = some (power.getD i 0)) ∧
        ((∀ i : ℕ, i < sch.Tasks →
          ¬ (sch.Mapping.getD i 0 = c ∧ steps.getD i 0 ≤ r ∧
            r < steps.getD (sch.Tasks + i) 0)) →
          P[r * sch.Cores + c]? = some 0) := by
  have hne : 0 < 2 * sch.Tasks + points.length := by
    by_contra h0
    have hnil : timeOf sch points = [] := by
      rw [timeOf_eq sch points hwf]
      obtain ⟨_, hs, hf, _⟩ := hwf
      have h1 : sch.Start = [] := List.length_eq_zero.mp (by omega)
      have h2 : sch.Finish = [] := List.length_eq_zero.mp (by omega)
      have h3 : points = [] := List.length_eq_zero.mp (by omega)
      rw [h1, h2, h3]; rfl
    simp [Partition, hnil, traverse_nil] at h
  obtain ⟨gaps', steps, P', htr, hP, hlen, hPlen, hval⟩ :=
    Partition_spec power sch points ε hwf hpw hne
  rw [hP] at h
  simp only [Option.some.injEq, Prod.mk.injEq] at h
  obtain ⟨rfl, rfl, rfl⟩ := h
  exact ⟨steps, htr, rfl, hlen, hPlen, hval⟩

/-- For `0 ≤ ε`, two distinct tasks of one core that do not overlap never cover the same
row. -/
theorem cover_unique (sch : Schedule) (points : List ℚ) (ε : ℚ) (hε : 0 ≤ ε)
    (hwf : sch.WellFormed) (hno : sch.NonOverlapping) (gaps : List ℚ) (steps : List ℕ)
    (htr : traverse (sch.Start ++ sch.Finish ++ points) ε = some (gaps, steps))
    (r i i' : ℕ) (hi : i < sch.Tasks) (hi' : i' < sch.Tasks) (hne : i ≠ i')
    (hmap : sch.Mapping.getD i 0 = sch.Mapping.getD i' 0)
    (h1 : steps.getD i 0 ≤ r ∧ r < steps.getD (sch.Tasks + i) 0)
    (h2 : steps.getD i' 0 ≤ r ∧ r < steps.getD (sch.Tasks + i') 0) : False := by
  obtain ⟨hstart, hfinish, _⟩ := time_entries sch points hwf
  rcases hno i i' hi hi' hne hmap with hle | hle
  · have := traverse_mono _ ε hε gaps steps htr _ _ _ _ (hfinish i hi) (hstart i' hi') hle
    omega
  · have := traverse_mono _ ε hε gaps steps htr _ _ _ _ (hfinish i' hi') (hstart i hi) hle
    omega

theorem take_succ_sum (gaps : List ℚ) (k : ℕ) (hk : k < gaps.length) :
    (gaps.take (k + 1)).sum = (gaps.take k).sum + gaps.getD k 0 := by
  induction gaps generalizing k with
  | nil => simp at hk
  | cons g gs ih =>
    cases k with
    | zero => simp
    | succ k =>
      have hk' : k < gs.length := by simpa using hk
      simp only [List.take_succ_cons, List.sum_cons, ih k hk', List.getD_cons_succ]
      ring

/-- The flat index of a cell of an existing row and column lies in the matrix. -/
theorem row_index_lt (nc rows s j : ℕ) (hs : s < rows) (hj : j < nc) :
    s * nc + j < nc * rows := by
  have h3 : s + 1 ≤ rows := by omega
  calc s * nc + j < s * nc + nc := by omega
    _ = nc * (s + 1) := by ring
    _ ≤ nc * rows := Nat.mul_le_mul_left _ h3

theorem copyAt_nil (t : List ℚ) (lo : ℕ) : copyAt t lo [] = t := by
  simp [copyAt]

/-- Without extra point the slice `time` of `main.go` is that of `dynamic.go`. -/
theorem timeOf_nil (sch : Schedule) : timeOf sch [] = timeOf2 sch := by
  simp only [timeOf, timeOf2, List.length_nil, Nat.add_zero, copyAt_nil]

/-! ## Claims about `traverse` -/

/-- C2 (merge monotonicity): for every non-empty slice `points` and every `ε`,
`traverse` returns `(gaps, stepOf)` where every gap is strictly greater than `ε`,
`stepOf` has one entry per input value, and every entry of `stepOf` is at most the
number of gaps (and at least `0`, being a natural number). -/
theorem merge_monotonicity (points : List ℚ) (ε : ℚ) (hne : points ≠ []) :
    ∃ gaps stepOf, traverse points ε = some (gaps, stepOf) ∧
      (∀ g ∈ gaps, ε < g) ∧ stepOf.length = points.length ∧
      ∀ (i : ℕ) (c : ℕ), stepOf[i]? = some c → 0 ≤ c ∧ c ≤ gaps.length := by
  obtain ⟨gaps, steps, hret, hlen, hg, hc, _, _⟩ := traverse_spec points ε hne
  exact ⟨gaps, steps, hret, hg, hlen, fun i c hi => ⟨Nat.zero_le _, hc c (List.getElem?_mem hi)⟩⟩

/-- Witness of C2: the four time values of the scenario of the specification. -/
theorem merge_monotonicity_witness :
    ([0, 2, 2, 4] : List ℚ) ≠ [] ∧
    ∃ gaps stepOf, traverse [0, 2, 2, 4] (1 / 1000000000) = some (gaps, stepOf) ∧
      (∀ g ∈ gaps, (1 / 1000000000 : ℚ) < g) ∧ stepOf.length = [(0 : ℚ), 2, 2, 4].length ∧
      ∀ (i : ℕ) (c : ℕ), stepOf[i]? = some c → 0 ≤ c ∧ c ≤ gaps.length :=
  ⟨by simp, merge_monotonicity [0, 2, 2, 4] (1 / 1000000000) (by simp)⟩

/-- C3 (merge totality): for every non-empty slice `points` and every `ε ≥ 0`, the sum of
the gaps returned by `traverse` is at most the span `max - min` of the input and misses
it by at most `ε`. -/
theorem merge_totality (points : List ℚ) (ε : ℚ) (hne : points ≠ []) (hε : 0 ≤ ε) :
    ∃ gaps stepOf, traverse points ε = some (gaps, stepOf) ∧
      0 ≤ (maxOf points - minOf points) - gaps.sum ∧
      (maxOf points - minOf points) - gaps.sum ≤ ε := by
  obtain ⟨gaps, steps, hret, hlen, hg, hc, hsurj, hrep⟩ := traverse_spec points ε hne
  have hg0 : ∀ g ∈ gaps, 0 ≤ g := fun g h => le_trans hε (le_of_lt (hg g h))
  refine ⟨gaps, steps, hret, ?_, ?_⟩
  · obtain ⟨a, ha, _⟩ := hsurj gaps.length le_rfl
    have := le_maxOf points _ (List.getElem?_mem ha)
    rw [List.take_length] at this
    linarith
  · obtain ⟨b, hb⟩ := List.mem_iff_getElem?.mp (maxOf_mem points hne)
    have hbl : b < steps.length := by
      rcases List.getElem?_eq_some.mp hb with ⟨h, _⟩; omega
    have h1 := (hrep hε b _ steps[b] hb (List.getElem?_eq_getElem hbl)).2
    have h2 := take_sum_mono gaps hg0 steps[b] gaps.length (hc _ (List.getElem_mem hbl))
    rw [List.take_length] at h2
    linarith

/-- Witness of C3: the four time values of the scenario of the specification. -/
theorem merge_totality_witness :
    ([0, 2, 2, 4] : List ℚ) ≠ [] ∧ (0 : ℚ) ≤ 1 / 1000000000 ∧
    ∃ gaps stepOf, traverse [0, 2, 2, 4] (1 / 1000000000) = some (gaps, stepOf) ∧
      0 ≤ (maxOf [0, 2, 2, 4] - minOf [0, 2, 2, 4]) - gaps.sum ∧
      (maxOf [0, 2, 2, 4] - minOf [0, 2, 2, 4]) - gaps.sum ≤ 1 / 1000000000 :=
  ⟨by simp, by norm_num, merge_totality [0, 2, 2, 4] (1 / 1000000000) (by simp) (by norm_num)⟩

/-- C4: for every non-empty slice `points` and every `ε ≥ 0`, two input values that
differ by more than `ε` get different cell indices from `traverse`. -/
theorem far_values_different_cells (points : List ℚ) (ε : ℚ) (hne : points ≠ [])
    (hε : 0 ≤ ε) :
    ∃ gaps stepOf, traverse points ε = some (gaps, stepOf) ∧
      ∀ (a b : ℕ) (va vb : ℚ) (ca cb : ℕ), points[a]? = some va → points[b]? = some vb →
        stepOf[a]? = some ca → stepOf[b]? = some cb → |va - vb| > ε → ca ≠ cb := by
  obtain ⟨gaps, steps, hret, hlen, hg, hc, hsurj, hrep⟩ := traverse_spec points ε hne
  refine ⟨gaps, steps, hret, ?_⟩
  intro a b va vb ca cb hva hvb hca hcb hfar heq
  subst heq
  have h1 := hrep hε a va ca hva hca
  have h2 := hrep hε b vb ca hvb hcb
  have : |va - vb| ≤ ε := abs_le.mpr ⟨by linarith, by linarith⟩
  exact absurd hfar (not_lt.mpr this)

/-- Witness of C4: the values `0, 1, 2` with `ε = 1`, where `0` and `2` are further apart than `ε`. -/
theorem far_values_different_cells_witness :
    ([0, 1, 2] : List ℚ) ≠ [] ∧ (0 : ℚ) ≤ 1 ∧
    ∃ gaps stepOf, traverse [0, 1, 2] 1 = some (gaps, stepOf) ∧
      ∀ (a b : ℕ) (va vb : ℚ) (ca cb : ℕ), ([0, 1, 2] : List ℚ)[a]? = some va →
        ([0, 1, 2] : List ℚ)[b]? = some vb →
        stepOf[a]? = some ca → stepOf[b]? = some cb → |va - vb| > 1 → ca ≠ cb :=
  ⟨by simp, by norm_num, far_values_different_cells [0, 1, 2] 1 (by simp) (by norm_num)⟩

/-- C5, as stated, fails: on the values `0, 1, 2` with `ε = 1` the values `1` and `2`
differ by exactly `ε` and get the cell indices `0` and `1`; so the claim, quantified over
all inputs, is false. -/
theorem near_values_same_cell_counterexample :
    traverse [0, 1, 2] 1 = some ([2], [0, 0, 1]) ∧ |(1 : ℚ) - 2| ≤ 1 ∧
    ¬ (∀ (points : List ℚ) (ε : ℚ), points ≠ [] → 0 ≤ ε →
      ∃ gaps stepOf, traverse points ε = some (gaps, stepOf) ∧
        ∀ (a b : ℕ) (va vb : ℚ) (ca cb : ℕ), points[a]? = some va → points[b]? = some vb →
          stepOf[a]? = some ca → stepOf[b]? = some cb → |va - vb| ≤ ε → ca = cb) := by
  have hval : traverse [0, 1, 2] 1 = some ([2], [0, 0, 1]) := by
    norm_num [traverse, traverseSorted, Quick, forRange, traverseBody, setAt,
      List.insertionSort, List.orderedInsert, List.enum, List.enumFrom, List.replicate,
      List.set]
  refine ⟨hval, by norm_num, ?_⟩
  intro h
  obtain ⟨gaps, stepOf, hret, hall⟩ := h [0, 1, 2] 1 (by simp) (by norm_num)
  rw [hval] at hret
  simp only [Option.some.injEq, Prod.mk.injEq] at hret
  obtain ⟨-, rfl⟩ := hret
  have := hall 1 2 1 2 0 1 (by simp) (by simp) (by simp) (by simp) (by norm_num)
  exact absurd this (by decide)

/-- C5, amended: for every non-empty slice `points` and every `ε ≥ 0`, a value that lies
within `ε` above the representative of the cell of `points[a]` (the smallest value plus
the gaps before that cell) gets the cell index of `points[a]`; in particular equal values
get equal cell indices. -/
theorem near_representative_same_cell (points : List ℚ) (ε : ℚ) (hne : points ≠ [])
    (hε : 0 ≤ ε) :
    ∃ gaps stepOf, traverse points ε = some (gaps, stepOf) ∧
      ∀ (a b : ℕ) (va vb : ℚ) (ca cb : ℕ), points[a]? = some va → points[b]? = some vb →
        stepOf[a]? = some ca → stepOf[b]? = some cb →
        ((minOf points + (gaps.take ca).sum ≤ vb ∧
          vb ≤ minOf points + (gaps.take ca).sum + ε → ca = cb) ∧
         (va = vb → ca = cb)) := by
  obtain ⟨gaps, steps, hret, hlen, hg, hc, hsurj, hrep⟩ := traverse_spec points ε hne
  refine ⟨gaps, steps, hret, ?_⟩
  intro a b va vb ca cb hva hvb hca hcb
  have ha := hrep hε a va ca hva hca
  have hb := hrep hε b vb cb hvb hcb
  have hcal := hc ca (List.getElem?_mem hca)
  have hcbl := hc cb (List.getElem?_mem hcb)
  have key : minOf points + (gaps.take ca).sum ≤ vb ∧
      vb ≤ minOf points + (gaps.take ca).sum + ε → ca = cb := by
    rintro ⟨h1, h2⟩
    rcases Nat.lt_trichotomy ca cb with hlt | heq | hgt
    · have := take_sum_lt gaps ε hε hg ca cb hlt hcbl
      linarith [hb.1]
    · exact heq
    · have := take_sum_lt gaps ε hε hg cb ca hgt hcal
      linarith [hb.2]
  exact ⟨key, fun heq => key ⟨heq ▸ ha.1, heq ▸ ha.2⟩⟩

/-- Witness of the amended C5: the values `0, 1, 2` with `ε = 1`. -/
theorem near_representative_same_cell_witness :
    ([0, 1, 2] : List ℚ) ≠ [] ∧ (0 : ℚ) ≤ 1 ∧
    ∃ gaps stepOf, traverse [0, 1, 2] 1 = some (gaps, stepOf) ∧
      ∀ (a b : ℕ) (va vb : ℚ) (ca cb : ℕ), ([0, 1, 2] : List ℚ)[a]? = some va →
        ([0, 1, 2] : List ℚ)[b]? = some vb →
        stepOf[a]? = some ca → stepOf[b]? = some cb →
        ((minOf [0, 1, 2] + (gaps.take ca).sum ≤ vb ∧
          vb ≤ minOf [0, 1, 2] + (gaps.take ca).sum + 1 → ca = cb) ∧
         (va = vb → ca = cb)) :=
  ⟨by simp, by norm_num, near_representative_same_cell [0, 1, 2] 1 (by simp) (by norm_num)⟩

/-- C8 (cell count): for every non-empty slice `points` and every `ε ≥ 0`, the values
taken by `stepOf` are exactly `0, 1, ..., len(gaps)`, and every input value equal to the
smallest one has cell index `0`. -/
theorem cell_count (points : List ℚ) (ε : ℚ) (hne : points ≠ []) (hε : 0 ≤ ε) :
    ∃ gaps stepOf, traverse points ε = some (gaps, stepOf) ∧
      (∀ c : ℕ, c ∈ stepOf ↔ c ≤ gaps.length) ∧
      ∀ a : ℕ, points[a]? = some (minOf points) → stepOf[a]? = some 0 := by
  obtain ⟨gaps, steps, hret, hlen, hg, hc, hsurj, hrep⟩ := traverse_spec points ε hne
  refine ⟨gaps, steps, hret, ?_, ?_⟩
  · intro c
    constructor
    · exact hc c
    · intro hcl
      obtain ⟨a, _, ha⟩ := hsurj c hcl
      exact List.getElem?_mem ha
  · intro a ha
    have hal : a < steps.length := by
      rcases List.getElem?_eq_some.mp ha with ⟨h, _⟩; omega
    have hsa : steps[a]? = some steps[a] := List.getElem?_eq_getElem hal
    have h1 := (hrep hε a _ _ ha hsa).1
    have hcl := hc _ (List.getElem_mem hal)
    rcases Nat.eq_zero_or_pos steps[a] with h0 | hpos
    · rw [hsa, h0]
    · have := take_sum_lt gaps ε hε hg 0 steps[a] hpos hcl
      simp only [List.take_zero, List.sum_nil] at this
      linarith

/-- Witness of C8: the four time values of the scenario of the specification. -/
theorem cell_count_witness :
    ([0, 2, 2, 4] : List ℚ) ≠ [] ∧ (0 : ℚ) ≤ 1 / 1000000000 ∧
    ∃ gaps stepOf, traverse [0, 2, 2, 4] (1 / 1000000000) = some (gaps, stepOf) ∧
      (∀ c : ℕ, c ∈ stepOf ↔ c ≤ gaps.length) ∧
      ∀ a : ℕ, ([0, 2, 2, 4] : List ℚ)[a]? = some (minOf [0, 2, 2, 4]) →
        stepOf[a]? = some 0 :=
  ⟨by simp, by norm_num, cell_count [0, 2, 2, 4] (1 / 1000000000) (by simp) (by norm_num)⟩

/-! ## Claims about `Partition` -/

/-- C1 (partition coverage): for every well-formed schedule in which two distinct tasks
of one core never overlap, every list of extra points and every `ε ≥ 0`, `Partition`
returns as soon as there is one time value, and whenever it returns `(P, gaps, _)`, with
`steps` the cell indices of `traverse` on the start times, finish times and extra points
(`s_i = steps[i]`, `f_i = steps[Tasks + i]`): for every row `r < len(gaps)` and core
`c < Cores`, `P[r*Cores + c]` is `power[i]` for every task `i` mapped to `c` with
`s_i ≤ r < f_i`, and is `0` if there is no such task.  The order of `Start[i]` and
`Finish[i]` is not needed. -/
theorem partition_coverage (power : List ℚ) (sch : Schedule) (points : List ℚ) (ε : ℚ)
    (hwf : sch.WellFormed) (hpw : power.length = sch.Tasks) (hno : sch.NonOverlapping)
    (hε : 0 ≤ ε) :
    (0 < 2 * sch.Tasks + points.length → ∃ res, Partition power sch points ε = some res) ∧
    ∀ (P gaps : List ℚ) (psteps : List ℕ),
      Partition power sch points ε = some (P, gaps, psteps) →
      ∃ steps, traverse (sch.Start ++ sch.Finish ++ points) ε = some (gaps, steps) ∧
        ∀ r c : ℕ, r < gaps.length → c < sch.Cores →
          (∀ i : ℕ, i < sch.Tasks → sch.Mapping.getD i 0 = c → steps.getD i 0 ≤ r →
            r < steps.getD (sch.Tasks + i) 0 →
            P[r * sch.Cores + c]? = some (power.getD i 0)) ∧
          ((¬ ∃ i : ℕ, i < sch.Tasks ∧ sch.Mapping.getD i 0 = c ∧ steps.getD i 0 ≤ r ∧
              r < steps.getD (sch.Tasks + i) 0) →
            P[r * sch.Cores + c]? = some 0) := by
  constructor
  · intro hne
    obtain ⟨gaps, steps, P, _, hP, _⟩ := Partition_spec power sch points ε hwf hpw hne
    exact ⟨_, hP⟩
  · intro P gaps psteps hret
    have hne : 0 < 2 * sch.Tasks + points.length := by
      by_contra h0
      have hnil : timeOf sch points = [] := by
        rw [timeOf_eq sch points hwf]
        obtain ⟨_, hs, hf, _⟩ := hwf
        have h1 : sch.Start = [] := List.length_eq_zero.mp (by omega)
        have h2 : sch.Finish = [] := List.length_eq_zero.mp (by omega)
        have h3 : points = [] := List.length_eq_zero.mp (by omega)
        rw [h1, h2, h3]; rfl
      simp [Partition, hnil, traverse_nil] at hret
    obtain ⟨gaps', steps, P', htr, hP, hlen, _, hval⟩ :=
      Partition_spec power sch points ε hwf hpw hne
    rw [hP] at hret
    simp only [Option.some.injEq, Prod.mk.injEq] at hret
    obtain ⟨rfl, rfl, _⟩ := hret
    obtain ⟨hm, hs, hf, _⟩ := hwf
    refine ⟨steps, htr, ?_⟩
    intro r c hr hc
    obtain ⟨hlast, hnone⟩ := hval r c hc hr
    refine ⟨?_, fun hno' => hnone (fun i hi hcov => hno' ⟨i, hi, hcov⟩)⟩
    intro i hi hmap hsi hfi
    apply hlast i hi ⟨hmap, hsi, hfi⟩
    intro i' hlt hi' hcov'
    obtain ⟨hmap', hsi', hfi'⟩ := hcov'
    have hstart : ∀ k : ℕ, k < sch.Tasks →
        (sch.Start ++ sch.Finish ++ points)[k]? = some (sch.Start.getD k 0) := by
      intro k hk
      rw [List.append_assoc, List.getElem?_append_left (by omega)]
      exact getElem?_getD _ _ _ (by omega)
    have hfinish : ∀ k : ℕ, k < sch.Tasks →
        (sch.Start ++ sch.Finish ++ points)[sch.Tasks + k]? = some (sch.Finish.getD k 0) := by
      intro k hk
      rw [List.append_assoc, List.getElem?_append_right (by omega),
        List.getElem?_append_left (by omega)]
      have : sch.Tasks + k - sch.Start.length = k := by omega
      rw [this]
      exact getElem?_getD _ _ _ (by omega)
    rcases hno i i' hi hi' (by omega) (by rw [hmap, hmap']) with hle | hle
    · have := traverse_mono _ ε hε gaps' steps htr _ _ _ _ (hfinish i hi) (hstart i' hi') hle
      omega
    · have := traverse_mono _ ε hε gaps' steps htr _ _ _ _ (hfinish i' hi') (hstart i hi) hle
      omega

/-- Witness of C1: the scenario of the specification, whose result is the gaps `[2, 2]` and the matrix `[1, 2]`. -/
theorem partition_coverage_witness :
    scenario.WellFormed ∧ ([1, 2] : List ℚ).length = scenario.Tasks ∧
    scenario.NonOverlapping ∧ (0 : ℚ) ≤ 1 / 1000000000 ∧
    Partition [1, 2] scenario [] (1 / 1000000000) = some ([1, 2], [2, 2], []) ∧
    ((0 < 2 * scenario.Tasks + ([] : List ℚ).length →
      ∃ res, Partition [1, 2] scenario [] (1 / 1000000000) = some res) ∧
    ∀ (P gaps : List ℚ) (psteps : List ℕ),
      Partition [1, 2] scenario [] (1 / 1000000000) = some (P, gaps, psteps) →
      ∃ steps, traverse (scenario.Start ++ scenario.Finish ++ []) (1 / 1000000000)
          = some (gaps, steps) ∧
        ∀ r c : ℕ, r < gaps.length → c < scenario.Cores →
          (∀ i : ℕ, i < scenario.Tasks → scenario.Mapping.getD i 0 = c → steps.getD i 0 ≤ r →
            r < steps.getD (scenario.Tasks + i) 0 →
            P[r * scenario.Cores + c]? = some (([1, 2] : List ℚ).getD i 0)) ∧
          ((¬ ∃ i : ℕ, i < scenario.Tasks ∧ scenario.Mapping.getD i 0 = c ∧
              steps.getD i 0 ≤ r ∧ r < steps.getD (scenario.Tasks + i) 0) →
            P[r * scenario.Cores + c]? = some 0)) := by
  have hwf : scenario.WellFormed := by simp [Schedule.WellFormed, scenario]
  have hno : scenario.NonOverlapping := by
    intro a b ha hb hab _
    simp only [scenario] at ha hb
    interval_cases a <;> interval_cases b <;> simp [scenario] at hab ⊢
  refine ⟨hwf, rfl, hno, by norm_num, ?_,
    partition_coverage [1, 2] scenario [] (1 / 1000000000) hwf rfl hno (by norm_num)⟩
  norm_num [Partition, scenario, timeOf, copyAt, partitionBody, fillRows, traverse,
    traverseSorted, Quick, forRange, traverseBody, setAt, List.insertionSort,
    List.orderedInsert, List.enum, List.enumFrom, List.replicate, List.set]

/-- C6, as stated, fails: in the scenario of the specification `Partition` returns two
gaps and a matrix of two entries for one core, not of `(2 + 1) * 1` entries. -/
theorem partition_shape_counterexample :
    scenario.WellFormed ∧
    Partition [1, 2] scenario [] (1 / 1000000000) = some ([1, 2], [2, 2], []) ∧
    ([1, 2] : List ℚ).length ≠ (([2, 2] : List ℚ).length + 1) * scenario.Cores := by
  refine ⟨by simp [Schedule.WellFormed, scenario], ?_, by simp [scenario]⟩
  norm_num [Partition, scenario, timeOf, copyAt, partitionBody, fillRows, traverse,
    traverseSorted, Quick, forRange, traverseBody, setAt, List.insertionSort,
    List.orderedInsert, List.enum, List.enumFrom, List.replicate, List.set]

/-- C6, amended: for every well-formed schedule, list of extra points and `ε`,
`Partition` returns as soon as there is one time value, and whenever it returns
`(P, gaps, _)` the matrix has one row of `Cores` entries per gap:
`len(P) = len(gaps) * Cores` (the number of merged cells minus one). -/
theorem partition_shape (power : List ℚ) (sch : Schedule) (points : List ℚ) (ε : ℚ)
    (hwf : sch.WellFormed) (hpw : power.length = sch.Tasks) :
    (0 < 2 * sch.Tasks + points.length → ∃ res, Partition power sch points ε = some res) ∧
    ∀ (P gaps : List ℚ) (psteps : List ℕ),
      Partition power sch points ε = some (P, gaps, psteps) →
      P.length = gaps.length * sch.Cores := by
  constructor
  · intro hne
    obtain ⟨gaps, steps, P, _, hP, _⟩ := Partition_spec power sch points ε hwf hpw hne
    exact ⟨_, hP⟩
  · intro P gaps psteps hret
    have hne : 0 < 2 * sch.Tasks + points.length := by
      by_contra h0
      have hnil : timeOf sch points = [] := by
        rw [timeOf_eq sch points hwf]
        obtain ⟨_, hs, hf, _⟩ := hwf
        have h1 : sch.Start = [] := List.length_eq_zero.mp (by omega)
        have h2 : sch.Finish = [] := List.length_eq_zero.mp (by omega)
        have h3 : points = [] := List.length_eq_zero.mp (by omega)
        rw [h1, h2, h3]; rfl
      simp [Partition, hnil, traverse_nil] at hret
    obtain ⟨gaps', steps, P', _, hP, _, hlen, _⟩ :=
      Partition_spec power sch points ε hwf hpw hne
    rw [hP] at hret
    simp only [Option.some.injEq, Prod.mk.injEq] at hret
    obtain ⟨rfl, rfl, _⟩ := hret
    rw [hlen, Nat.mul_comm]

/-- Witness of the amended C6: the scenario of the specification. -/
theorem partition_shape_witness :
    scenario.WellFormed ∧ ([1, 2] : List ℚ).length = scenario.Tasks ∧
    ((0 < 2 * scenario.Tasks + ([] : List ℚ).length →
      ∃ res, Partition [1, 2] scenario [] (1 / 1000000000) = some res) ∧
    ∀ (P gaps : List ℚ) (psteps : List ℕ),
      Partition [1, 2] scenario [] (1 / 1000000000) = some (P, gaps, psteps) →
      P.length = gaps.length * scenario.Cores) :=
  ⟨by simp [Schedule.WellFormed, scenario], rfl,
    partition_shape [1, 2] scenario [] (1 / 1000000000)
      (by simp [Schedule.WellFormed, scenario]) rfl⟩

/-- C7, as stated, fails: with the extra point `0` and `ε = 1`, the task over `[1, 2]`
has duration `1 ≤ ε`, yet its start gets cell `0` and its finish cell `1`, and
`Partition` writes its power into row `0` of the matrix. -/
theorem invisible_tasks_counterexample :
    shortTask.WellFormed ∧
    0 ≤ shortTask.Finish.getD 0 0 - shortTask.Start.getD 0 0 ∧
    shortTask.Finish.getD 0 0 - shortTask.Start.getD 0 0 ≤ 1 ∧
    traverse (shortTask.Start ++ shortTask.Finish ++ [0]) 1 = some ([2], [0, 1, 0]) ∧
    ([0, 1, 0] : List ℕ).getD 0 0 ≠ ([0, 1, 0] : List ℕ).getD (shortTask.Tasks + 0) 0 ∧
    Partition [1] shortTask [0] 1 = some ([1], [2], [0]) := by
  refine ⟨by simp [Schedule.WellFormed, shortTask], by norm_num [shortTask],
    by norm_num [shortTask], ?_, by simp [shortTask], ?_⟩
  · norm_num [shortTask, traverse, traverseSorted, Quick, forRange, traverseBody, setAt,
      List.insertionSort, List.orderedInsert, List.enum, List.enumFrom, List.replicate,
      List.set]
  · norm_num [Partition, shortTask, timeOf, copyAt, partitionBody, fillRows, traverse,
      traverseSorted, Quick, forRange, traverseBody, setAt, List.insertionSort,
      List.orderedInsert, List.enum, List.enumFrom, List.replicate, List.set]

/-- C7, amended: for every well-formed schedule, list of extra points and `ε ≥ 0`,
`Partition` returns as soon as there is one time value, and whenever it returns, every
task `i` of zero duration (`Start[i] = Finish[i]`), and more generally every task with
`Start[i] ≤ Finish[i] ≤ r + ε` where `r` is the representative of the cell of `Start[i]`
(the smallest time value plus the gaps before that cell), gets the same cell index for
its start and its finish, and the loop body of `Partition` for task `i` leaves every
matrix unchanged. -/
theorem invisible_tasks (power : List ℚ) (sch : Schedule) (points : List ℚ) (ε : ℚ)
    (hwf : sch.WellFormed) (hpw : power.length = sch.Tasks) (hε : 0 ≤ ε) :
    (0 < 2 * sch.Tasks + points.length → ∃ res, Partition power sch points ε = some res) ∧
    ∀ (P gaps : List ℚ) (psteps : List ℕ),
      Partition power sch points ε = some (P, gaps, psteps) →
      ∃ steps, traverse (sch.Start ++ sch.Finish ++ points) ε = some (gaps, steps) ∧
        ∀ i : ℕ, i < sch.Tasks →
          (sch.Start.getD i 0 = sch.Finish.getD i 0 ∨
            (sch.Start.getD i 0 ≤ sch.Finish.getD i 0 ∧
              sch.Finish.getD i 0 ≤ minOf (sch.Start ++ sch.Finish ++ points) +
                (gaps.take (steps.getD i 0)).sum + ε)) →
          steps.getD i 0 = steps.getD (sch.Tasks + i) 0 ∧
          ∀ Q : List ℚ, partitionBody sch.Cores power sch.Mapping (steps.take sch.Tasks)
            ((steps.drop sch.Tasks).take sch.Tasks) i Q = some Q := by
  constructor
  · intro hne
    obtain ⟨gaps, steps, P, _, hP, _⟩ := Partition_spec power sch points ε hwf hpw hne
    exact ⟨_, hP⟩
  · intro P gaps psteps hret
    have hne : 0 < 2 * sch.Tasks + points.length := by
      by_contra h0
      have hnil : timeOf sch points = [] := by
        rw [timeOf_eq sch points hwf]
        obtain ⟨_, hs, hf, _⟩ := hwf
        have h1 : sch.Start = [] := List.length_eq_zero.mp (by omega)
        have h2 : sch.Finish = [] := List.length_eq_zero.mp (by omega)
        have h3 : points = [] := List.length_eq_zero.mp (by omega)
        rw [h1, h2, h3]; rfl
      simp [Partition, hnil, traverse_nil] at hret
    obtain ⟨gaps', steps, P', htr, hP, hlen, _, _⟩ :=
      Partition_spec power sch points ε hwf hpw hne
    rw [hP] at hret
    simp only [Option.some.injEq, Prod.mk.injEq] at hret
    obtain ⟨rfl, rfl, _⟩ := hret
    obtain ⟨hm, hs, hf, _⟩ := hwf
    refine ⟨steps, htr, ?_⟩
    intro i hi hdur
    obtain ⟨_, _, _, hc, _, hrep⟩ := traverse_of_eq _ ε gaps' steps htr
    have hstart : (sch.Start ++ sch.Finish ++ points)[i]? = some (sch.Start.getD i 0) := by
      rw [List.append_assoc, List.getElem?_append_left (by omega)]
      exact getElem?_getD _ _ _ (by omega)
    have hfinish : (sch.Start ++ sch.Finish ++ points)[sch.Tasks + i]?
        = some (sch.Finish.getD i 0) := by
      rw [List.append_assoc, List.getElem?_append_right (by omega),
        List.getElem?_append_left (by omega)]
      have : sch.Tasks + i - sch.Start.length = i := by omega
      rw [this]
      exact getElem?_getD _ _ _ (by omega)
    have hsi : steps[i]? = some (steps.getD i 0) := getElem?_getD _ _ _ (by omega)
    have hfi : steps[sch.Tasks + i]? = some (steps.getD (sch.Tasks + i) 0) :=
      getElem?_getD _ _ _ (by omega)
    have hb := hrep hε i _ _ hstart hsi
    have heq : steps.getD i 0 = steps.getD (sch.Tasks + i) 0 := by
      apply traverse_near _ ε hε gaps' steps htr (sch.Tasks + i) (sch.Finish.getD i 0)
        _ _ (hc _ (List.getElem?_mem hsi)) hfinish hfi
      · rcases hdur with h | h
        · rw [← h]; exact hb.1
        · exact le_trans hb.1 h.1
      · rcases hdur with h | h
        · rw [← h]; exact hb.2
        · exact h.2
    refine ⟨heq, ?_⟩
    intro Q
    have h1 : sch.Mapping[i]? = some (sch.Mapping.getD i 0) := getElem?_getD _ _ _ (by omega)
    have h2 : power[i]? = some (power.getD i 0) := getElem?_getD _ _ _ (by omega)
    have h3 : (steps.take sch.Tasks)[i]? = some (steps.getD i 0) := by
      rw [List.getElem?_take_of_lt hi]; exact hsi
    have h4 : ((steps.drop sch.Tasks).take sch.Tasks)[i]? =
        some (steps.getD (sch.Tasks + i) 0) := by
      rw [List.getElem?_take_of_lt hi, List.getElem?_drop]; exact hfi
    simp only [partitionBody, h1, h2, h3, h4, fillRows, ← heq, Nat.sub_self, forRange]

/-- Witness of the amended C7: a schedule whose task 1 has zero duration, with the extra point `2`. -/
theorem invisible_tasks_witness :
    instantTask.WellFormed ∧ ([1, 2] : List ℚ).length = instantTask.Tasks ∧
    (0 : ℚ) ≤ 1 / 1000000000 ∧
    ((0 < 2 * instantTask.Tasks + ([2] : List ℚ).length →
      ∃ res, Partition [1, 2] instantTask [2] (1 / 1000000000) = some res) ∧
    ∀ (P gaps : List ℚ) (psteps : List ℕ),
      Partition [1, 2] instantTask [2] (1 / 1000000000) = some (P, gaps, psteps) →
      ∃ steps, traverse (instantTask.Start ++ instantTask.Finish ++ [2]) (1 / 1000000000)
          = some (gaps, steps) ∧
        ∀ i : ℕ, i < instantTask.Tasks →
          (instantTask.Start.getD i 0 = instantTask.Finish.getD i 0 ∨
            (instantTask.Start.getD i 0 ≤ instantTask.Finish.getD i 0 ∧
              instantTask.Finish.getD i 0 ≤ minOf (instantTask.Start ++ instantTask.Finish ++ [2]) +
                (gaps.take (steps.getD i 0)).sum + 1 / 1000000000)) →
          steps.getD i 0 = steps.getD (instantTask.Tasks + i) 0 ∧
          ∀ Q : List ℚ, partitionBody instantTask.Cores [1, 2] instantTask.Mapping
            (steps.take instantTask.Tasks) ((steps.drop instantTask.Tasks).take instantTask.Tasks) i Q
              = some Q) :=
  ⟨by simp [Schedule.WellFormed, instantTask], rfl, by norm_num,
    invisible_tasks [1, 2] instantTask [2] (1 / 1000000000)
      (by simp [Schedule.WellFormed, instantTask]) rfl (by norm_num)⟩

/-! ## Claims about `Sample` -/

/-- Counterexample to C9 as stated, with the floor of the exact quotient: one task over
`[0, 0.5]` with power `7`, `Span = 0.5`, `Δt` the `float64` `0.1` and `ns = 5`.  The
exact quotient `Span/Δt` is a little below `5` and its floor is `4`, but the quotient of
`float64` is `5`: `Sample` returns `[7, 7, 7, 7, 7]`, and row `4`, which satisfies
`min(ns, floor(Span/Δt)) ≤ 4 < ns`, is not zero. -/
theorem sampler_shape_counterexample :
    halfSecond.WellFormed ∧ ([7] : List ℚ).length = halfSecond.Tasks ∧
    ((∀ t ∈ halfSecond.Start, (0 : ℚ) ≤ t) ∧ (∀ t ∈ halfSecond.Finish, (0 : ℚ) ≤ t) ∧
      0 ≤ halfSecond.Span) ∧ 0 < tenth ∧
    Sample machine64 [7] halfSecond tenth 5 = some [7, 7, 7, 7, 7] ∧
    min 5 ⌊halfSecond.Span / tenth⌋₊ = 4 ∧
    ¬ ∃ P, Sample machine64 [7] halfSecond tenth 5 = some P ∧
      P.length = 5 * halfSecond.Cores ∧
      ∀ r c : ℕ, min 5 ⌊halfSecond.Span / tenth⌋₊ ≤ r → r < 5 → c < halfSecond.Cores →
        P[r * halfSecond.Cores + c]? = some 0 := by
  have hS : Sample machine64 [7] halfSecond tenth 5 = some [7, 7, 7, 7, 7] := by
    obtain ⟨_, a0, _, _, a5⟩ := scenario_rows
    have h0 : div64 0 tenth = 0 := by rw [div64, zero_div, round64_zero]
    simp only [Sample, sampleBody, halfSecond, forRange, List.getElem?_cons_zero, h0,
      div64_half_tenth, a0, a5]
    norm_num [fillRows, forRange, setAt, toUint, machine64, List.replicate, List.set,
      Int.toNat]
  have hfl : min 5 ⌊halfSecond.Span / tenth⌋₊ = 4 := by
    have : ⌊halfSecond.Span / tenth⌋₊ = 4 := by
      rw [Nat.floor_eq_iff (by norm_num [halfSecond, tenth])]
      norm_num [halfSecond, tenth]
    rw [this]
    rfl
  refine ⟨by simp [Schedule.WellFormed, halfSecond], rfl, by norm_num [halfSecond],
    by norm_num [tenth], hS, hfl, ?_⟩
  rintro ⟨P, hP, _, hz⟩
  rw [hS] at hP
  injection hP with hP
  subst hP
  have := hz 4 0 (by rw [hfl]) (by norm_num) (by norm_num [halfSecond])
  norm_num [halfSecond] at this

/-- C9, amended (sampler shape and truncation): for every well-formed schedule with
non-negative times, every `Δt > 0` and every `ns`, on every machine: `Sample` returns a
matrix of exactly `ns * Cores` entries, and every entry of a row `r` with
`min(ns, count) ≤ r < ns` is zero, where `count = uint(Span/Δt)` is the value that the
function computes from the quotient of `float64`, that is, from the exact quotient
rounded to the nearest `float64`.  When the rounded quotient is in the range of `uint`,
`count` is its floor; and for `Span/Δt < 2^53 - 1` this floor is `floor(Span/Δt)` or
`floor(Span/Δt) + 1`. -/
theorem sampler_truncation (m : Machine) (power : List ℚ) (sch : Schedule) (Δt : ℚ) (ns : ℕ)
    (hwf : sch.WellFormed) (hpw : power.length = sch.Tasks)
    (htimes : (∀ t ∈ sch.Start, 0 ≤ t) ∧ (∀ t ∈ sch.Finish, 0 ≤ t) ∧ 0 ≤ sch.Span)
    (hΔt : 0 < Δt) :
    (∃ P, Sample m power sch Δt ns = some P ∧ P.length = ns * sch.Cores ∧
      ∀ r c : ℕ, min ns (toUint m (div64 sch.Span Δt)) ≤ r → r < ns → c < sch.Cores →
        P[r * sch.Cores + c]? = some 0) ∧
    (div64 sch.Span Δt < 2 ^ m.bits → toUint m (div64 sch.Span Δt) = ⌊div64 sch.Span Δt⌋₊) ∧
    (sch.Span / Δt < 2 ^ 53 - 1 →
      ⌊sch.Span / Δt⌋₊ ≤ ⌊div64 sch.Span Δt⌋₊ ∧
      ⌊div64 sch.Span Δt⌋₊ ≤ ⌊sch.Span / Δt⌋₊ + 1) := by
  have hq : 0 ≤ sch.Span / Δt := div_nonneg htimes.2.2 (le_of_lt hΔt)
  refine ⟨?_, fun h => toUint_of_lt m (round64_nonneg hq) h, ?_⟩
  · obtain ⟨P, hP, hlen, hval⟩ := Sample_spec m power sch Δt ns hwf hpw
    refine ⟨P, hP, by rw [hlen, Nat.mul_comm], ?_⟩
    intro r c hr hrs hc
    apply (hval r c hc hrs).2
    intro i _ hcov
    have := lt_of_lt_of_le hcov.2.2 (min_le_right _ _)
    omega
  · intro hlt
    have hk : ((⌊sch.Span / Δt⌋₊ : ℕ) : ℚ) ≤ sch.Span / Δt := Nat.floor_le hq
    have hk1 : sch.Span / Δt < ((⌊sch.Span / Δt⌋₊ + 1 : ℕ) : ℚ) := by
      push_cast
      exact Nat.lt_floor_add_one _
    have hb : ⌊sch.Span / Δt⌋₊ + 1 < 2 ^ 53 := by
      have : ((⌊sch.Span / Δt⌋₊ : ℕ) : ℚ) < ((2 ^ 53 - 1 : ℕ) : ℚ) := by
        refine lt_of_le_of_lt hk (lt_of_lt_of_le hlt ?_)
        norm_num
      have := Nat.cast_lt.mp this
      omega
    have h1 := round64_mono (Nat.cast_nonneg _) hk
    rw [round64_natCast _ (by omega)] at h1
    have h2 := round64_mono hq (le_of_lt hk1)
    rw [round64_natCast _ hb] at h2
    refine ⟨Nat.le_floor h1, ?_⟩
    have := Nat.floor_mono h2
    rwa [Nat.floor_natCast] at this

/-- Witness of the amended C9: the scenario of the specification with `Δt = 1` and
`ns = 5`. -/
theorem sampler_truncation_witness :
    scenario.WellFormed ∧ ([1, 2] : List ℚ).length = scenario.Tasks ∧
    ((∀ t ∈ scenario.Start, (0 : ℚ) ≤ t) ∧ (∀ t ∈ scenario.Finish, (0 : ℚ) ≤ t) ∧
      0 ≤ scenario.Span) ∧ (0 : ℚ) < 1 ∧
    toUint machine64 (div64 scenario.Span 1) = 4 ∧
    ((∃ P, Sample machine64 [1, 2] scenario 1 5 = some P ∧ P.length = 5 * scenario.Cores ∧
      ∀ r c : ℕ, min 5 (toUint machine64 (div64 scenario.Span 1)) ≤ r → r < 5 →
        c < scenario.Cores → P[r * scenario.Cores + c]? = some 0) ∧
    (div64 scenario.Span 1 < 2 ^ machine64.bits →
      toUint machine64 (div64 scenario.Span 1) = ⌊div64 scenario.Span 1⌋₊) ∧
    (scenario.Span / 1 < 2 ^ 53 - 1 →
      ⌊scenario.Span / 1⌋₊ ≤ ⌊div64 scenario.Span 1⌋₊ ∧
      ⌊div64 scenario.Span 1⌋₊ ≤ ⌊scenario.Span / 1⌋₊ + 1)) :=
  ⟨by simp [Schedule.WellFormed, scenario], rfl, by norm_num [scenario], by norm_num,
    by norm_num [scenario, scenario_rows.1.2.2, toUint, machine64, Int.toNat],
    sampler_truncation machine64 [1, 2] scenario 1 5 (by simp [Schedule.WellFormed, scenario])
      rfl (by norm_num [scenario]) (by norm_num)⟩

/-- Counterexample to C10 as stated, with the floor of the exact sum: one task over
`[0.49999999999999994, 2]` with power `7`, `Span = 2`, `Δt = 1` and `ns = 2`.  The floor
of the exact `Start/Δt + 1/2` is `0`, so that the task would cover row `0`; but the sum
of `float64` is rounded to `1`, `Sample` starts the task at row `1` and returns
`[0, 7]`: the entry of row `0` is not the power of the task. -/
theorem sampler_fill_counterexample :
    lateStart.WellFormed ∧ ([7] : List ℚ).length = lateStart.Tasks ∧
    (∀ i : ℕ, i < lateStart.Tasks →
      0 ≤ lateStart.Start.getD i 0 ∧ lateStart.Start.getD i 0 ≤ lateStart.Finish.getD i 0) ∧
    lateStart.NonOverlapping ∧ (0 : ℚ) < 1 ∧
    Sample machine64 [7] lateStart 1 2 = some [0, 7] ∧
    (lateStart.Mapping.getD 0 0 = 0 ∧ ⌊lateStart.Start.getD 0 0 / 1 + 1 / 2⌋₊ ≤ 0 ∧
      0 < min ⌊lateStart.Finish.getD 0 0 / 1 + 1 / 2⌋₊ (min 2 ⌊lateStart.Span / 1⌋₊)) ∧
    ¬ ∃ P, Sample machine64 [7] lateStart 1 2 = some P ∧
      P[0 * lateStart.Cores + 0]? = some (([7] : List ℚ).getD 0 0) := by
  have hS : Sample machine64 [7] lateStart 1 2 = some [0, 7] := by
    obtain ⟨⟨_, d2, _⟩, _, a2, _, _⟩ := scenario_rows
    simp only [Sample, sampleBody, lateStart, forRange, List.getElem?_cons_zero,
      add64_belowHalf, d2, a2]
    norm_num [fillRows, forRange, setAt, toUint, machine64, List.replicate, List.set,
      Int.toNat]
  have htimes : ∀ i : ℕ, i < lateStart.Tasks →
      0 ≤ lateStart.Start.getD i 0 ∧ lateStart.Start.getD i 0 ≤ lateStart.Finish.getD i 0 := by
    intro i hi
    simp only [lateStart] at hi
    interval_cases i
    norm_num [lateStart, belowHalf]
  have hno : lateStart.NonOverlapping := by
    intro a b ha hb hab _
    simp only [lateStart] at ha hb
    omega
  have hcov : lateStart.Mapping.getD 0 0 = 0 ∧ ⌊lateStart.Start.getD 0 0 / 1 + 1 / 2⌋₊ ≤ 0 ∧
      0 < min ⌊lateStart.Finish.getD 0 0 / 1 + 1 / 2⌋₊ (min 2 ⌊lateStart.Span / 1⌋₊) := by
    have h1 : ⌊lateStart.Start.getD 0 0 / 1 + 1 / 2⌋₊ = 0 := by
      rw [Nat.floor_eq_iff (by norm_num [lateStart, belowHalf])]
      norm_num [lateStart, belowHalf]
    have h2 : ⌊lateStart.Finish.getD 0 0 / 1 + 1 / 2⌋₊ = 2 := by
      rw [Nat.floor_eq_iff (by norm_num [lateStart])]
      norm_num [lateStart]
    have h3 : ⌊lateStart.Span / 1⌋₊ = 2 := by
      rw [Nat.floor_eq_iff (by norm_num [lateStart])]
      norm_num [lateStart]
    rw [h1, h2, h3]
    exact ⟨rfl, le_refl _, by decide⟩
  refine ⟨by simp [Schedule.WellFormed, lateStart], rfl, htimes, hno, by norm_num, hS,
    hcov, ?_⟩
  rintro ⟨P, hP, h0⟩
  rw [hS] at hP
  injection hP with hP
  subst hP
  norm_num [lateStart] at h0

/-- C10, amended (sampler fill, rounding in `float64`): for every well-formed schedule
with `0 ≤ Start[i] ≤ Finish[i]` in which two distinct tasks of one core never overlap,
every `Δt > 0` and every `ns`, on every machine on which the sum `Finish[i]/Δt + 0.5` of
every task, computed in `float64`, is in the range of `uint`: with
`n = min(ns, uint(Span/Δt))`, `s_i = uint(Start[i]/Δt + 0.5)` and
`f_i = min(uint(Finish[i]/Δt + 0.5), n)`, where the quotient and the sum are those of
`float64` (the exact result rounded to the nearest `float64`), `Sample` returns a
matrix `P` such that, for every row `r < ns` and core `c`, `P[r*Cores + c]` is `power[i]`
for every task `i` mapped to `c` with `s_i ≤ r < f_i`, and `0` if there is no such
task; `s_i` and `uint(Finish[i]/Δt + 0.5)` are the floors of the rounded sums; and a
quotient of `float64` exactly half-way, `k + 1/2` with `k < 2^52`, is rounded up to
`k + 1`. -/
theorem sampler_fill_rounded (m : Machine) (power : List ℚ) (sch : Schedule) (Δt : ℚ)
    (ns : ℕ) (hwf : sch.WellFormed) (hpw : power.length = sch.Tasks)
    (htimes : ∀ i : ℕ, i < sch.Tasks →
      0 ≤ sch.Start.getD i 0 ∧ sch.Start.getD i 0 ≤ sch.Finish.getD i 0)
    (hno : sch.NonOverlapping) (hΔt : 0 < Δt)
    (hrange : ∀ i : ℕ, i < sch.Tasks →
      add64 (div64 (sch.Finish.getD i 0) Δt) (1 / 2) < 2 ^ m.bits) :
    (∃ P, Sample m power sch Δt ns = some P ∧
      ∀ r c : ℕ, r < ns → c < sch.Cores →
        (∀ i : ℕ, i < sch.Tasks → sch.Mapping.getD i 0 = c →
          toUint m (add64 (div64 (sch.Start.getD i 0) Δt) (1 / 2)) ≤ r →
          r < min (toUint m (add64 (div64 (sch.Finish.getD i 0) Δt) (1 / 2)))
            (min ns (toUint m (div64 sch.Span Δt))) →
          P[r * sch.Cores + c]? = some (power.getD i 0)) ∧
        ((¬ ∃ i : ℕ, i < sch.Tasks ∧ sch.Mapping.getD i 0 = c ∧
            toUint m (add64 (div64 (sch.Start.getD i 0) Δt) (1 / 2)) ≤ r ∧
            r < min (toUint m (add64 (div64 (sch.Finish.getD i 0) Δt) (1 / 2)))
              (min ns (toUint m (div64 sch.Span Δt)))) →
          P[r * sch.Cores + c]? = some 0)) ∧
    (∀ i : ℕ, i < sch.Tasks →
      toUint m (add64 (div64 (sch.Start.getD i 0) Δt) (1 / 2))
        = ⌊add64 (div64 (sch.Start.getD i 0) Δt) (1 / 2)⌋₊ ∧
      toUint m (add64 (div64 (sch.Finish.getD i 0) Δt) (1 / 2))
        = ⌊add64 (div64 (sch.Finish.getD i 0) Δt) (1 / 2)⌋₊) ∧
    ∀ k : ℕ, k < 2 ^ 52 → k + 1 < 2 ^ m.bits →
      toUint m (add64 ((k : ℚ) + 1 / 2) (1 / 2)) = k + 1 := by
  have hsum : ∀ x : ℚ, 0 ≤ x → 0 ≤ add64 (div64 x Δt) (1 / 2) := by
    intro x hx
    have h1 : 0 ≤ div64 x Δt := round64_nonneg (div_nonneg hx (le_of_lt hΔt))
    exact round64_nonneg (by linarith)
  have hle : ∀ x y : ℚ, 0 ≤ x → x ≤ y →
      add64 (div64 x Δt) (1 / 2) ≤ add64 (div64 y Δt) (1 / 2) := by
    intro x y hx hxy
    have h1 : 0 ≤ div64 x Δt := round64_nonneg (div_nonneg hx (le_of_lt hΔt))
    have h2 : div64 x Δt ≤ div64 y Δt := round64_mono (div_nonneg hx (le_of_lt hΔt))
      (div_le_div_of_nonneg_right hxy (le_of_lt hΔt))
    exact round64_mono (by linarith) (by linarith)
  refine ⟨?_, ?_, ?_⟩
  · obtain ⟨P, hP, _, hval⟩ := Sample_spec m power sch Δt ns hwf hpw
    refine ⟨P, hP, ?_⟩
    intro r c hr hc
    obtain ⟨hlast, hnone⟩ := hval r c hc hr
    refine ⟨?_, fun hno' => hnone (fun i hi hcov => hno' ⟨i, hi, hcov⟩)⟩
    intro i hi hmap hsi hfi
    apply hlast i hi ⟨hmap, hsi, hfi⟩
    intro i' hlt hi' hcov'
    obtain ⟨hmap', hsi', hfi'⟩ := hcov'
    have hrow : ∀ a b : ℕ, a < sch.Tasks → b < sch.Tasks →
        sch.Finish.getD a 0 ≤ sch.Start.getD b 0 →
        toUint m (add64 (div64 (sch.Finish.getD a 0) Δt) (1 / 2))
          ≤ toUint m (add64 (div64 (sch.Start.getD b 0) Δt) (1 / 2)) := by
      intro a b ha hb hab
      exact sampleRow_mono m hΔt (le_trans (htimes a ha).1 (htimes a ha).2) hab
        (lt_of_le_of_lt (hle _ _ (htimes b hb).1 (htimes b hb).2) (hrange b hb))
    rcases hno i i' hi hi' (by omega) (by rw [hmap, hmap']) with hle' | hle'
    · have h1 := hrow i i' hi hi' hle'
      have h2 := lt_of_lt_of_le hfi (min_le_left _ _)
      omega
    · have h1 := hrow i' i hi' hi hle'
      have h2 := lt_of_lt_of_le hfi' (min_le_left _ _)
      omega
  · intro i hi
    have h1 := hsum _ (htimes i hi).1
    have h2 := hle _ _ (htimes i hi).1 (htimes i hi).2
    exact ⟨toUint_of_lt m h1 (lt_of_le_of_lt h2 (hrange i hi)),
      toUint_of_lt m (le_trans h1 h2) (hrange i hi)⟩
  · intro k hk hkb
    have hx : (k : ℚ) + 1 / 2 + 1 / 2 = ((k + 1 : ℕ) : ℚ) := by push_cast; ring
    have hr : add64 ((k : ℚ) + 1 / 2) (1 / 2) = ((k + 1 : ℕ) : ℚ) := by
      rw [add64, hx]
      exact round64_natCast _ (by omega)
    rw [hr, toUint_of_lt m (Nat.cast_nonneg _) (by exact_mod_cast hkb), Nat.floor_natCast]

/-- Witness of the amended C10: the scenario of the specification with `Δt = 1` and
`ns = 5`, whose result is `[1, 1, 2, 2, 0]`, and the start `1.49`, whose row is `1`. -/
theorem sampler_fill_rounded_witness :
    scenario.WellFormed ∧ ([1, 2] : List ℚ).length = scenario.Tasks ∧
    (∀ i : ℕ, i < scenario.Tasks →
      0 ≤ scenario.Start.getD i 0 ∧ scenario.Start.getD i 0 ≤ scenario.Finish.getD i 0) ∧
    scenario.NonOverlapping ∧ (0 : ℚ) < 1 ∧
    (∀ i : ℕ, i < scenario.Tasks →
      add64 (div64 (scenario.Finish.getD i 0) 1) (1 / 2) < 2 ^ machine64.bits) ∧
    Sample machine64 [1, 2] scenario 1 5 = some [1, 1, 2, 2, 0] ∧
    toUint machine64 (add64 (div64 (149 / 100) 1) (1 / 2)) = 1 ∧
    ((∃ P, Sample machine64 [1, 2] scenario 1 5 = some P ∧
      ∀ r c : ℕ, r < 5 → c < scenario.Cores →
        (∀ i : ℕ, i < scenario.Tasks → scenario.Mapping.getD i 0 = c →
          toUint machine64 (add64 (div64 (scenario.Start.getD i 0) 1) (1 / 2)) ≤ r →
          r < min (toUint machine64 (add64 (div64 (scenario.Finish.getD i 0) 1) (1 / 2)))
            (min 5 (toUint machine64 (div64 scenario.Span 1))) →
          P[r * scenario.Cores + c]? = some (([1, 2] : List ℚ).getD i 0)) ∧
        ((¬ ∃ i : ℕ, i < scenario.Tasks ∧ scenario.Mapping.getD i 0 = c ∧
            toUint machine64 (add64 (div64 (scenario.Start.getD i 0) 1) (1 / 2)) ≤ r ∧
            r < min (toUint machine64 (add64 (div64 (scenario.Finish.getD i 0) 1) (1 / 2)))
              (min 5 (toUint machine64 (div64 scenario.Span 1)))) →
          P[r * scenario.Cores + c]? = some 0)) ∧
    (∀ i : ℕ, i < scenario.Tasks →
      toUint machine64 (add64 (div64 (scenario.Start.getD i 0) 1) (1 / 2))
        = ⌊add64 (div64 (scenario.Start.getD i 0) 1) (1 / 2)⌋₊ ∧
      toUint machine64 (add64 (div64 (scenario.Finish.getD i 0) 1) (1 / 2))
        = ⌊add64 (div64 (scenario.Finish.getD i 0) 1) (1 / 2)⌋₊) ∧
    ∀ k : ℕ, k < 2 ^ 52 → k + 1 < 2 ^ machine64.bits →
      toUint machine64 (add64 ((k : ℚ) + 1 / 2) (1 / 2)) = k + 1) := by
  have hwf : scenario.WellFormed := by simp [Schedule.WellFormed, scenario]
  have hno : scenario.NonOverlapping := by
    intro a b ha hb hab _
    simp only [scenario] at ha hb
    interval_cases a <;> interval_cases b <;> simp [scenario] at hab ⊢
  have htimes : ∀ i : ℕ, i < scenario.Tasks →
      0 ≤ scenario.Start.getD i 0 ∧ scenario.Start.getD i 0 ≤ scenario.Finish.getD i 0 := by
    intro i hi
    simp only [scenario] at hi
    interval_cases i <;> norm_num [scenario]
  obtain ⟨⟨d0, d2, d4⟩, a0, a2, a4, _⟩ := scenario_rows
  have hrange : ∀ i : ℕ, i < scenario.Tasks →
      add64 (div64 (scenario.Finish.getD i 0) 1) (1 / 2) < 2 ^ machine64.bits := by
    intro i hi
    simp only [scenario] at hi
    interval_cases i <;> norm_num [scenario, machine64, d2, d4, a2, a4]
  refine ⟨hwf, rfl, htimes, hno, by norm_num, hrange, ?_, ?_,
    sampler_fill_rounded machine64 [1, 2] scenario 1 5 hwf rfl htimes hno (by norm_num)
      hrange⟩
  · norm_num [Sample, sampleBody, scenario, fillRows, forRange, setAt, toUint, machine64,
      d0, d2, d4, a0, a2, a4, List.replicate, List.set, Int.toNat]
  · norm_num [add64_149, toUint, machine64, Int.toNat]

/-! ## Claims about `Progress` -/

/-- C11 (the instant query is first-match with inclusive bounds): for every well-formed
schedule, every power vector, every time `t` and every buffer `out` of at least `Cores`
entries with arbitrary contents, `Progress(power, schedule)` returns a closure and the
closure returns; afterwards, for every core `c < Cores`, `out[c]` is `power[k]` for the
smallest task index `k` with `Mapping[k] = c` and `Start[k] ≤ t ≤ Finish[k]`, and `0` if
there is no such task; the entries of `out` at the positions `≥ Cores` are unchanged. -/
theorem instant_query (power : List ℚ) (sch : Schedule) (hwf : sch.WellFormed)
    (hpw : power.length = sch.Tasks) (t : ℚ) (out : List ℚ) (hout : sch.Cores ≤ out.length) :
    ∃ q out', Progress power sch = some q ∧ q t out = some out' ∧
      out'.length = out.length ∧
      (∀ c : ℕ, c < sch.Cores →
        (∀ k : ℕ, k < sch.Tasks → sch.Mapping.getD k 0 = c → sch.Start.getD k 0 ≤ t →
          t ≤ sch.Finish.getD k 0 →
          (∀ k' : ℕ, k' < k → ¬ (sch.Mapping.getD k' 0 = c ∧ sch.Start.getD k' 0 ≤ t ∧
            t ≤ sch.Finish.getD k' 0)) →
          out'[c]? = some (power.getD k 0)) ∧
        ((∀ k : ℕ, k < sch.Tasks → ¬ (sch.Mapping.getD k 0 = c ∧
            sch.Start.getD k 0 ≤ t ∧ t ≤ sch.Finish.getD k 0)) →
          out'[c]? = some 0)) ∧
      (∀ p : ℕ, sch.Cores ≤ p → out'[p]? = out[p]?) := by
  obtain ⟨q, hq, hall⟩ := Progress_spec power sch hwf hpw
  obtain ⟨out', h1, h2, h3, h4⟩ := hall t out hout
  exact ⟨q, out', hq, h1, h2, h3, h4⟩

/-- Witness of C11: one task over `[2, 5]` of power `3` on core `0` and a buffer `[7, 8]`:
the query writes `3` at `t = 2` and at `t = 5`, and `0` at `t = 5.0001`. -/
theorem instant_query_witness :
    oneTask.WellFormed ∧ ([3] : List ℚ).length = oneTask.Tasks ∧
    oneTask.Cores ≤ ([7, 8] : List ℚ).length ∧
    (Progress [3] oneTask).bind (fun q => q 2 [7, 8]) = some [3, 8] ∧
    (Progress [3] oneTask).bind (fun q => q 5 [7, 8]) = some [3, 8] ∧
    (Progress [3] oneTask).bind (fun q => q (50001 / 10000) [7, 8]) = some [0, 8] ∧
    ∃ q out', Progress [3] oneTask = some q ∧ q 2 [7, 8] = some out' ∧
      out'.length = ([7, 8] : List ℚ).length ∧
      (∀ c : ℕ, c < oneTask.Cores →
        (∀ k : ℕ, k < oneTask.Tasks → oneTask.Mapping.getD k 0 = c →
          oneTask.Start.getD k 0 ≤ 2 → 2 ≤ oneTask.Finish.getD k 0 →
          (∀ k' : ℕ, k' < k → ¬ (oneTask.Mapping.getD k' 0 = c ∧
            oneTask.Start.getD k' 0 ≤ 2 ∧ 2 ≤ oneTask.Finish.getD k' 0)) →
          out'[c]? = some (([3] : List ℚ).getD k 0)) ∧
        ((∀ k : ℕ, k < oneTask.Tasks → ¬ (oneTask.Mapping.getD k 0 = c ∧
            oneTask.Start.getD k 0 ≤ 2 ∧ 2 ≤ oneTask.Finish.getD k 0)) →
          out'[c]? = some 0)) ∧
      (∀ p : ℕ, oneTask.Cores ≤ p → out'[p]? = ([7, 8] : List ℚ)[p]?) := by
  have hwf : oneTask.WellFormed := by simp [Schedule.WellFormed, oneTask]
  refine ⟨hwf, rfl, by simp [oneTask], ?_, ?_, ?_,
    instant_query [3] oneTask hwf rfl 2 [7, 8] (by simp [oneTask])⟩
  · norm_num [Progress, oneTask, buildMapping, mappingBody, progressBody, scanTasks, forRange,
      setAt, List.replicate, List.set]
  · norm_num [Progress, oneTask, buildMapping, mappingBody, progressBody, scanTasks, forRange,
      setAt, List.replicate, List.set]
  · norm_num [Progress, oneTask, buildMapping, mappingBody, progressBody, scanTasks, forRange,
      setAt, List.replicate, List.set]

/-- C12 (the query of the manager is the standalone query on the collected vector): for
every platform, application and schedule with one core of the platform per core of the
schedule, one task of the application per task and per mapping entry of the schedule, and
every task mapped to an existing core, and for the vector `power` with
`power[i] = cores[Mapping[i]].Power[tasks[i].Type]` for every task: `collect` and
`Distribute` return `power`, the method `Progress` of `main.go` and the function
`Progress` of `dynamic.go` called with `power` both return a closure, and for every time
and every buffer the two closures have the same result. -/
theorem manager_query (p : Power) (sch : Schedule)
    (hc : p.platform.Cores.length = sch.Cores)
    (ht : p.application.Tasks.length = sch.Tasks) (hm : sch.Mapping.length = sch.Tasks)
    (_hcore : ∀ j ∈ sch.Mapping, j < sch.Cores) (power : List ℚ)
    (hlen : power.length = sch.Tasks)
    (hpower : ∀ i : ℕ, i < sch.Tasks →
      power[i]? = lookup p.platform.Cores p.application.Tasks (sch.Mapping.getD i 0) i) :
    p.collect sch = some power ∧
    (Dynamic.mk p.platform p.application).Distribute sch = some power ∧
    ∃ q q', p.Progress sch = some q ∧ Progress power sch = some q' ∧
      ∀ (t : ℚ) (out : List ℚ), q t out = q' t out := by
  have hcollect : p.collect sch = some power :=
    collect_eq p sch power (by omega) (by omega) (fun i hi => hpower i (by omega))
  refine ⟨hcollect, by rw [Distribute_eq_collect p sch (by omega), hcollect], ?_⟩
  obtain ⟨mp, hmp, _, hmpi⟩ := buildMapping_spec sch.Cores sch.Tasks sch.Mapping (by omega)
  refine ⟨fun time out => forRange (progressBody mp
      (fun i j => lookup p.platform.Cores p.application.Tasks i j) sch.Start sch.Finish time)
      sch.Cores 0 out,
    fun time out => forRange (progressBody mp (fun _ j => power[j]?) sch.Start sch.Finish time)
      sch.Cores 0 out, ?_, ?_, ?_⟩
  · simp only [Power.Progress, hc, ht, hmp]
  · simp only [Progress, hmp]
  · intro t out
    apply forRange_congr
    intro i _ hi st'
    have hi' : i < sch.Cores := by omega
    simp only [progressBody, hmpi i hi']
    cases setAt st' i 0 with
    | none => rfl
    | some st'' =>
      apply scanTasks_congr
      intro j hj
      obtain ⟨hj1, hj2⟩ := (mem_tasksOf _ _ _ _).mp hj
      rw [← hj2]
      exact (hpower j hj1).symm

/-- Witness of C12: two cores and three tasks; the vector is `[3, 2, 4]`, and at time `1`
both queries write `2` for core 0 and `3` for core 1. -/
theorem manager_query_witness :
    twoCoresManager.platform.Cores.length = twoCores.Cores ∧
    twoCoresManager.application.Tasks.length = twoCores.Tasks ∧
    twoCores.Mapping.length = twoCores.Tasks ∧
    (∀ j ∈ twoCores.Mapping, j < twoCores.Cores) ∧
    ([3, 2, 4] : List ℚ).length = twoCores.Tasks ∧
    (∀ i : ℕ, i < twoCores.Tasks → ([3, 2, 4] : List ℚ)[i]? =
      lookup twoCoresManager.platform.Cores twoCoresManager.application.Tasks
        (twoCores.Mapping.getD i 0) i) ∧
    (twoCoresManager.Progress twoCores).bind (fun q => q 1 [9, 9, 9]) = some [2, 3, 9] ∧
    (Progress [3, 2, 4] twoCores).bind (fun q => q 1 [9, 9, 9]) = some [2, 3, 9] ∧
    (twoCoresManager.collect twoCores = some [3, 2, 4] ∧
    (Dynamic.mk twoCoresManager.platform twoCoresManager.application).Distribute twoCores
        = some [3, 2, 4] ∧
    ∃ q q', twoCoresManager.Progress twoCores = some q ∧
      Progress [3, 2, 4] twoCores = some q' ∧
      ∀ (t : ℚ) (out : List ℚ), q t out = q' t out) := by
  have hpower : ∀ i : ℕ, i < twoCores.Tasks → ([3, 2, 4] : List ℚ)[i]? =
      lookup twoCoresManager.platform.Cores twoCoresManager.application.Tasks
        (twoCores.Mapping.getD i 0) i := by
    intro i hi
    simp only [twoCores] at hi
    interval_cases i <;> simp [twoCores, twoCoresManager, lookup]
  refine ⟨rfl, rfl, rfl, by simp [twoCores], rfl, hpower, ?_, ?_,
    manager_query twoCoresManager twoCores rfl rfl rfl (by simp [twoCores]) [3, 2, 4] rfl
      hpower⟩
  · norm_num [Power.Progress, twoCoresManager, twoCores, lookup, buildMapping, mappingBody,
      progressBody, scanTasks, forRange, setAt, List.replicate, List.set]
  · norm_num [Progress, twoCores, buildMapping, mappingBody, progressBody, scanTasks, forRange,
      setAt, List.replicate, List.set]

/-! ## Claims about the sort in `traverse` -/

/-- C13 (the merge result is that of a stable sort, whatever sort is used): for every
non-empty slice `points` and every `ε ≥ 0`, `traverse` returns, and the pair
`(gaps, stepOf)` computed by the part of `traverse` after the sort is the same for every
permutation `order` that sorts `points` ascending (with `sorted` the sorted slice),
whatever the order of equal values; it is the result of `traverse` with the sort of the
model, which is a result of sorting and is stable. -/
theorem sort_independent (points : List ℚ) (ε : ℚ) (hne : points ≠ []) (hε : 0 ≤ ε) :
    (∃ res, traverse points ε = some res) ∧
    (∀ (order : List ℕ) (sorted : List ℚ), IsSortOf order sorted points →
      traverseSorted order sorted ε = traverse points ε) ∧
    IsSortOf (Quick points).1 (Quick points).2 points ∧
    IsStable (Quick points).1 (Quick points).2 := by
  refine ⟨?_, ?_, Quick_isSortOf points, Quick_stable points⟩
  · obtain ⟨gaps, steps, h, _⟩ := traverse_spec points ε hne
    exact ⟨_, h⟩
  · intro order sorted hsort
    exact traverseSorted_unique points ε hε order (Quick points).1 sorted (Quick points).2
      hsort (Quick_isSortOf points)

/-- Witness of C13: the values `2, 1, 1` with `ε = 1/2`, sorted by the permutation
`[2, 1, 0]`, which is not the stable one. -/
theorem sort_independent_witness :
    ([2, 1, 1] : List ℚ) ≠ [] ∧ (0 : ℚ) ≤ 1 / 2 ∧
    IsSortOf [2, 1, 0] [1, 1, 2] [2, 1, 1] ∧
    traverseSorted [2, 1, 0] [1, 1, 2] (1 / 2) = some ([1], [1, 0, 0]) ∧
    ((∃ res, traverse [2, 1, 1] (1 / 2) = some res) ∧
    (∀ (order : List ℕ) (sorted : List ℚ), IsSortOf order sorted [2, 1, 1] →
      traverseSorted order sorted (1 / 2) = traverse [2, 1, 1] (1 / 2)) ∧
    IsSortOf (Quick [2, 1, 1]).1 (Quick [2, 1, 1]).2 [2, 1, 1] ∧
    IsStable (Quick [2, 1, 1]).1 (Quick [2, 1, 1]).2) := by
  refine ⟨by simp, by norm_num, ⟨by decide, rfl, by norm_num, ?_⟩, ?_,
    sort_independent [2, 1, 1] (1 / 2) (by simp) (by norm_num)⟩
  · intro k o h
    match k, h with
    | 0, h => simp at h; subst h; rfl
    | 1, h => simp at h; subst h; rfl
    | 2, h => simp at h; subst h; rfl
    | k + 3, h => simp at h
  · norm_num [traverseSorted, forRange, traverseBody, setAt, List.replicate, List.set]

/-! ## Claims about the package `leakage` -/

/-- C14 (the leakage power is the nominal power scaled by the fitted line): with
`regression.SimpleLinear` modelled as the least-squares line of intercept `a` and slope
`b`, for every nominal power `n`, samples of temperatures and coefficients with at least
two distinct temperatures and every temperature `t`:
`New(n, temperature, coefficient).Compute(t) = n * (a + b*t)`; the line is the
least-squares one (its residuals have sum zero, are orthogonal to the temperatures, and
no line has a smaller sum of squared residuals); and at the mean temperature `Compute`
returns `n` times the mean coefficient. -/
theorem leakage_compute (n : ℚ) (temperature coefficient : List ℚ) (t : ℚ)
    (hlen : temperature.length = coefficient.length)
    (hdist : ∃ u ∈ temperature, ∃ v ∈ temperature, u ≠ v) :
    (leakage.New n temperature coefficient).Compute t =
      n * ((NewSimpleLinear temperature coefficient).α
        + (NewSimpleLinear temperature coefficient).β * t) ∧
    ((temperature.zip coefficient).map (fun p => p.2 -
      ((NewSimpleLinear temperature coefficient).α
        + (NewSimpleLinear temperature coefficient).β * p.1))).sum = 0 ∧
    ((temperature.zip coefficient).map (fun p => p.1 * (p.2 -
      ((NewSimpleLinear temperature coefficient).α
        + (NewSimpleLinear temperature coefficient).β * p.1)))).sum = 0 ∧
    (∀ a' b' : ℚ,
      ((temperature.zip coefficient).map (fun p => (p.2 -
        ((NewSimpleLinear temperature coefficient).α
          + (NewSimpleLinear temperature coefficient).β * p.1)) ^ 2)).sum
      ≤ ((temperature.zip coefficient).map (fun p => (p.2 - (a' + b' * p.1)) ^ 2)).sum) ∧
    (leakage.New n temperature coefficient).Compute (mean temperature) =
      n * mean coefficient := by
  obtain ⟨u, hu, v, hv, huv⟩ := hdist
  have hsxx := sum_sq_ne_zero temperature (mean temperature) u v hu hv huv
  have hpos : (temperature.length : ℚ) ≠ 0 := by
    have : temperature ≠ [] := List.ne_nil_of_mem hu
    have := List.length_pos.mpr this
    exact_mod_cast (by omega : temperature.length ≠ 0)
  have hx : (temperature.zip coefficient).map Prod.fst = temperature :=
    List.map_fst_zip _ _ (by omega)
  have hy : (temperature.zip coefficient).map Prod.snd = coefficient :=
    List.map_snd_zip _ _ (by omega)
  have hzl : (temperature.zip coefficient).length = temperature.length := by
    rw [List.length_zip, ← hlen, min_self]
  have hcore := ols_core (temperature.zip coefficient) (mean temperature) (mean coefficient)
    (NewSimpleLinear temperature coefficient).α (NewSimpleLinear temperature coefficient).β
    (by rw [hx, hzl, mean]; field_simp)
    (by rw [hy, hzl, mean, ← hlen]; field_simp)
    (by
      have : ∀ m : ℚ, (List.map (fun p : ℚ × ℚ => (p.1 - m) ^ 2)
          (temperature.zip coefficient)).sum
          = (((temperature.zip coefficient).map Prod.fst).map (fun a => (a - m) ^ 2)).sum := by
        intro m
        rw [List.map_map]
        rfl
      rw [this, hx]
      simp only [NewSimpleLinear]
      field_simp)
    (by simp only [NewSimpleLinear])
  refine ⟨by simp only [leakage.Power.Compute, leakage.New, SimpleLinear.Compute],
    hcore.1, hcore.2.1, hcore.2.2, ?_⟩
  simp only [leakage.Power.Compute, leakage.New, SimpleLinear.Compute, NewSimpleLinear]
  ring

/-- Witness of C14: the test `TestCompute`: nominal power `1` and the nine samples; the
mean temperature is `358.15` and `Compute(358.15)` is within `0.001` of `1.088`. -/
theorem leakage_compute_witness :
    testQ.length = testC.length ∧ (∃ u ∈ testQ, ∃ v ∈ testQ, u ≠ v) ∧
    mean testQ = 358.15 ∧
    |(leakage.New 1 testQ testC).Compute 358.15 - 1.088| ≤ 0.001 := by
  have hlen : testQ.length = testC.length := rfl
  have hdist : ∃ u ∈ testQ, ∃ v ∈ testQ, u ≠ v :=
    ⟨318.15, by simp [testQ], 328.15, by simp [testQ], by norm_num⟩
  have hmean : mean testQ = 358.15 := by norm_num [mean, testQ]
  have hmeanC : mean testC = 97889 / 90000 := by norm_num [mean, testC]
  have h := (leakage_compute 1 testQ testC 358.15 hlen hdist).2.2.2.2
  rw [hmean, hmeanC] at h
  refine ⟨hlen, hdist, hmean, ?_⟩
  rw [h, abs_le]
  constructor <;> norm_num

/-! ## Claims about the cells -/

/-- C15 (the cell assignment is monotone in the value): for every `ε ≥ 0`, (1) for every
non-empty slice `points`, `traverse` returns and for all indices `a`, `b`:
`points[a] ≤ points[b]` gives `stepOf[a] ≤ stepOf[b]`, and equal values get equal cell
indices; (2) for every well-formed schedule, in every result of `Partition` every task
with `Start[i] ≤ Finish[i]` has `s_i ≤ f_i`. -/
theorem cell_monotone (ε : ℚ) (hε : 0 ≤ ε) :
    (∀ points : List ℚ, points ≠ [] →
      ∃ gaps stepOf, traverse points ε = some (gaps, stepOf) ∧
        ∀ (a b : ℕ) (va vb : ℚ) (ca cb : ℕ), points[a]? = some va → points[b]? = some vb →
          stepOf[a]? = some ca → stepOf[b]? = some cb →
          (va ≤ vb → ca ≤ cb) ∧ (va = vb → ca = cb)) ∧
    (∀ (power : List ℚ) (sch : Schedule) (points : List ℚ), sch.WellFormed →
      power.length = sch.Tasks →
      ∀ (P gaps : List ℚ) (psteps : List ℕ),
        Partition power sch points ε = some (P, gaps, psteps) →
        ∃ steps, traverse (sch.Start ++ sch.Finish ++ points) ε = some (gaps, steps) ∧
          ∀ i : ℕ, i < sch.Tasks → sch.Start.getD i 0 ≤ sch.Finish.getD i 0 →
            steps.getD i 0 ≤ steps.getD (sch.Tasks + i) 0) := by
  constructor
  · intro points hne
    obtain ⟨gaps, steps, hret, _⟩ := traverse_spec points ε hne
    refine ⟨gaps, steps, hret, ?_⟩
    intro a b va vb ca cb hva hvb hca hcb
    have hmono : ∀ (a b : ℕ) (va vb : ℚ) (ca cb : ℕ), points[a]? = some va →
        points[b]? = some vb → steps[a]? = some ca → steps[b]? = some cb → va ≤ vb →
        ca ≤ cb := by
      intro a b va vb ca cb hva hvb hca hcb hle
      have := traverse_mono points ε hε gaps steps hret a b va vb hva hvb hle
      have e1 : steps.getD a 0 = ca := by simp [List.getD, hca]
      have e2 : steps.getD b 0 = cb := by simp [List.getD, hcb]
      omega
    refine ⟨hmono a b va vb ca cb hva hvb hca hcb, fun heq => ?_⟩
    exact le_antisymm (hmono a b va vb ca cb hva hvb hca hcb (le_of_eq heq))
      (hmono b a vb va cb ca hvb hva hcb hca (le_of_eq heq.symm))
  · intro power sch points hwf hpw P gaps psteps hret
    obtain ⟨steps, htr, _, _, _, _⟩ := Partition_of_eq power sch points ε hwf hpw P gaps psteps hret
    obtain ⟨hstart, hfinish, _⟩ := time_entries sch points hwf
    refine ⟨steps, htr, fun i hi hle => ?_⟩
    exact traverse_mono _ ε hε gaps steps htr _ _ _ _ (hstart i hi) (hfinish i hi) hle

/-- Witness of C15: `ε = 1/2`, on the values `2, 1, 1` and on the scenario of the
specification. -/
theorem cell_monotone_witness :
    (0 : ℚ) ≤ 1 / 2 ∧ traverse [2, 1, 1] (1 / 2) = some ([1], [1, 0, 0]) ∧
    ((∀ points : List ℚ, points ≠ [] →
      ∃ gaps stepOf, traverse points (1 / 2) = some (gaps, stepOf) ∧
        ∀ (a b : ℕ) (va vb : ℚ) (ca cb : ℕ), points[a]? = some va → points[b]? = some vb →
          stepOf[a]? = some ca → stepOf[b]? = some cb →
          (va ≤ vb → ca ≤ cb) ∧ (va = vb → ca = cb)) ∧
    (∀ (power : List ℚ) (sch : Schedule) (points : List ℚ), sch.WellFormed →
      power.length = sch.Tasks →
      ∀ (P gaps : List ℚ) (psteps : List ℕ),
        Partition power sch points (1 / 2) = some (P, gaps, psteps) →
        ∃ steps, traverse (sch.Start ++ sch.Finish ++ points) (1 / 2) = some (gaps, steps) ∧
          ∀ i : ℕ, i < sch.Tasks → sch.Start.getD i 0 ≤ sch.Finish.getD i 0 →
            steps.getD i 0 ≤ steps.getD (sch.Tasks + i) 0)) := by
  refine ⟨by norm_num, ?_, cell_monotone (1 / 2) (by norm_num)⟩
  norm_num [traverse, traverseSorted, Quick, forRange, traverseBody, setAt,
    List.insertionSort, List.orderedInsert, List.enum, List.enumFrom, List.replicate,
    List.set]

/-- C16 (the gaps locate every input value): for every `ε ≥ 0`, with
`r_k = min(points) + gaps[0] + ... + gaps[k-1]`: (1) for every non-empty slice `points`,
`traverse` returns, every index `i` with `stepOf[i] = k` has `0 ≤ points[i] - r_k ≤ ε`,
and for every cell index `k ≤ len(gaps)` the value `r_k` is an input value of cell `k`;
(2) for every well-formed schedule, in every result of `Partition` there is one returned
index per extra point, and an extra point `p` with returned index `k` lies in
`[r_k, r_k + ε]`, where the minimum is taken over the start times, finish times and
extra points. -/
theorem gaps_locate (ε : ℚ) (hε : 0 ≤ ε) :
    (∀ points : List ℚ, points ≠ [] →
      ∃ gaps stepOf, traverse points ε = some (gaps, stepOf) ∧
        (∀ (i : ℕ) (v : ℚ) (k : ℕ), points[i]? = some v → stepOf[i]? = some k →
          0 ≤ v - (minOf points + (gaps.take k).sum) ∧
          v - (minOf points + (gaps.take k).sum) ≤ ε) ∧
        (∀ k : ℕ, k ≤ gaps.length →
          ∃ i : ℕ, points[i]? = some (minOf points + (gaps.take k).sum) ∧
            stepOf[i]? = some k)) ∧
    (∀ (power : List ℚ) (sch : Schedule) (points : List ℚ), sch.WellFormed →
      power.length = sch.Tasks →
      ∀ (P gaps : List ℚ) (psteps : List ℕ),
        Partition power sch points ε = some (P, gaps, psteps) →
        psteps.length = points.length ∧
        ∀ (m : ℕ) (p : ℚ) (k : ℕ), points[m]? = some p → psteps[m]? = some k →
          minOf (sch.Start ++ sch.Finish ++ points) + (gaps.take k).sum ≤ p ∧
          p ≤ minOf (sch.Start ++ sch.Finish ++ points) + (gaps.take k).sum + ε) := by
  constructor
  · intro points hne
    obtain ⟨gaps, steps, hret, _, _, _, hsurj, hrep⟩ := traverse_spec points ε hne
    refine ⟨gaps, steps, hret, ?_, hsurj⟩
    intro i v k hv hk
    have := hrep hε i v k hv hk
    constructor <;> linarith [this.1, this.2]
  · intro power sch points hwf hpw P gaps psteps hret
    obtain ⟨steps, htr, hps, hlen, _, _⟩ :=
      Partition_of_eq power sch points ε hwf hpw P gaps psteps hret
    obtain ⟨_, _, hpoint⟩ := time_entries sch points hwf
    obtain ⟨_, _, _, _, _, hrep⟩ := traverse_of_eq _ ε gaps steps htr
    subst hps
    refine ⟨by rw [List.length_drop]; omega, ?_⟩
    intro m p k hp hk
    rw [List.getElem?_drop] at hk
    exact hrep hε (2 * sch.Tasks + m) p k (by rw [hpoint m, hp]) hk

/-- Witness of C16: `ε = 1`, on the scenario of the specification with the extra point
`1`, which is merged into the cell of `0`. -/
theorem gaps_locate_witness :
    (0 : ℚ) ≤ 1 ∧ Partition [1, 2] scenario [1] 1 = some ([1, 2], [2, 2], [0]) ∧
    ((∀ points : List ℚ, points ≠ [] →
      ∃ gaps stepOf, traverse points 1 = some (gaps, stepOf) ∧
        (∀ (i : ℕ) (v : ℚ) (k : ℕ), points[i]? = some v → stepOf[i]? = some k →
          0 ≤ v - (minOf points + (gaps.take k).sum) ∧
          v - (minOf points + (gaps.take k).sum) ≤ 1) ∧
        (∀ k : ℕ, k ≤ gaps.length →
          ∃ i : ℕ, points[i]? = some (minOf points + (gaps.take k).sum) ∧
            stepOf[i]? = some k)) ∧
    (∀ (power : List ℚ) (sch : Schedule) (points : List ℚ), sch.WellFormed →
      power.length = sch.Tasks →
      ∀ (P gaps : List ℚ) (psteps : List ℕ),
        Partition power sch points 1 = some (P, gaps, psteps) →
        psteps.length = points.length ∧
        ∀ (m : ℕ) (p : ℚ) (k : ℕ), points[m]? = some p → psteps[m]? = some k →
          minOf (sch.Start ++ sch.Finish ++ points) + (gaps.take k).sum ≤ p ∧
          p ≤ minOf (sch.Start ++ sch.Finish ++ points) + (gaps.take k).sum + 1)) := by
  refine ⟨by norm_num, ?_, gaps_locate 1 (by norm_num)⟩
  norm_num [Partition, scenario, timeOf, copyAt, partitionBody, fillRows, traverse,
    traverseSorted, Quick, forRange, traverseBody, setAt, List.insertionSort,
    List.orderedInsert, List.enum, List.enumFrom, List.replicate, List.set]

/-! ## Claims about the indices -/

/-- C17 (`Partition` never indexes out of range): for every well-formed schedule with a
power vector of `Tasks` entries, every list of extra points with
`2*Tasks + len(points) ≥ 1` and every `ε`, with no order assumed between `Start[i]` and
`Finish[i]`: `traverse` and `Partition` return, that is, no read or write of the
embedding leaves its slice; the number of gaps written to `Δ` is at most
`len(time) - 1`; every entry of `order` is an index of `steps`; `steps` has
`2*Tasks + len(points)` entries, so the three slices of it exist; and every write
`P[s*Cores + j]` of a task has `s*Cores + j < len(P) = Cores * len(gaps)`. -/
theorem partition_in_range (power : List ℚ) (sch : Schedule) (points : List ℚ) (ε : ℚ)
    (hwf : sch.WellFormed) (hpw : power.length = sch.Tasks)
    (hne : 1 ≤ 2 * sch.Tasks + points.length) :
    ∃ (P gaps : List ℚ) (psteps steps : List ℕ),
      traverse (timeOf sch points) ε = some (gaps, steps) ∧
      Partition power sch points ε = some (P, gaps, psteps) ∧
      (timeOf sch points).length = 2 * sch.Tasks + points.length ∧
      gaps.length ≤ (timeOf sch points).length - 1 ∧
      steps.length = (timeOf sch points).length ∧
      (∀ o ∈ (Quick (timeOf sch points)).1, o < steps.length) ∧
      P.length = sch.Cores * gaps.length ∧
      ∀ i : ℕ, i < sch.Tasks → ∀ s : ℕ, steps.getD i 0 ≤ s →
        s < steps.getD (sch.Tasks + i) 0 →
        s * sch.Cores + sch.Mapping.getD i 0 < P.length := by
  obtain ⟨gaps, steps, P, htr, hP, hlen, hPlen, _⟩ :=
    Partition_spec power sch points ε hwf hpw (by omega)
  have htime := timeOf_eq sch points hwf
  obtain ⟨hm, hs, hf, hcore⟩ := hwf
  have htl : (sch.Start ++ sch.Finish ++ points).length = 2 * sch.Tasks + points.length := by
    simp only [List.length_append, hs, hf]; omega
  obtain ⟨_, _, _, hc, _, _⟩ := traverse_of_eq _ ε gaps steps htr
  have hgl := traverse_gaps_length _ ε gaps steps htr
  refine ⟨P, gaps, steps.drop (2 * sch.Tasks), steps, by rw [htime]; exact htr, hP,
    by rw [htime]; exact htl, by rw [htime]; omega, by rw [htime]; omega, ?_, hPlen, ?_⟩
  · intro o ho
    have := (Quick_isSortOf (timeOf sch points)).lt ho
    rw [htime] at this
    omega
  · intro i hi s _ hsf
    rw [hPlen]
    have hfi := hc _ (getD_mem steps (sch.Tasks + i) 0 (by omega))
    exact row_index_lt _ _ _ _ (by omega) (hcore _ (getD_mem _ _ _ (by omega)))

/-- Witness of C17: one task whose start lies after its finish, with the extra point `0`
and `ε = -1`. -/
theorem partition_in_range_witness :
    reversedTask.WellFormed ∧
    ([1] : List ℚ).length = reversedTask.Tasks ∧
    1 ≤ 2 * reversedTask.Tasks + ([0] : List ℚ).length ∧
    ∃ (P gaps : List ℚ) (psteps steps : List ℕ),
      traverse (timeOf reversedTask [0]) (-1) = some (gaps, steps) ∧
      Partition [1] reversedTask [0] (-1) = some (P, gaps, psteps) ∧
      (timeOf reversedTask [0]).length
        = 2 * reversedTask.Tasks + ([0] : List ℚ).length ∧
      gaps.length ≤ (timeOf reversedTask [0]).length - 1 ∧
      steps.length = (timeOf reversedTask [0]).length ∧
      (∀ o ∈ (Quick (timeOf reversedTask [0])).1, o < steps.length) ∧
      P.length = reversedTask.Cores * gaps.length ∧
      ∀ i : ℕ, i < reversedTask.Tasks → ∀ s : ℕ,
        steps.getD i 0 ≤ s →
        s < steps.getD (reversedTask.Tasks + i) 0 →
        s * reversedTask.Cores
          + reversedTask.Mapping.getD i 0 < P.length :=
  ⟨by simp [Schedule.WellFormed, reversedTask], rfl, by simp [reversedTask],
    partition_in_range [1] reversedTask [0] (-1) (by simp [Schedule.WellFormed, reversedTask])
      rfl (by simp [reversedTask])⟩

/-- C18 (`Sample` never indexes out of range): for every well-formed schedule with a
power vector of `Tasks` entries and non-negative `Start`, `Finish` and `Span`, every
`Δt > 0` and every `ns`, on every machine and whatever the rounding of the quotients:
`Sample` returns a matrix of the `Cores * ns` entries allocated with the `ns` of the
caller, that is, no read or write of the embedding leaves its slice; every write
`P[s*Cores + j]` of a task, for a row `s` from `uint(Start[i]/Δt + 0.5)` up to the
clamped `uint(Finish[i]/Δt + 0.5)`, has `s*Cores + j < Cores * ns`; and for a task whose
computed first row is at or after the truncation point `min(ns, uint(Span/Δt))` the loop
body writes nothing. -/
theorem sample_index_bound (m : Machine) (power : List ℚ) (sch : Schedule) (Δt : ℚ) (ns : ℕ)
    (hwf : sch.WellFormed) (hpw : power.length = sch.Tasks)
    (_htimes : (∀ t ∈ sch.Start, 0 ≤ t) ∧ (∀ t ∈ sch.Finish, 0 ≤ t) ∧ 0 ≤ sch.Span)
    (_hΔt : 0 < Δt) :
    ∃ P, Sample m power sch Δt ns = some P ∧ P.length = sch.Cores * ns ∧
      (∀ i : ℕ, i < sch.Tasks → ∀ s : ℕ,
        toUint m (add64 (div64 (sch.Start.getD i 0) Δt) (1 / 2)) ≤ s →
        s < min (toUint m (add64 (div64 (sch.Finish.getD i 0) Δt) (1 / 2)))
          (min ns (toUint m (div64 sch.Span Δt))) →
        s * sch.Cores + sch.Mapping.getD i 0 < P.length) ∧
      (∀ i : ℕ, i < sch.Tasks →
        min ns (toUint m (div64 sch.Span Δt))
          ≤ toUint m (add64 (div64 (sch.Start.getD i 0) Δt) (1 / 2)) →
        ∀ Q : List ℚ,
          sampleBody m sch.Cores power sch Δt (min ns (toUint m (div64 sch.Span Δt))) i Q
            = some Q) := by
  obtain ⟨P, hP, hlen, _⟩ := Sample_spec m power sch Δt ns hwf hpw
  obtain ⟨hm, hs, hf, hcore⟩ := hwf
  refine ⟨P, hP, hlen, ?_, ?_⟩
  · intro i hi s _ hsf
    rw [hlen]
    have h1 : s < ns := lt_of_lt_of_le hsf (le_trans (min_le_right _ _) (min_le_left _ _))
    exact row_index_lt _ _ _ _ h1 (hcore _ (getD_mem _ _ _ (by omega)))
  · intro i hi hlate Q
    have h1 : sch.Mapping[i]? = some (sch.Mapping.getD i 0) := getElem?_getD _ _ _ (by omega)
    have h2 : power[i]? = some (power.getD i 0) := getElem?_getD _ _ _ (by omega)
    have h3 : sch.Start[i]? = some (sch.Start.getD i 0) := getElem?_getD _ _ _ (by omega)
    have h4 : sch.Finish[i]? = some (sch.Finish.getD i 0) := getElem?_getD _ _ _ (by omega)
    have h5 : (if toUint m (add64 (div64 (sch.Finish.getD i 0) Δt) (1 / 2))
          > min ns (toUint m (div64 sch.Span Δt))
        then min ns (toUint m (div64 sch.Span Δt))
        else toUint m (add64 (div64 (sch.Finish.getD i 0) Δt) (1 / 2)))
        - toUint m (add64 (div64 (sch.Start.getD i 0) Δt) (1 / 2)) = 0 := by
      split <;> omega
    simp only [sampleBody, h1, h2, h3, h4, fillRows, h5, forRange]

/-- Witness of C18: the scenario of the specification with `Δt = 1` and `ns = 1`, where
task 1 starts after the truncation point. -/
theorem sample_index_bound_witness :
    scenario.WellFormed ∧ ([1, 2] : List ℚ).length = scenario.Tasks ∧
    ((∀ t ∈ scenario.Start, (0 : ℚ) ≤ t) ∧ (∀ t ∈ scenario.Finish, (0 : ℚ) ≤ t) ∧
      0 ≤ scenario.Span) ∧ (0 : ℚ) < 1 ∧
    Sample machine64 [1, 2] scenario 1 1 = some [1] ∧
    min 1 (toUint machine64 (div64 scenario.Span 1))
      ≤ toUint machine64 (add64 (div64 (scenario.Start.getD 1 0) 1) (1 / 2)) ∧
    ∃ P, Sample machine64 [1, 2] scenario 1 1 = some P ∧ P.length = scenario.Cores * 1 ∧
      (∀ i : ℕ, i < scenario.Tasks → ∀ s : ℕ,
        toUint machine64 (add64 (div64 (scenario.Start.getD i 0) 1) (1 / 2)) ≤ s →
        s < min (toUint machine64 (add64 (div64 (scenario.Finish.getD i 0) 1) (1 / 2)))
          (min 1 (toUint machine64 (div64 scenario.Span 1))) →
        s * scenario.Cores + scenario.Mapping.getD i 0 < P.length) ∧
      (∀ i : ℕ, i < scenario.Tasks →
        min 1 (toUint machine64 (div64 scenario.Span 1))
          ≤ toUint machine64 (add64 (div64 (scenario.Start.getD i 0) 1) (1 / 2)) →
        ∀ Q : List ℚ,
          sampleBody machine64 scenario.Cores [1, 2] scenario 1
            (min 1 (toUint machine64 (div64 scenario.Span 1))) i Q = some Q) := by
  obtain ⟨⟨d0, d2, d4⟩, a0, a2, a4, _⟩ := scenario_rows
  refine ⟨by simp [Schedule.WellFormed, scenario], rfl, by norm_num [scenario], by norm_num,
    ?_, ?_, sample_index_bound machine64 [1, 2] scenario 1 1
      (by simp [Schedule.WellFormed, scenario]) rfl (by norm_num [scenario]) (by norm_num)⟩
  · norm_num [Sample, sampleBody, scenario, fillRows, forRange, setAt, toUint, machine64,
      d0, d2, d4, a0, a2, a4, List.replicate, List.set, Int.toNat]
  · norm_num [scenario, toUint, machine64, d2, d4, a2, Int.toNat]

/-! ## Claims that relate the functions -/

/-- C19 (the two implementations of `Partition` agree): for every power vector, every
well-formed schedule with at least one task and every `ε`, the `Partition` of `dynamic.go`
returns a matrix `P` and gaps, and the `Partition` of `main.go` called with no extra
point returns the same matrix, the same gaps and an empty third result. -/
theorem partitions_agree (power : List ℚ) (sch : Schedule) (ε : ℚ) (hwf : sch.WellFormed)
    (hpw : power.length = sch.Tasks) (hpos : 1 ≤ sch.Tasks) :
    ∃ P gaps, Partition2 power sch ε = some (P, gaps) ∧
      Partition power sch [] ε = some (P, gaps, []) := by
  obtain ⟨gaps, steps, P, htr, hP, hlen, _⟩ :=
    Partition_spec power sch [] ε hwf hpw (by omega)
  have hdrop : steps.drop (2 * sch.Tasks) = [] :=
    List.drop_eq_nil_of_le (by rw [hlen]; simp)
  rw [hdrop] at hP
  refine ⟨P, gaps, ?_, hP⟩
  have htr' : traverse (timeOf sch []) ε = some (gaps, steps) := by
    rw [timeOf_eq sch [] hwf]; exact htr
  simp only [Partition, htr'] at hP
  cases hfr : forRange (partitionBody sch.Cores power sch.Mapping (steps.take sch.Tasks)
      ((steps.drop sch.Tasks).take sch.Tasks)) sch.Tasks 0
      (List.replicate (sch.Cores * gaps.length) 0) with
  | none => simp [hfr] at hP
  | some P' =>
    simp only [hfr, Option.some.injEq, Prod.mk.injEq] at hP
    obtain ⟨rfl, _⟩ := hP
    simp only [Partition2, ← timeOf_nil, htr', hfr]

/-- Witness of C19: the scenario of the specification. -/
theorem partitions_agree_witness :
    scenario.WellFormed ∧ ([1, 2] : List ℚ).length = scenario.Tasks ∧ 1 ≤ scenario.Tasks ∧
    Partition2 [1, 2] scenario (1 / 1000000000) = some ([1, 2], [2, 2]) ∧
    ∃ P gaps, Partition2 [1, 2] scenario (1 / 1000000000) = some (P, gaps) ∧
      Partition [1, 2] scenario [] (1 / 1000000000) = some (P, gaps, []) := by
  refine ⟨by simp [Schedule.WellFormed, scenario], rfl, by simp [scenario], ?_,
    partitions_agree [1, 2] scenario (1 / 1000000000)
      (by simp [Schedule.WellFormed, scenario]) rfl (by simp [scenario])⟩
  norm_num [Partition2, timeOf2, scenario, copyAt, partitionBody, fillRows, traverse,
    traverseSorted, Quick, forRange, traverseBody, setAt, List.insertionSort,
    List.orderedInsert, List.enum, List.enumFrom, List.replicate, List.set]

/-- C20 (the variable-step profile agrees with the instantaneous query inside every
step): for `ε = 0` and every well-formed schedule with `Start[i] ≤ Finish[i]` in which two
distinct tasks of one core never overlap, and every list of extra points: `Partition`
returns as soon as there is one time value, and whenever it returns `(P, gaps, _)`, with
`r_k = min(raw times) + gaps[0] + ... + gaps[k-1]`: `Progress` returns a closure and, for
every row `k < len(gaps)`, every time `t` with `r_k < t < r_k + gaps[k]`, every buffer of
at least `Cores` entries and every core `c < Cores`, the value that the closure writes to
`out[c]` is `P[k*Cores + c]`. -/
theorem profile_matches_query (power : List ℚ) (sch : Schedule) (points : List ℚ)
    (hwf : sch.WellFormed) (hpw : power.length = sch.Tasks)
    (_hord : ∀ i : ℕ, i < sch.Tasks → sch.Start.getD i 0 ≤ sch.Finish.getD i 0)
    (hno : sch.NonOverlapping) :
    (0 < 2 * sch.Tasks + points.length → ∃ res, Partition power sch points 0 = some res) ∧
    ∀ (P gaps : List ℚ) (psteps : List ℕ),
      Partition power sch points 0 = some (P, gaps, psteps) →
      ∃ q, Progress power sch = some q ∧
        ∀ (k : ℕ) (t : ℚ) (out : List ℚ), k < gaps.length →
          minOf (sch.Start ++ sch.Finish ++ points) + (gaps.take k).sum < t →
          t < minOf (sch.Start ++ sch.Finish ++ points) + (gaps.take k).sum + gaps.getD k 0 →
          sch.Cores ≤ out.length →
          ∃ out', q t out = some out' ∧
            ∀ c : ℕ, c < sch.Cores → out'[c]? = P[k * sch.Cores + c]? := by
  constructor
  · intro hne
    obtain ⟨gaps, steps, P, _, hP, _⟩ := Partition_spec power sch points 0 hwf hpw hne
    exact ⟨_, hP⟩
  · intro P gaps psteps hret
    obtain ⟨steps, htr, _, hlen, _, hval⟩ :=
      Partition_of_eq power sch points 0 hwf hpw P gaps psteps hret
    obtain ⟨q, hq, hall⟩ := Progress_spec power sch hwf hpw
    refine ⟨q, hq, ?_⟩
    intro k t out hk hlo hhi hout
    obtain ⟨out', h1, _, h3, _⟩ := hall t out hout
    refine ⟨out', h1, ?_⟩
    intro c hc
    obtain ⟨hstart, hfinish, _⟩ := time_entries sch points hwf
    obtain ⟨_, _, hg, hcb, _, hrep⟩ := traverse_of_eq _ 0 gaps steps htr
    have hg0 : ∀ g ∈ gaps, 0 ≤ g := fun g hg' => le_of_lt (hg g hg')
    have hsucc := take_succ_sum gaps k hk
    -- the start and the finish of a task are the representatives of their cells
    have hS : ∀ i : ℕ, i < sch.Tasks → sch.Start.getD i 0 =
        minOf (sch.Start ++ sch.Finish ++ points) + (gaps.take (steps.getD i 0)).sum := by
      intro i hi
      have := hrep le_rfl i _ _ (hstart i hi) (getElem?_getD steps i 0 (by omega))
      linarith [this.1, this.2]
    have hF : ∀ i : ℕ, i < sch.Tasks → sch.Finish.getD i 0 =
        minOf (sch.Start ++ sch.Finish ++ points)
          + (gaps.take (steps.getD (sch.Tasks + i) 0)).sum := by
      intro i hi
      have := hrep le_rfl (sch.Tasks + i) _ _ (hfinish i hi)
        (getElem?_getD steps (sch.Tasks + i) 0 (by omega))
      linarith [this.1, this.2]
    -- a task is active at `t` exactly when it covers row `k`
    have hact : ∀ i : ℕ, i < sch.Tasks →
        ((sch.Start.getD i 0 ≤ t ∧ t ≤ sch.Finish.getD i 0) ↔
          (steps.getD i 0 ≤ k ∧ k < steps.getD (sch.Tasks + i) 0)) := by
      intro i hi
      constructor
      · rintro ⟨hs, hf⟩
        constructor
        · by_contra hlt
          have := take_sum_mono gaps hg0 (k + 1) (steps.getD i 0) (by omega)
          rw [hS i hi] at hs
          linarith
        · by_contra hge
          have := take_sum_mono gaps hg0 (steps.getD (sch.Tasks + i) 0) k (by omega)
          rw [hF i hi] at hf
          linarith
      · rintro ⟨hs, hf⟩
        constructor
        · have := take_sum_mono gaps hg0 (steps.getD i 0) k hs
          rw [hS i hi]
          linarith
        · have := take_sum_mono gaps hg0 (k + 1) (steps.getD (sch.Tasks + i) 0) (by omega)
          rw [hF i hi]
          linarith
    obtain ⟨hlast, hnone⟩ := hval k c hc hk
    obtain ⟨hfirst, hzero⟩ := h3 c hc
    by_cases hex : ∃ i : ℕ, i < sch.Tasks ∧ sch.Mapping.getD i 0 = c ∧ steps.getD i 0 ≤ k ∧
        k < steps.getD (sch.Tasks + i) 0
    · obtain ⟨i, hi, hmap, hcov⟩ := hex
      have hP := hlast i hi ⟨hmap, hcov⟩ (by
        intro i' hlt hi' hcov'
        exact cover_unique sch points 0 le_rfl hwf hno gaps steps htr k i i' hi hi' (by omega)
          (by rw [hmap, hcov'.1]) hcov hcov'.2)
      have hA := (hact i hi).mpr hcov
      have hout' := hfirst i hi hmap hA.1 hA.2 (by
        intro k' hlt hact'
        have hk' : k' < sch.Tasks := by omega
        exact cover_unique sch points 0 le_rfl hwf hno gaps steps htr k i k' hi hk' (by omega)
          (by rw [hmap, hact'.1]) hcov ((hact k' hk').mp hact'.2))
      rw [hP, hout']
    · have hP := hnone (fun i hi hcov => hex ⟨i, hi, hcov⟩)
      have hout' := hzero (fun i hi hact' =>
        hex ⟨i, hi, hact'.1, (hact i hi).mp hact'.2⟩)
      rw [hP, hout']

/-- Witness of C20: the scenario of the specification; at `t = 1`, inside the first step,
the query writes `1`, the entry of row `0` of the matrix. -/
theorem profile_matches_query_witness :
    scenario.WellFormed ∧ ([1, 2] : List ℚ).length = scenario.Tasks ∧
    (∀ i : ℕ, i < scenario.Tasks →
      scenario.Start.getD i 0 ≤ scenario.Finish.getD i 0) ∧
    scenario.NonOverlapping ∧
    Partition [1, 2] scenario [] 0 = some ([1, 2], [2, 2], []) ∧
    (Progress [1, 2] scenario).bind (fun q => q 1 [9]) = some [1] ∧
    ((0 < 2 * scenario.Tasks + ([] : List ℚ).length →
      ∃ res, Partition [1, 2] scenario [] 0 = some res) ∧
    ∀ (P gaps : List ℚ) (psteps : List ℕ),
      Partition [1, 2] scenario [] 0 = some (P, gaps, psteps) →
      ∃ q, Progress [1, 2] scenario = some q ∧
        ∀ (k : ℕ) (t : ℚ) (out : List ℚ), k < gaps.length →
          minOf (scenario.Start ++ scenario.Finish ++ []) + (gaps.take k).sum < t →
          t < minOf (scenario.Start ++ scenario.Finish ++ []) + (gaps.take k).sum
            + gaps.getD k 0 →
          scenario.Cores ≤ out.length →
          ∃ out', q t out = some out' ∧
            ∀ c : ℕ, c < scenario.Cores → out'[c]? = P[k * scenario.Cores + c]?) := by
  have hwf : scenario.WellFormed := by simp [Schedule.WellFormed, scenario]
  have hno : scenario.NonOverlapping := by
    intro a b ha hb hab _
    simp only [scenario] at ha hb
    interval_cases a <;> interval_cases b <;> simp [scenario] at hab ⊢
  have hord : ∀ i : ℕ, i < scenario.Tasks →
      scenario.Start.getD i 0 ≤ scenario.Finish.getD i 0 := by
    intro i hi
    simp only [scenario] at hi
    interval_cases i <;> norm_num [scenario]
  refine ⟨hwf, rfl, hord, hno, ?_, ?_,
    profile_matches_query [1, 2] scenario [] hwf rfl hord hno⟩
  · norm_num [Partition, scenario, timeOf, copyAt, partitionBody, fillRows, traverse,
      traverseSorted, Quick, forRange, traverseBody, setAt, List.insertionSort,
      List.orderedInsert, List.enum, List.enumFrom, List.replicate, List.set]
  · norm_num [Progress, scenario, buildMapping, mappingBody, progressBody, scanTasks, forRange,
      setAt, List.replicate, List.set]

end Power
